import Mathlib

/-!
# Go-Coding-Questions: embeddings and theorems

The file embeds the source files of `internal/solutions` and `solutions`:
the concurrent B-tree (`concurrent_btree.go`, namespace `BTree`), the slice
clean-up (`slice_ops.go`, namespace `SliceOps`), the stack (`stack.go`,
namespace `StackOps`), the binary search tree (`binary_tree.go`, namespace
`BinTree`), the factorial (`fractorial.go`, namespace `Fractorial`), the custom
sort (`custom_sort.go`, namespace `CustomSort`), the palindrome test
(`palindrome.go`, namespace `Palindrome`) and the string pattern processor
(`string_processor.go`, namespace `StringProcessor`).  The definitions of all
of them come first, the theorems follow.

## Concurrent B-tree (`internal/solutions/concurrent_btree.go`)

A shallow embedding of the B-tree of `concurrent_btree.go` and theorems about
it.  The embedding describes one goroutine running one operation at a time:
the mutexes and the atomic root pointer are not represented.

Conventions of the embedding

* A `*BTreeNode` is a value of `BTreeNode K`: either `nil` or a node record.
  A pointer field is embedded as the node it points to, so a tree value is the
  unfolding of the pointer graph reachable from the root.
* `K` is the set of values of Go's `interface{}`; `default : K` is the nil
  interface value that `make` and `append(s, nil)` put into fresh slots.
* A slice is the `List` of its elements.  Its capacity is represented only
  where it can make the program panic: `make([]T, 0, c)` in
  `NewConcurrentBTree` panics when `c` is negative or above the largest
  capacity `maxCap` that the runtime accepts, a constant of the platform that
  the embedding takes as a parameter.
* Go's `int` is `Int`.  The capacity `2*degree-1` in `NewConcurrentBTree` is
  reduced to 64 bits with `wrapInt64`; in a tree that `NewConcurrentBTree`
  returned it is at most `maxCap`, so the same expression in `Insert` does not
  overflow.
* A run-time panic is `Except.error` with the kind of the panic.  A panic ends
  the operation: no tree is returned.
* A Go result `(v, error)` is a pair whose second component is a `GoError`.
-/

namespace BTree

/-! ## Run-time panics and Go slices -/

/-- Kinds of run-time panic of the Go program.  `outOfFuel` is not a panic: it
is returned when a recursion of the embedding has used up its step budget. -/
inductive Fault where
  | indexOutOfRange
  | sliceBoundsOutOfRange
  | nilDereference
  | makeLenOutOfRange
  | makeCapOutOfRange
  | outOfFuel
  deriving DecidableEq

/-- The fault is a panic of the Go program, not an exhausted step budget. -/
def Fault.isPanic : Fault → Bool
  | .outOfFuel => false
  | _ => true

/-- Go's `error` interface: `none` is the nil error. -/
abbrev GoError := Option String

/-- The index expression `s[i]`. -/
def goIndex {α : Type} (s : List α) (i : Int) : Except Fault α :=
  if 0 ≤ i then
    match s[i.toNat]? with
    | some a => .ok a
    | none => .error .indexOutOfRange
  else .error .indexOutOfRange

/-- The assignment `s[i] = v`. -/
def goSet {α : Type} (s : List α) (i : Int) (v : α) : Except Fault (List α) :=
  if 0 ≤ i ∧ i < s.length then .ok (s.set i.toNat v) else .error .indexOutOfRange

/-- The slice expression `s[lo:]`: in range when `0 <= lo <= len(s)`. -/
def goSliceFrom {α : Type} (s : List α) (lo : Int) : Except Fault (List α) :=
  if 0 ≤ lo ∧ lo ≤ s.length then .ok (s.drop lo.toNat) else .error .sliceBoundsOutOfRange

/-- The slice expression `s[:hi]`.  Go checks `hi` against the capacity; the
only use, in `splitChild`, comes after `s[degree:]` succeeded, where
`hi = degree - 1` is below the length. -/
def goSliceTo {α : Type} (s : List α) (hi : Int) : Except Fault (List α) :=
  if 0 ≤ hi ∧ hi ≤ s.length then .ok (s.take hi.toNat) else .error .sliceBoundsOutOfRange

/-- The expression `make([]T, n)`: `n` zero values. -/
def goMake (α : Type) [Inhabited α] (n : Int) : Except Fault (List α) :=
  if 0 ≤ n then .ok (List.replicate n.toNat default) else .error .makeLenOutOfRange

/-- The value of an `int` expression: the 64-bit two's-complement value of
the mathematical result. -/
def wrapInt64 (x : Int) : Int := (x + 2 ^ 63) % 2 ^ 64 - 2 ^ 63

/-- The expression `make([]T, 0, c)`: the empty slice, or a panic when the
capacity `c` is negative or above `maxCap`, the largest capacity that the
runtime accepts for the element type (a constant of the platform). -/
def goMakeCap (α : Type) (maxCap c : Int) : Except Fault (List α) :=
  if 0 ≤ c ∧ c ≤ maxCap then .ok [] else .error .makeCapOutOfRange

/-- The contents of `dst` after `copy(dst, src)`: the first
`min(len(dst), len(src))` elements are taken from `src`. -/
def goCopy {α : Type} (dst src : List α) : List α :=
  src.take dst.length ++ dst.drop src.length

/-- The contents of `s` after `copy(s[a:], s[b:])`; the two ranges may overlap
and the source is read as it was before the copy. -/
def goCopyWithin {α : Type} (s : List α) (a b : Int) : Except Fault (List α) := do
  let dst ← goSliceFrom s a
  let src ← goSliceFrom s b
  pure (s.take a.toNat ++ goCopy dst src)

/-- Go's `atomic.AddUint64(&v, 1)` on a `uint64`. -/
def bumpVersion (v : Nat) : Nat := (v + 1) % 2 ^ 64

/-! ## Data model -/

/-- A `*BTreeNode`: `nil`, or a node with its `version`, `keys`, `children`,
`isLeaf` and `next` fields (the mutex is not represented). -/
inductive BTreeNode (K : Type) where
  | nil : BTreeNode K
  | mk (version : Nat) (keys : List K) (children : List (BTreeNode K)) (isLeaf : Bool)
      (next : BTreeNode K) : BTreeNode K

instance {K : Type} : Inhabited (BTreeNode K) := ⟨BTreeNode.nil⟩

/-- The tree record: root pointer, degree and comparison function. -/
structure ConcurrentBTree (K : Type) where
  root : BTreeNode K
  degree : Int
  compare : K → K → Int

mutual
/-- Number of levels below a pointer: 0 for `nil`. -/
def BTreeNode.height {K : Type} : BTreeNode K → Nat
  | .nil => 0
  | .mk _ _ children _ _ => heightList children + 1
/-- Largest height among a list of nodes. -/
def heightList {K : Type} : List (BTreeNode K) → Nat
  | [] => 0
  | c :: cs => max c.height (heightList cs)
end

/-! ## Operations -/

/-- `NewConcurrentBTree(degree, compare)`: clamps the degree and installs an
empty leaf root whose key slice is made with capacity `2*degree-1`, an `int`
expression.  The capacity only matters for the panic of `make`: a slice is
embedded as the list of its elements.  `degree` stands for a Go `int`, a value
of the 64-bit range. -/
def NewConcurrentBTree {K : Type} (maxCap : Int) (degree : Int) (compare : K → K → Int) :
    Except Fault (ConcurrentBTree K) := do
  let degree := if degree < 2 then 2 else degree
  -- keys: make([]interface{}, 0, 2*degree-1)
  let keys ← goMakeCap K maxCap (wrapInt64 (2 * degree - 1))
  pure { root := .mk 0 keys [] true .nil, degree := degree, compare := compare }

/-- The loop `for i >= 0 && compare(keys[i], key) > 0 { i-- }` of
`insertNonFull`, started at `i = n - 1`; the result is the final `i`. -/
def scanDown {K : Type} (compare : K → K → Int) (keys : List K) (key : K) : Nat → Int
  | 0 => -1
  | n + 1 =>
    match keys[n]? with
    | some k => if compare k key > 0 then scanDown compare keys key n else (n : Int)
    | none => (n : Int)

/-- The loop `for i < len(keys) && compare(keys[i], key) < 0 { i++ }` of
`Search` and `findLeaf`, started at `i = 0`; the result is the final `i`. -/
def scanUp {K : Type} (compare : K → K → Int) (key : K) : List K → Nat
  | [] => 0
  | k :: ks => if compare k key < 0 then scanUp compare key ks + 1 else 0

/-- The children given to the new sibling in `splitChild`: none for a leaf,
else `make([]*BTreeNode, degree)` overwritten by `copy` from
`child.children[degree:]`. -/
def siblingChildren {K : Type} (degree : Int) (cIsLeaf : Bool) (cChildren : List (BTreeNode K)) :
    Except Fault (List (BTreeNode K)) :=
  if cIsLeaf then pure []
  else do
    let nChildren0 ← goMake (BTreeNode K) degree
    pure (goCopy nChildren0 (← goSliceFrom cChildren degree))

/-- `splitChild(parent, childIndex)`; the result is the parent after the
call, with the updated child and the new sibling among its children. -/
def splitChild {K : Type} [Inhabited K] (degree : Int) :
    BTreeNode K → Int → Except Fault (BTreeNode K)
  | .nil, _ => .error .nilDereference
  | .mk pVersion pKeys pChildren pIsLeaf pNext, childIndex => do
    -- child := parent.children[childIndex]
    let child ← goIndex pChildren childIndex
    match child with
    | .nil => .error .nilDereference
    | .mk cVersion cKeys cChildren cIsLeaf cNext =>
      -- newChild := &BTreeNode{isLeaf: child.isLeaf, keys: make([]interface{}, t.degree-1)}
      let nKeys0 ← goMake K (degree - 1)
      -- copy(newChild.keys, child.keys[t.degree:])
      let nKeys := goCopy nKeys0 (← goSliceFrom cKeys degree)
      -- if !child.isLeaf { newChild.children = make(..., t.degree); copy(..., child.children[t.degree:]) }
      let nChildren ← siblingChildren degree cIsLeaf cChildren
      -- child.keys = child.keys[:t.degree-1]
      let cKeys1 ← goSliceTo cKeys (degree - 1)
      let pChildren0 := pChildren.set childIndex.toNat (.mk cVersion cKeys1 cChildren cIsLeaf cNext)
      -- parent.children = append(parent.children, nil)
      let pChildren1 := pChildren0 ++ [BTreeNode.nil]
      -- copy(parent.children[childIndex+2:], parent.children[childIndex+1:])
      let pChildren2 ← goCopyWithin pChildren1 (childIndex + 2) (childIndex + 1)
      -- parent.children[childIndex+1] = newChild
      let pChildren3 ← goSet pChildren2 (childIndex + 1) (.mk 0 nKeys nChildren cIsLeaf .nil)
      -- parent.keys = append(parent.keys, nil)
      let pKeys1 := pKeys ++ [default]
      -- copy(parent.keys[childIndex+2:], parent.keys[childIndex+1:])
      let pKeys2 ← goCopyWithin pKeys1 (childIndex + 2) (childIndex + 1)
      -- parent.keys[childIndex+1] = child.keys[t.degree-1]
      let median ← goIndex cKeys1 (degree - 1)
      let pKeys3 ← goSet pKeys2 (childIndex + 1) median
      -- the three version increments
      let pChildren4 := pChildren3.set childIndex.toNat
        (.mk (bumpVersion cVersion) cKeys1 cChildren cIsLeaf cNext)
      let pChildren5 := pChildren4.set (childIndex + 1).toNat
        (.mk (bumpVersion 0) nKeys nChildren cIsLeaf .nil)
      pure (.mk (bumpVersion pVersion) pKeys3 pChildren5 pIsLeaf pNext)

/-- `insertNonFull(node, key)`; the result is the node after the call and the
returned error.  The first argument bounds the depth of the recursion. -/
def insertNonFull {K : Type} [Inhabited K] (degree : Int) (compare : K → K → Int) (key : K) :
    Nat → BTreeNode K → Except Fault (BTreeNode K × GoError)
  | 0, _ => .error .outOfFuel
  | _ + 1, .nil => .error .nilDereference
  | fuel + 1, .mk version keys children isLeaf next => do
    -- i := len(node.keys) - 1, then the downward scan
    let i := scanDown compare keys key keys.length
    if isLeaf then
      -- node.keys = append(node.keys, nil)
      let keys1 := keys ++ [default]
      -- copy(node.keys[i+2:], node.keys[i+1:])
      let keys2 ← goCopyWithin keys1 (i + 2) (i + 1)
      -- node.keys[i+1] = key
      let keys3 ← goSet keys2 (i + 1) key
      pure (.mk (bumpVersion version) keys3 children isLeaf next, none)
    else
      -- i++
      let i := i + 1
      -- child := node.children[i]
      let child ← goIndex children i
      match child with
      | .nil => .error .nilDereference
      | .mk _ cKeys _ _ _ =>
        if (cKeys.length : Int) = 2 * degree - 1 then
          -- t.splitChild(node, i); if t.compare(key, node.keys[i]) > 0 { i++ }
          match ← splitChild degree (.mk version keys children isLeaf next) i with
          | .nil => .error .nilDereference
          | .mk version1 keys1 children1 isLeaf1 next1 =>
            let k ← goIndex keys1 i
            let i := if compare key k > 0 then i + 1 else i
            -- return t.insertNonFull(node.children[i], key)
            let target ← goIndex children1 i
            let (target1, err) ← insertNonFull degree compare key fuel target
            pure (.mk version1 keys1 (children1.set i.toNat target1) isLeaf1 next1, err)
        else
          -- return t.insertNonFull(node.children[i], key)
          let (child1, err) ← insertNonFull degree compare key fuel child
          pure (.mk version keys (children.set i.toNat child1) isLeaf next, err)

/-- `Insert(key)`; the result is the tree after the call and the returned
error.  The recursion budget exceeds the height of the tree. -/
def ConcurrentBTree.Insert {K : Type} [Inhabited K] (t : ConcurrentBTree K) (key : K) :
    Except Fault (ConcurrentBTree K × GoError) :=
  match t.root with
  | .nil => .error .nilDereference
  | .mk version keys children isLeaf next =>
    if (keys.length : Int) = 2 * t.degree - 1 then do
      -- newRoot := &BTreeNode{isLeaf: false, keys: make([]interface{}, 0), children: []*BTreeNode{root}}
      let newRoot0 : BTreeNode K := .mk 0 [] [.mk version keys children isLeaf next] false .nil
      -- t.splitChild(newRoot, 0); t.root.Store(newRoot)
      let newRoot ← splitChild t.degree newRoot0 0
      -- return t.insertNonFull(newRoot, key)
      let (newRoot1, err) ← insertNonFull t.degree t.compare key (newRoot.height + 1) newRoot
      pure ({ t with root := newRoot1 }, err)
    else do
      -- return t.insertNonFull(root, key)
      let (root1, err) ← insertNonFull t.degree t.compare key (t.root.height + 1) t.root
      pure ({ t with root := root1 }, err)

/-- The test `i < len(node.keys) && compare(node.keys[i], key) == 0` of `Search`. -/
def foundAt {K : Type} (compare : K → K → Int) (key : K) (keys : List K) (i : Nat) : Bool :=
  match keys[i]? with
  | some k => decide (compare k key = 0)
  | none => false

mutual
/-- The loop of `Search`, entered with `node`. -/
def searchNode {K : Type} (compare : K → K → Int) (key : K) :
    BTreeNode K → Except Fault (Bool × GoError)
  | .nil => .error .nilDereference
  | .mk _ keys children isLeaf _ =>
    let i := scanUp compare key keys
    if foundAt compare key keys i then .ok (true, none)
    else if isLeaf then .ok (false, none)
    else searchChild compare key children i
/-- The step `node = node.children[i]` of `Search`, followed by the rest of the loop. -/
def searchChild {K : Type} (compare : K → K → Int) (key : K) :
    List (BTreeNode K) → Nat → Except Fault (Bool × GoError)
  | [], _ => .error .indexOutOfRange
  | c :: _, 0 => searchNode compare key c
  | _ :: cs, i + 1 => searchChild compare key cs i
end

/-- `Search(key)`. -/
def ConcurrentBTree.Search {K : Type} (t : ConcurrentBTree K) (key : K) :
    Except Fault (Bool × GoError) :=
  searchNode t.compare key t.root

mutual
/-- The loop of `findLeaf`, entered with `node`; the result is the leaf reached. -/
def findLeafNode {K : Type} (compare : K → K → Int) (key : K) :
    BTreeNode K → Except Fault (BTreeNode K)
  | .nil => .error .nilDereference
  | .mk version keys children isLeaf next =>
    if isLeaf then .ok (.mk version keys children isLeaf next)
    else findLeafChild compare key children (scanUp compare key keys)
/-- The step `node = node.children[i]` of `findLeaf`, followed by the rest of the loop. -/
def findLeafChild {K : Type} (compare : K → K → Int) (key : K) :
    List (BTreeNode K) → Nat → Except Fault (BTreeNode K)
  | [], _ => .error .indexOutOfRange
  | c :: _, 0 => findLeafNode compare key c
  | _ :: cs, i + 1 => findLeafChild compare key cs i
end

/-- `findLeaf(key)`. -/
def ConcurrentBTree.findLeaf {K : Type} (t : ConcurrentBTree K) (key : K) :
    Except Fault (BTreeNode K) :=
  findLeafNode t.compare key t.root

/-- The loop `for _, key := range node.keys` of `RangeQuery` over the keys
not yet visited; the result is the collected keys and whether the function
returned from inside the loop. -/
def scanLeafKeys {K : Type} (compare : K → K → Int) (start end_ : K) :
    List K → List K → List K × Bool
  | [], result => (result, false)
  | key :: rest, result =>
    let result :=
      if compare key start ≥ 0 ∧ compare key end_ ≤ 0 then result ++ [key] else result
    if compare key end_ > 0 then (result, true)
    else scanLeafKeys compare start end_ rest result

/-- The loop `for node != nil` of `RangeQuery`. -/
def rangeLoop {K : Type} (compare : K → K → Int) (start end_ : K) :
    BTreeNode K → List K → List K
  | .nil, result => result
  | .mk _ keys _ _ next, result =>
    match scanLeafKeys compare start end_ keys result with
    | (result1, true) => result1
    | (result1, false) => rangeLoop compare start end_ next result1

/-- `RangeQuery(start, end)`. -/
def ConcurrentBTree.RangeQuery {K : Type} (t : ConcurrentBTree K) (start end_ : K) :
    Except Fault (List K × GoError) := do
  let node ← t.findLeaf start
  pure (rangeLoop t.compare start end_ node [], none)

mutual
/-- `cloneNode`: the clone has version 0 and a nil `next`. -/
def cloneNode {K : Type} [Inhabited K] : BTreeNode K → BTreeNode K
  | .nil => .nil
  | .mk _ keys children isLeaf _ =>
    .mk 0 (goCopy (List.replicate keys.length default) keys)
      (if isLeaf then [] else cloneChildren children) isLeaf .nil
/-- The loop `for i, child := range node.children` of `cloneNode`. -/
def cloneChildren {K : Type} [Inhabited K] : List (BTreeNode K) → List (BTreeNode K)
  | [] => []
  | c :: cs => cloneNode c :: cloneChildren cs
end

/-- `Snapshot()`.  The call of `NewConcurrentBTree` is the only statement of
`Snapshot` and `cloneNode` that can panic. -/
def ConcurrentBTree.Snapshot {K : Type} [Inhabited K] (t : ConcurrentBTree K) (maxCap : Int) :
    Except Fault (ConcurrentBTree K × GoError) := do
  let snapshot ← NewConcurrentBTree maxCap t.degree t.compare
  pure ({ snapshot with root := cloneNode t.root }, none)

/-! ## Callers, comparison functions and example trees -/

/-- A caller that inserts the keys of a list one after another into `t` and
stops at the first panic. -/
def ConcurrentBTree.insertAll {K : Type} [Inhabited K] (t : ConcurrentBTree K) :
    List K → Except Fault (ConcurrentBTree K)
  | [] => .ok t
  | k :: ks => do
    let (t1, _) ← t.Insert k
    insertAll t1 ks

/-- The largest capacity that `make` accepts for a slice of interface values
(16 bytes each) where the runtime can allocate up to `2^48` bytes; used in the
examples. -/
def maxCap64 : Int := 2 ^ 44

/-- The three-way comparison of Go integers used in the examples. -/
def intCompare (a b : Int) : Int := if a < b then -1 else if b < a then 1 else 0

/-- The tree that `NewConcurrentBTree(degree, intCompare)` returns for a
degree of at least 2 that `make` accepts. -/
def newIntTree (degree : Int) : ConcurrentBTree Int :=
  { root := .mk 0 [] [] true .nil, degree := degree, compare := intCompare }

/-- The ascending integer keys `1, ..., n`. -/
def ascendingKeys (n : Nat) : List Int := List.map (fun i : Nat => (i : Int) + 1) (List.range n)

/-- A comparison function that is a consistent total order. -/
structure TotalOrderCmp {K : Type} (compare : K → K → Int) : Prop where
  refl : ∀ a, compare a a = 0
  antisymm : ∀ a b, compare a b < 0 ↔ 0 < compare b a
  trans : ∀ a b c, compare a b ≤ 0 → compare b c ≤ 0 → compare a c ≤ 0

/-- A two-level tree of degree 2: the root holds 2, its children are the
leaves holding 1 and 3, and the first leaf's `next` is the second leaf. -/
def twoLevelTree : ConcurrentBTree Int :=
  { root := .mk 0 [2] [.mk 0 [1] [] true (.mk 0 [3] [] true .nil), .mk 0 [3] [] true .nil]
      false .nil,
    degree := 2,
    compare := intCompare }

/-- The tree `twoLevelTree` after `Insert(0)`: the key went into the first
leaf. -/
def twoLevelTreeWithZero : ConcurrentBTree Int :=
  { root := .mk 0 [2]
      [.mk 1 [0, 1] [] true (.mk 0 [3] [] true .nil), .mk 0 [3] [] true .nil] false .nil,
    degree := 2,
    compare := intCompare }

/-- Position at which the leaf case of `insertNonFull` stores the key: `i+1`
for the `i` left by the downward scan. -/
def leafSlot {K : Type} (compare : K → K → Int) (keys : List K) (key : K) : Nat :=
  (scanDown compare keys key keys.length + 1).toNat

/-- The keys of a leaf after the leaf case of `insertNonFull` stored `key`. -/
def leafInsert {K : Type} (compare : K → K → Int) (keys : List K) (key : K) : List K :=
  keys.take (leafSlot compare keys key) ++ key :: keys.drop (leafSlot compare keys key)

/-- The tree is a single leaf that holds `keys`: the only shape `Insert`
produces from a new tree. -/
def LeafRoot {K : Type} (t : ConcurrentBTree K) (keys : List K) : Prop :=
  ∃ version, t.root = .mk version keys [] true .nil

mutual
/-- The keys held by the nodes of the tree below a pointer.  The nodes of the
tree are the root and the children of its internal nodes: as `Search`,
`findLeaf` and `cloneNode` do, the traversal stops at a node flagged leaf. -/
def BTreeNode.subtreeKeys {K : Type} : BTreeNode K → List K
  | .nil => []
  | .mk _ keys children isLeaf _ => keys ++ (if isLeaf then [] else subtreeKeysList children)
/-- The keys held by the trees below a list of pointers. -/
def subtreeKeysList {K : Type} : List (BTreeNode K) → List K
  | [] => []
  | c :: cs => c.subtreeKeys ++ subtreeKeysList cs
end

/-- Adjacent keys are strictly ascending: `compare(keys[i], keys[i+1]) < 0`. -/
def StrictlySorted {K : Type} (compare : K → K → Int) : List K → Prop
  | [] => True
  | [_] => True
  | a :: b :: rest => compare a b < 0 ∧ StrictlySorted compare (b :: rest)

/-- Keys in ascending order, equal keys allowed: `compare a b <= 0` for every
key `a` that comes before a key `b`. -/
def SortedLE {K : Type} (compare : K → K → Int) (keys : List K) : Prop :=
  keys.Pairwise (fun a b => compare a b ≤ 0)

/-- A search tree: every node's keys are strictly sorted, an internal node
with `n` keys has `n+1` children (none of them nil), and the keys below the
`i`-th child lie strictly between `keys[i-1]` and `keys[i]` (no bound where the
key is missing). -/
inductive SearchTree {K : Type} (compare : K → K → Int) : BTreeNode K → Prop
  | leaf (version : Nat) (keys : List K) (children : List (BTreeNode K)) (next : BTreeNode K) :
      StrictlySorted compare keys →
      SearchTree compare (.mk version keys children true next)
  | internal (version : Nat) (keys : List K) (children : List (BTreeNode K))
      (next : BTreeNode K) :
      StrictlySorted compare keys →
      children.length = keys.length + 1 →
      (∀ c ∈ children, SearchTree compare c) →
      (∀ (i : Nat) (c : BTreeNode K), children[i]? = some c → ∀ k ∈ c.subtreeKeys,
        (∀ a, keys[i]? = some a → compare k a < 0) ∧
        (∀ j a, i = j + 1 → keys[j]? = some a → compare a k < 0)) →
      SearchTree compare (.mk version keys children false next)

mutual
/-- The leaves of the tree below a pointer, from left to right. -/
def BTreeNode.leaves {K : Type} : BTreeNode K → List (BTreeNode K)
  | .nil => []
  | .mk version keys children isLeaf next =>
    if isLeaf then [.mk version keys children isLeaf next] else leavesList children
/-- The leaves of the trees below a list of pointers, from left to right. -/
def leavesList {K : Type} : List (BTreeNode K) → List (BTreeNode K)
  | [] => []
  | c :: cs => c.leaves ++ leavesList cs
end

mutual
/-- The depths at which the leaves below a pointer lie, from left to right. -/
def BTreeNode.leafDepths {K : Type} : BTreeNode K → List Nat
  | .nil => []
  | .mk _ _ children isLeaf _ => if isLeaf then [0] else leafDepthsList children
/-- The leaf depths below a list of pointers, each counted from the parent. -/
def leafDepthsList {K : Type} : List (BTreeNode K) → List Nat
  | [] => []
  | c :: cs => c.leafDepths.map (· + 1) ++ leafDepthsList cs
end

/-- All leaves are at the same depth. -/
def Balanced {K : Type} (node : BTreeNode K) : Prop :=
  ∀ d1 ∈ node.leafDepths, ∀ d2 ∈ node.leafDepths, d1 = d2

/-- The `next` field of a node (nil for the nil pointer). -/
def BTreeNode.nextOf {K : Type} : BTreeNode K → BTreeNode K
  | .nil => .nil
  | .mk _ _ _ _ next => next

/-- The `next` fields link the given leaves in order: each leaf's `next` is
the following leaf and the last leaf's `next` is nil. -/
def LeafChain {K : Type} : List (BTreeNode K) → Prop
  | [] => True
  | [l] => l.nextOf = .nil
  | l :: l1 :: rest => l.nextOf = l1 ∧ LeafChain (l1 :: rest)

mutual
/-- Two pointers lead to trees of the same shape: both nil, or two nodes with
the same leaf flag and the same key sequence whose children, when the nodes
are internal, correspond one to one and have the same shape in turn. -/
def SameShape {K : Type} : BTreeNode K → BTreeNode K → Prop
  | .nil, .nil => True
  | .nil, .mk _ _ _ _ _ => False
  | .mk _ _ _ _ _, .nil => False
  | .mk _ keys1 children1 isLeaf1 _, .mk _ keys2 children2 isLeaf2 _ =>
    keys1 = keys2 ∧ isLeaf1 = isLeaf2 ∧ (isLeaf1 = false → SameShapeList children1 children2)
/-- Two lists of pointers have the same length and lead to trees of the same
shape position by position. -/
def SameShapeList {K : Type} : List (BTreeNode K) → List (BTreeNode K) → Prop
  | [], [] => True
  | [], _ :: _ => False
  | _ :: _, [] => False
  | c :: cs, d :: ds => SameShape c d ∧ SameShapeList cs ds
end

/-- The `version` field of a node (0 for the nil pointer). -/
def BTreeNode.versionOf {K : Type} : BTreeNode K → Nat
  | .nil => 0
  | .mk version _ _ _ _ => version

/-- The `keys` field of a node (empty for the nil pointer). -/
def BTreeNode.keysOf {K : Type} : BTreeNode K → List K
  | .nil => []
  | .mk _ keys _ _ _ => keys

/-- The `children` field of a node (empty for the nil pointer). -/
def BTreeNode.childrenOf {K : Type} : BTreeNode K → List (BTreeNode K)
  | .nil => []
  | .mk _ _ children _ _ => children

/-- The `isLeaf` field of a node (false for the nil pointer). -/
def BTreeNode.isLeafOf {K : Type} : BTreeNode K → Bool
  | .nil => false
  | .mk _ _ _ isLeaf _ => isLeaf

mutual
/-- The nodes of the tree below a pointer, the root first: the root and, for
an internal node, the nodes of the trees below its children. -/
def BTreeNode.nodes {K : Type} : BTreeNode K → List (BTreeNode K)
  | .nil => []
  | .mk version keys children isLeaf next =>
    .mk version keys children isLeaf next :: (if isLeaf then [] else nodesList children)
/-- The nodes of the trees below a list of pointers. -/
def nodesList {K : Type} : List (BTreeNode K) → List (BTreeNode K)
  | [] => []
  | c :: cs => c.nodes ++ nodesList cs
end

/-- The nodes of the tree other than its root. -/
def BTreeNode.nonRootNodes {K : Type} : BTreeNode K → List (BTreeNode K)
  | .nil => []
  | .mk _ _ children isLeaf _ => if isLeaf then [] else nodesList children

/-- The tree of degree 2 that holds the key 1 twice, as built by two calls
`Insert(1)` on a new tree. -/
def duplicateKeyTree : ConcurrentBTree Int :=
  { root := .mk 2 [1, 1] [] true .nil, degree := 2, compare := intCompare }

/-- A full leaf of degree 2 with keys 1, 2, 3 whose `next` is the leaf
holding 7. -/
def fullLeaf : BTreeNode Int := .mk 0 [1, 2, 3] [] true (.mk 0 [7] [] true .nil)

/-- A parent with one key and two children whose first child is `fullLeaf`. -/
def parentOfFullLeaf : BTreeNode Int :=
  .mk 0 [5] [fullLeaf, .mk 0 [7] [] true .nil] false .nil

/-- A full internal node of degree 2: keys 10, 20, 30 and four leaf children. -/
def fullInternal : BTreeNode Int :=
  .mk 0 [10, 20, 30]
    [.mk 0 [5] [] true .nil, .mk 0 [15] [] true .nil, .mk 0 [25] [] true .nil,
      .mk 0 [35] [] true .nil] false .nil

/-- A parent with one key and two children whose first child is
`fullInternal`. -/
def parentOfFullInternal : BTreeNode Int :=
  .mk 0 [40] [fullInternal, .mk 0 [50] [.mk 0 [45] [] true .nil, .mk 0 [55] [] true .nil]
    false .nil] false .nil

/-- The degree bounds of the data model: the root holds between 0 and `2t-1`
keys and every other node between `t-1` and `2t-1`, `t` the degree. -/
def DegreeBounds {K : Type} (t : ConcurrentBTree K) : Prop :=
  (0 ≤ (t.root.keysOf.length : Int) ∧ (t.root.keysOf.length : Int) ≤ 2 * t.degree - 1) ∧
    ∀ n ∈ t.root.nonRootNodes,
      t.degree - 1 ≤ (n.keysOf.length : Int) ∧ (n.keysOf.length : Int) ≤ 2 * t.degree - 1

/-- Every internal node of the tree below a pointer has one child more than
it has keys: `len(children) == len(keys) + 1`. -/
def ChildCount {K : Type} (node : BTreeNode K) : Prop :=
  ∀ n ∈ node.nodes, n.isLeafOf = false → n.childrenOf.length = n.keysOf.length + 1

/-- The keys of the leaves that the loop of `RangeQuery` visits when it is
entered with the given node: the keys of each leaf along the `next` chain, up
to and including the first leaf that holds a key greater than `end_` (the loop
returns inside that leaf). -/
def scannedKeys {K : Type} (compare : K → K → Int) (end_ : K) : BTreeNode K → List K
  | .nil => []
  | .mk _ keys _ _ next =>
    if keys.any (fun key => decide (compare key end_ > 0)) then keys
    else keys ++ scannedKeys compare end_ next

end BTree

/-!
# Slice operations (`internal/solutions/slice_ops.go`)

`CleanupSlice` is embedded as its three passes.  A Go `map[int]V` is the list
of its entries, each key once, in the order in which the keys were first
assigned; a `range` loop over a map visits the entries in list order (Go leaves
the order open, and the map built by the second pass does not depend on it).
Counters never leave the range of Go's `int`: no count exceeds `len(numbers)`.
-/

namespace SliceOps

/-- A Go `map[int]V` as the list of its entries. -/
abbrev GoMap (V : Type) := List (Int × V)

/-- The lookup `v, ok := m[k]`: `none` when the key is absent. -/
def mapFind {V : Type} (k : Int) : GoMap V → Option V
  | [] => none
  | (k1, v) :: m => if k1 = k then some v else mapFind k m

/-- The index expression `m[k]`: the zero value when the key is absent. -/
def mapGet {V : Type} [Inhabited V] (m : GoMap V) (k : Int) : V :=
  (mapFind k m).getD default

/-- The assignment `m[k] = v`. -/
def mapSet {V : Type} (k : Int) (v : V) : GoMap V → GoMap V
  | [] => [(k, v)]
  | (k1, v1) :: m => if k1 = k then (k, v) :: m else (k1, v1) :: mapSet k v m

/-- First pass of `CleanupSlice`: `counts[num]++` for every element. -/
def countOccurrences (numbers : List Int) : GoMap Int :=
  numbers.foldl (fun counts num => mapSet num (mapGet counts num + 1) counts) []

/-- Second pass of `CleanupSlice`: the entries of `counts` whose count exceeds
`maxOccurrences`. -/
def collectExcessive (maxOccurrences : Int) (counts : GoMap Int) : GoMap Int :=
  counts.foldl
    (fun excessive e => if e.2 > maxOccurrences then mapSet e.1 e.2 excessive else excessive) []

/-- Third pass of `CleanupSlice`: the state `(seen, result)` after the loop
over `numbers`. -/
def buildResult (maxOccurrences : Int) (counts : GoMap Int) (numbers : List Int) :
    GoMap Bool × List Int :=
  numbers.foldl
    (fun st num =>
      if !(mapGet st.1 num) && decide (mapGet counts num ≤ maxOccurrences) then
        (mapSet num true st.1, st.2 ++ [num])
      else st)
    ([], [])

/-- `CleanupSlice(numbers, maxOccurrences)`: the result slice and the map of
excessive numbers. -/
def CleanupSlice (numbers : List Int) (maxOccurrences : Int) : List Int × GoMap Int :=
  let counts := countOccurrences numbers
  let excessive := collectExcessive maxOccurrences counts
  let result := (buildResult maxOccurrences counts numbers).2
  (result, excessive)

/-- The distinct values of a list in the order of their first occurrence. -/
def firstOccurrences : List Int → List Int
  | [] => []
  | x :: xs => x :: (firstOccurrences xs).filter (fun y => decide (y ≠ x))

/-- The slice that the description of `CleanupSlice` asks for: the distinct
values occurring at most `N` times in `numbers`, in order of first occurrence. -/
def keptValues (numbers : List Int) (N : Int) : List Int :=
  (firstOccurrences numbers).filter (fun v => decide ((numbers.count v : Int) ≤ N))

end SliceOps

/-!
# Stack (`internal/solutions/stack.go`)

The stack is the list of its elements, the top last.  `Pop` returns its two
results together with the stack after the call.
-/

namespace StackOps

open BTree (Fault GoError goIndex goSliceTo)

/-- The `Stack` record; the zero value has a nil `elements` slice. -/
structure Stack where
  elements : List Int

/-- `IsEmpty()`: `len(s.elements) == 0`. -/
def Stack.IsEmpty (s : Stack) : Bool := decide (s.elements.length = 0)

/-- `Push(value)`: `s.elements = append(s.elements, value)`. -/
def Stack.Push (s : Stack) (value : Int) : Stack :=
  { elements := s.elements ++ [value] }

/-- `Pop()`; the result is the returned pair and the stack after the call. -/
def Stack.Pop (s : Stack) : Except Fault ((Int × GoError) × Stack) :=
  if s.IsEmpty then .ok ((0, some "stack is empty"), s)
  else do
    -- value := s.elements[len(s.elements)-1]
    let value ← goIndex s.elements ((s.elements.length : Int) - 1)
    -- s.elements = s.elements[:len(s.elements)-1]
    let elements ← goSliceTo s.elements ((s.elements.length : Int) - 1)
    pure ((value, none), { elements := elements })

/-- `Peek()`; the stack is not assigned to. -/
def Stack.Peek (s : Stack) : Except Fault (Int × GoError) :=
  if s.IsEmpty then .ok (0, some "stack is empty")
  else do
    let value ← goIndex s.elements ((s.elements.length : Int) - 1)
    pure (value, none)

/-- A caller that pushes the values of a list, the first value first. -/
def pushAll (s : Stack) : List Int → Stack
  | [] => s
  | v :: vs => pushAll (s.Push v) vs

/-- A caller that calls `Pop` `n` times and collects the returned pairs. -/
def popN : Nat → Stack → Except Fault (List (Int × GoError) × Stack)
  | 0, s => .ok ([], s)
  | n + 1, s => do
    let (r, s1) ← s.Pop
    let (rs, s2) ← popN n s1
    pure (r :: rs, s2)

end StackOps

/-!
# Binary search tree (`internal/solutions/binary_tree.go`)

`*Node` is embedded by value: `Node.nil` is the nil pointer, `Node.mk` a node
with its two subtrees.  `Value` is a Go `int`; only comparisons are applied to
it, so it is an `Int`.  A method that updates the tree in place returns the
updated tree.
-/

namespace BinTree

open BTree (Fault)

/-- `*Node`: nil, or a node with `Value`, `Left` and `Right`. -/
inductive Node where
  | nil : Node
  | mk (Value : Int) (Left Right : Node) : Node

/-- `BinaryTree`. -/
structure BinaryTree where
  Root : Node

/-- The zero value `BinaryTree{}`: the empty tree. -/
def BinaryTree.empty : BinaryTree := { Root := .nil }

/-- The test `node == nil`. -/
def Node.isNil : Node → Bool
  | .nil => true
  | .mk _ _ _ => false

/-- `insertRecursive(node, value)`; the result is the updated node.  Reading
`node.Value` of a nil node is a nil dereference. -/
def insertRecursive : Node → Int → Except Fault Node
  | .nil, _ => .error .nilDereference
  | .mk v l r, value =>
    if value ≤ v then
      if l.isNil then .ok (.mk v (.mk value .nil .nil) r)
      else do
        let l1 ← insertRecursive l value
        pure (.mk v l1 r)
    else
      if r.isNil then .ok (.mk v l (.mk value .nil .nil))
      else do
        let r1 ← insertRecursive r value
        pure (.mk v l r1)

/-- `Insert(value)`. -/
def BinaryTree.Insert (t : BinaryTree) (value : Int) : Except Fault BinaryTree :=
  if t.Root.isNil then .ok { Root := .mk value .nil .nil }
  else do
    let root1 ← insertRecursive t.Root value
    pure { Root := root1 }

/-- `findRecursive(node, value)`. -/
def findRecursive : Node → Int → Bool
  | .nil, _ => false
  | .mk v l r, value =>
    if v = value then true
    else if value < v then findRecursive l value
    else findRecursive r value

/-- `Find(value)`. -/
def BinaryTree.Find (t : BinaryTree) (value : Int) : Bool :=
  findRecursive t.Root value

/-- `inOrderRecursive(node, result)`; the result is the slice `*result` after
the call. -/
def inOrderRecursive : Node → List Int → List Int
  | .nil, result => result
  | .mk v l r, result => inOrderRecursive r (inOrderRecursive l result ++ [v])

/-- `InOrderTraversal()`. -/
def BinaryTree.InOrderTraversal (t : BinaryTree) : List Int :=
  inOrderRecursive t.Root []

/-- A caller inserting the values one after the other, stopping at the first
panic. -/
def BinaryTree.insertAll (t : BinaryTree) : List Int → Except Fault BinaryTree
  | [] => .ok t
  | v :: vs => do
    let t1 ← t.Insert v
    t1.insertAll vs

/-- The search-tree property that `insertRecursive` maintains: in every node
the values of the left subtree are at most `Value` and those of the right
subtree are greater. -/
def Ordered : Node → Prop
  | .nil => True
  | .mk v l r =>
    (∀ x ∈ inOrderRecursive l [], x ≤ v) ∧ (∀ x ∈ inOrderRecursive r [], v < x) ∧
      Ordered l ∧ Ordered r

end BinTree

/-!
# Factorial (`solutions/fractorial.go`)

`int` is the 64-bit signed integer: the value of an arithmetic expression is
reduced with `wrapInt`.
-/

namespace Fractorial

/-- The 64-bit two's-complement value of a mathematical integer. -/
def wrapInt (x : Int) : Int := (x + 2 ^ 63) % 2 ^ 64 - 2 ^ 63

/-- The loop `for i := 1; i <= n; i++ { result *= i }` entered with the given
`i` and `result`; the first argument bounds the number of times the condition
is tested, and the result is `none` when that bound is used up. -/
def factorialLoop (n : Int) : Nat → Int → Int → Option Int
  | 0, _, _ => none
  | fuel + 1, i, result =>
    if i ≤ n then factorialLoop n fuel (wrapInt (i + 1)) (wrapInt (result * i))
    else some result

/-- `Factorial(n)`.  The condition is tested `n + 1` times when `0 <= n` and
once otherwise, unless `i++` overflows (`n` the largest `int`), in which case
the loop does not end and the result is `none`. -/
def Factorial (n : Int) : Option Int := factorialLoop n (n.toNat + 1) 1 1

/-- The products `result * i` that the loop forms, as mathematical integers,
before each is stored in the 64-bit `result`. -/
def factorialProducts (n : Int) : Nat → Int → Int → List Int
  | 0, _, _ => []
  | fuel + 1, i, result =>
    if i ≤ n then
      (result * i) :: factorialProducts n fuel (wrapInt (i + 1)) (wrapInt (result * i))
    else []

end Fractorial

/-!
# Custom sort (`internal/solutions/custom_sort.go`)

One goroutine calls `Sort`; the embedded mutex is not modelled.  `Height` is a
`float64`, kept as a type parameter, and `sort.Sort` is library code, taken as
a parameter: it rearranges the collection through `Len`, `Less` and `Swap`.
-/

namespace CustomSort

open BTree (GoError)

/-- `Person`, with the type of `Height` as a parameter. -/
structure Person (H : Type) where
  Name : String
  Age : Int
  Height : H

/-- `PersonCollection`. -/
structure PersonCollection (H : Type) where
  People : List (Person H)
  SortField : String
  Ascending : Bool

/-- The map literal `validFields`. -/
def validFields : List (String × Bool) :=
  [("name", true), ("age", true), ("height", true)]

/-- `isValidSortField()`: the lookup `validFields[pc.SortField]`, which is
`false` for a key that is not in the map. -/
def PersonCollection.isValidSortField {H : Type} (pc : PersonCollection H) : Bool :=
  (validFields.lookup pc.SortField).getD false

/-- `Sort()`; the result is the collection after the call and the returned
error.  `sortSort` is `sort.Sort`. -/
def PersonCollection.Sort {H : Type} (sortSort : PersonCollection H → PersonCollection H)
    (pc : PersonCollection H) : PersonCollection H × GoError :=
  if !pc.isValidSortField then (pc, some ("invalid sort field: " ++ pc.SortField))
  else (sortSort pc, none)

/-- A collection of two people with a sort field that is not valid. -/
def byWeight : PersonCollection Unit :=
  { People := [{ Name := "Bob", Age := 30, Height := () }, { Name := "Al", Age := 25, Height := () }],
    SortField := "weight",
    Ascending := true }

end CustomSort

/-!
# Palindrome (`internal/solutions/palindrome.go`)

The argument is the string whose runes `range s` yields.  `unicode.IsLetter`,
`unicode.IsNumber` and `unicode.ToLower` are library code, taken as
parameters.
-/

namespace Palindrome

open BTree (Fault goIndex)

/-- The loop `for _, char := range s` over the runes not yet visited; the
result is the slice `cleaned` after the loop. -/
def cleanRunes (isLetter isNumber : Char → Bool) (toLower : Char → Char) :
    List Char → List Char → List Char
  | [], cleaned => cleaned
  | char :: rest, cleaned =>
    cleanRunes isLetter isNumber toLower rest
      (if isLetter char || isNumber char then cleaned ++ [toLower char] else cleaned)

/-- The loop `for left < right`; the first argument bounds the number of times
the condition is tested. -/
def comparePairs (cleaned : List Char) : Nat → Int → Int → Except Fault Bool
  | 0, _, _ => .error .outOfFuel
  | fuel + 1, left, right =>
    if left < right then do
      let a ← goIndex cleaned left
      let b ← goIndex cleaned right
      if a ≠ b then pure false
      else comparePairs cleaned fuel (left + 1) (right - 1)
    else pure true

/-- `IsPalindrome(s)`.  The loop tests its condition at most
`len(cleaned) + 1` times. -/
def IsPalindrome (isLetter isNumber : Char → Bool) (toLower : Char → Char) (s : String) :
    Except Fault Bool :=
  let cleaned := cleanRunes isLetter isNumber toLower s.data []
  comparePairs cleaned (cleaned.length + 1) 0 ((cleaned.length : Int) - 1)

/-- Specification side: the letters and digits of `s` in order, lower-cased,
all other characters dropped. -/
def lettersAndDigits (isLetter isNumber : Char → Bool) (toLower : Char → Char) (s : String) :
    List Char :=
  (s.data.filter (fun c => isLetter c || isNumber c)).map toLower

/-- A classification that agrees with `unicode.IsLetter` on ASCII characters. -/
def asciiLetter (c : Char) : Bool := c.isAlpha

/-- A classification that agrees with `unicode.IsNumber` on ASCII characters. -/
def asciiDigit (c : Char) : Bool := c.isDigit

/-- A mapping that agrees with `unicode.ToLower` on ASCII characters. -/
def asciiLower (c : Char) : Char := c.toLower

end Palindrome

/-!
# String pattern processor (`internal/solutions/string_processor.go`)

Texts are lists of characters.  The `regexp` and `strings` packages are
library code.  The one regular expression of the program,
`\{([^:{}]+):([^:{}]+)\}`, is embedded directly: both of its character classes
exclude the three delimiters, so a match that starts at a given position is
unique.  `unicode.IsSpace`, used by `strings.TrimSpace`, is a parameter.
-/

namespace StringProcessor

open BTree (GoError)

/-- `Pattern`. -/
structure Pattern where
  Key : String
  Value : String
  deriving DecidableEq, Repr

/-- The opening brace. -/
def openBrace : Char := Char.ofNat 123

/-- The closing brace. -/
def closeBrace : Char := Char.ofNat 125

/-- The colon. -/
def colon : Char := Char.ofNat 58

/-- The character class `[^:{}]`. -/
def isFieldChar (c : Char) : Bool := c != colon && c != openBrace && c != closeBrace

/-- A match of the regular expression that starts at the head of the given
text: the key group, the value group and the text after the match. -/
def matchHere : List Char → Option (List Char × List Char × List Char)
  | [] => none
  | c :: s1 =>
    if c = openBrace then
      let key := s1.takeWhile isFieldChar
      match s1.dropWhile isFieldChar with
      | [] => none
      | c2 :: s2 =>
        if c2 = colon ∧ key ≠ [] then
          let value := s2.takeWhile isFieldChar
          match s2.dropWhile isFieldChar with
          | [] => none
          | c3 :: s3 => if c3 = closeBrace ∧ value ≠ [] then some (key, value, s3) else none
        else none
    else none

/-- The text of the match with the given groups: `match[0]`. -/
def fullMatch (key value : List Char) : List Char :=
  openBrace :: key ++ colon :: value ++ [closeBrace]

/-- `re.FindAllStringSubmatch(input, -1)` over the text not yet scanned, of
which the first `skip` characters belong to the previous match: the leftmost
matches that do not overlap, each as `match[0]`, `match[1]`, `match[2]`. -/
def findAllFrom : List Char → Nat → List (List Char × List Char × List Char)
  | [], _ => []
  | _ :: rest, skip + 1 => findAllFrom rest skip
  | c :: rest, 0 =>
    match matchHere (c :: rest) with
    | some (key, value, _) =>
      (fullMatch key value, key, value) :: findAllFrom rest (key.length + value.length + 2)
    | none => findAllFrom rest 0

/-- `strings.TrimSpace(s)`. -/
def trimSpace (isSpace : Char → Bool) (s : List Char) : List Char :=
  ((s.dropWhile isSpace).reverse.dropWhile isSpace).reverse

/-- `strings.Replace(s, old, new, 1)` for a non-empty `old`: the first
occurrence of `old` in `s` is replaced. -/
def replaceFirst (old new : List Char) : List Char → List Char
  | [] => []
  | c :: rest =>
    if old.isPrefixOf (c :: rest) then new ++ (c :: rest).drop old.length
    else c :: replaceFirst old new rest

/-- The loop `for _, match := range matches` over the matches not yet
processed.  Every match has its three entries, so the test
`len(match) != 3` never succeeds. -/
def processMatches (isSpace : Char → Bool) :
    List (List Char × List Char × List Char) → List Char → List Pattern →
      String × List Pattern × GoError
  | [], result, patterns => (String.mk result, patterns, none)
  | (full, k, v) :: rest, result, patterns =>
    let key := trimSpace isSpace k
    let value := trimSpace isSpace v
    if key = [] ∨ value = [] then ("", [], some "empty key or value not allowed")
    else
      processMatches isSpace rest (replaceFirst full value result)
        (patterns ++ [{ Key := String.mk key, Value := String.mk value }])

/-- `ProcessString(input)`; a nil slice of patterns is the empty list. -/
def ProcessString (isSpace : Char → Bool) (input : String) : String × List Pattern × GoError :=
  match findAllFrom input.data 0 with
  | [] => (input, [], none)
  | m :: ms => processMatches isSpace (m :: ms) input.data []

/-- Specification side: the text in which every match is replaced, at the
position where it was matched, by its trimmed value. -/
def replacedInPlace (isSpace : Char → Bool) : List Char → Nat → List Char
  | [], _ => []
  | _ :: rest, skip + 1 => replacedInPlace isSpace rest skip
  | c :: rest, 0 =>
    match matchHere (c :: rest) with
    | some (key, value, _) =>
      trimSpace isSpace value ++ replacedInPlace isSpace rest (key.length + value.length + 2)
    | none => c :: replacedInPlace isSpace rest 0

/-- An input in which the value of the first match, once substituted, forms
the text of the second match in front of it. -/
def nestedInput : String := "\x7b\x7ba:b\x7d:c\x7d \x7bb:c\x7d"

/-- The example of the problem statement. -/
def helloInput : String := "Hello \x7bname:John\x7d, your ID is \x7bid:123\x7d"

end StringProcessor

namespace BTree

open ConcurrentBTree

/-! ## Go slices: the shift that opens a slot -/

theorem goCopy_shift {α : Type} (keys : List α) (d : α) (p : Nat) (hp : p ≤ keys.length) :
    goCopy ((keys ++ [d]).drop (p + 1)) ((keys ++ [d]).drop p) = keys.drop p := by
  have hl : ((keys ++ [d]).drop (p + 1)).length = (keys.drop p).length := by
    simp only [List.length_drop, List.length_append, List.length_singleton]; omega
  have hs : (keys ++ [d]).drop p = keys.drop p ++ [d] := List.drop_append_of_le_length hp
  have h1 : ((keys ++ [d]).drop p).take ((keys ++ [d]).drop (p + 1)).length = keys.drop p := by
    rw [hl, hs]; exact List.take_left' rfl
  have h2 : ((keys ++ [d]).drop (p + 1)).drop ((keys ++ [d]).drop p).length = [] := by
    apply List.drop_of_length_le
    rw [hl, hs]; simp
  unfold goCopy
  rw [h1, h2, List.append_nil]

theorem goCopyWithin_shift {α : Type} (keys : List α) (d : α) (p : Nat) (hp : p ≤ keys.length) :
    goCopyWithin (keys ++ [d]) ((p : Int) + 1) (p : Int)
      = .ok ((keys ++ [d]).take (p + 1) ++ keys.drop p) := by
  have h1 : (0 : Int) ≤ (p : Int) + 1 ∧ (p : Int) + 1 ≤ ((keys ++ [d]).length : Int) := by
    simp only [List.length_append, List.length_singleton]; push_cast; omega
  have h2 : (0 : Int) ≤ (p : Int) ∧ (p : Int) ≤ ((keys ++ [d]).length : Int) := by
    simp only [List.length_append, List.length_singleton]; push_cast; omega
  have e1 : ((p : Int) + 1).toNat = p + 1 := by omega
  simp only [goCopyWithin, goSliceFrom, h1, h2, and_self, if_true, bind, Except.bind, pure,
    Except.pure, e1, Int.toNat_ofNat, goCopy_shift keys d p hp]

theorem set_take_succ {α : Type} (keys : List α) (d key : α) (p : Nat) (hp : p ≤ keys.length) :
    ((keys ++ [d]).take (p + 1) ++ keys.drop p).set p key = keys.take p ++ key :: keys.drop p := by
  induction keys generalizing p with
  | nil =>
    have : p = 0 := by simpa using hp
    subst this; simp
  | cons a as ih =>
    cases p with
    | zero => simp
    | succ p =>
      have hp2 : p ≤ as.length := by simpa using hp
      simpa using ih p hp2

/-- The three statements `append`, `copy`, assignment that open slot `p` and
store `key` there amount to inserting `key` at position `p`. -/
theorem goInsertAt {α : Type} (keys : List α) (d key : α) (p : Nat) (hp : p ≤ keys.length) :
    (goCopyWithin (keys ++ [d]) ((p : Int) + 1) (p : Int) >>= fun s => goSet s (p : Int) key)
      = .ok (keys.take p ++ key :: keys.drop p) := by
  rw [goCopyWithin_shift keys d p hp]
  have hlen : ((keys ++ [d]).take (p + 1) ++ keys.drop p).length = keys.length + 1 := by
    simp only [List.length_append, List.length_take, List.length_drop, List.length_singleton]
    omega
  have hb : (0 : Int) ≤ (p : Int) ∧
      (p : Int) < (((keys ++ [d]).take (p + 1) ++ keys.drop p).length : Int) := by
    rw [hlen]; push_cast; omega
  simp only [bind, Except.bind, goSet, hb, and_self, if_true, Int.toNat_ofNat,
    set_take_succ keys d key p hp]

theorem goCopy_replicate {α : Type} (keys : List α) (d : α) :
    goCopy (List.replicate keys.length d) keys = keys := by
  simp [goCopy]

theorem goIndex_take_self {α : Type} (s : List α) (n : Int) (h : 0 ≤ n) :
    goIndex (s.take n.toNat) n = .error .indexOutOfRange := by
  unfold goIndex
  rw [if_pos h]
  have : (s.take n.toNat)[n.toNat]? = none := by
    apply List.getElem?_eq_none
    simp
  rw [this]

theorem goSliceTo_ok {α : Type} (s r : List α) (hi : Int) (h : goSliceTo s hi = .ok r) :
    0 ≤ hi ∧ r = s.take hi.toNat := by
  unfold goSliceTo at h
  split at h
  · next hc => exact ⟨hc.1, by injection h with h; exact h.symm⟩
  · exact absurd h (by simp)

theorem goIndex_mem {α : Type} {s : List α} {i : Int} {a : α} (h : goIndex s i = .ok a) :
    a ∈ s := by
  unfold goIndex at h
  split at h
  · split at h
    · next x hx => cases h; exact List.getElem?_mem hx
    · exact absurd h (by simp)
  · exact absurd h (by simp)

/-! ## Failed slice operations are panics -/

theorem goIndex_error {α : Type} {s : List α} {i : Int} {e : Fault}
    (h : goIndex s i = .error e) : e.isPanic = true := by
  unfold goIndex at h
  split at h
  · split at h
    · exact absurd h (by simp)
    · cases h; rfl
  · cases h; rfl

theorem goSet_error {α : Type} {s : List α} {i : Int} {v : α} {e : Fault}
    (h : goSet s i v = .error e) : e.isPanic = true := by
  unfold goSet at h
  split at h
  · exact absurd h (by simp)
  · cases h; rfl

theorem goSliceFrom_error {α : Type} {s : List α} {i : Int} {e : Fault}
    (h : goSliceFrom s i = .error e) : e.isPanic = true := by
  unfold goSliceFrom at h
  split at h
  · exact absurd h (by simp)
  · cases h; rfl

theorem goSliceTo_error {α : Type} {s : List α} {i : Int} {e : Fault}
    (h : goSliceTo s i = .error e) : e.isPanic = true := by
  unfold goSliceTo at h
  split at h
  · exact absurd h (by simp)
  · cases h; rfl

theorem goMake_error {α : Type} [Inhabited α] {n : Int} {e : Fault}
    (h : goMake α n = .error e) : e.isPanic = true := by
  unfold goMake at h
  split at h
  · exact absurd h (by simp)
  · cases h; rfl

theorem goCopyWithin_error {α : Type} {s : List α} {a b : Int} {e : Fault}
    (h : goCopyWithin s a b = .error e) : e.isPanic = true := by
  unfold goCopyWithin at h
  simp only [bind, Except.bind] at h
  split at h
  · next e1 h1 => cases h; exact goSliceFrom_error h1
  · split at h
    · next e1 h1 => cases h; exact goSliceFrom_error h1
    · exact absurd h (by simp [pure, Except.pure])

theorem siblingChildren_error {K : Type} {degree : Int} {cIsLeaf : Bool}
    {cChildren : List (BTreeNode K)} {e : Fault}
    (h : siblingChildren degree cIsLeaf cChildren = .error e) : e.isPanic = true := by
  unfold siblingChildren at h
  split at h
  · exact absurd h (by simp [pure, Except.pure])
  · simp only [bind, Except.bind] at h
    split at h
    · next e1 h1 => cases h; exact goMake_error h1
    · split at h
      · next e1 h1 => cases h; exact goSliceFrom_error h1
      · exact absurd h (by simp [pure, Except.pure])

/-! ## The leaf case of `insertNonFull` -/

theorem scanDown_bounds {K : Type} (compare : K → K → Int) (keys : List K) (key : K) (n : Nat) :
    -1 ≤ scanDown compare keys key n ∧ scanDown compare keys key n < n := by
  induction n with
  | zero => simp [scanDown]
  | succ n ih =>
    unfold scanDown
    split
    · split
      · constructor
        · exact ih.1
        · have := ih.2; push_cast; omega
      · constructor <;> push_cast <;> omega
    · constructor <;> push_cast <;> omega

theorem leafSlot_le {K : Type} (compare : K → K → Int) (keys : List K) (key : K) :
    leafSlot compare keys key ≤ keys.length := by
  have h := scanDown_bounds compare keys key keys.length
  unfold leafSlot
  omega

theorem leafSlot_cast {K : Type} (compare : K → K → Int) (keys : List K) (key : K) :
    scanDown compare keys key keys.length = (leafSlot compare keys key : Int) - 1 := by
  have h := scanDown_bounds compare keys key keys.length
  unfold leafSlot
  omega

/-- On a leaf `insertNonFull` never panics: it stores the key at `leafSlot`,
increments the version and returns a nil error. -/
theorem insertNonFull_leaf {K : Type} [Inhabited K] (degree : Int) (compare : K → K → Int)
    (key : K) (fuel version : Nat) (keys : List K) (children : List (BTreeNode K))
    (next : BTreeNode K) :
    insertNonFull degree compare key (fuel + 1) (.mk version keys children true next)
      = .ok (.mk (bumpVersion version) (leafInsert compare keys key) children true next,
          none) := by
  unfold leafInsert
  have h := goInsertAt keys default key (leafSlot compare keys key) (leafSlot_le compare keys key)
  have e1 : scanDown compare keys key keys.length + 2 = (leafSlot compare keys key : Int) + 1 := by
    rw [leafSlot_cast]; ring
  have e2 : scanDown compare keys key keys.length + 1 = (leafSlot compare keys key : Int) := by
    rw [leafSlot_cast]; ring
  simp only [insertNonFull, if_true, e1, e2]
  simp only [bind, Except.bind] at h ⊢
  split at h
  · exact absurd h (by simp)
  · simp only [h, pure, Except.pure]

theorem leafInsert_perm {K : Type} (compare : K → K → Int) (keys : List K) (key : K) :
    (leafInsert compare keys key).Perm (key :: keys) := by
  unfold leafInsert
  refine List.perm_middle.trans ?_
  rw [List.take_append_drop]

/-! ## `splitChild` -/

/-- Every call of `splitChild` ends in a panic of the Go program. -/
theorem splitChild_panics {K : Type} [Inhabited K] (degree : Int) (parent : BTreeNode K)
    (childIndex : Int) :
    ∃ f, f.isPanic = true ∧ splitChild degree parent childIndex = .error f := by
  cases parent with
  | nil => exact ⟨_, by rfl, rfl⟩
  | mk pVersion pKeys pChildren pIsLeaf pNext =>
    unfold splitChild
    simp only [bind, Except.bind]
    cases h1 : goIndex pChildren childIndex with
    | error e => exact ⟨e, goIndex_error h1, rfl⟩
    | ok child =>
      cases child with
      | nil => exact ⟨_, by rfl, rfl⟩
      | mk cVersion cKeys cChildren cIsLeaf cNext =>
        simp only []
        cases h2 : goMake K (degree - 1) with
        | error e => exact ⟨e, goMake_error h2, rfl⟩
        | ok nKeys0 =>
          simp only []
          cases h3 : goSliceFrom cKeys degree with
          | error e => exact ⟨e, goSliceFrom_error h3, rfl⟩
          | ok src =>
            simp only []
            cases h3b : siblingChildren degree cIsLeaf cChildren with
            | error e => exact ⟨e, siblingChildren_error h3b, rfl⟩
            | ok nChildren =>
              simp only []
              cases h4 : goSliceTo cKeys (degree - 1) with
              | error e => exact ⟨e, goSliceTo_error h4, rfl⟩
              | ok cKeys1 =>
                simp only []
                obtain ⟨hd, rfl⟩ := goSliceTo_ok _ _ _ h4
                rw [goIndex_take_self cKeys (degree - 1) hd]
                simp only []
                split
                · next e h5 => exact ⟨e, goCopyWithin_error h5, rfl⟩
                · split
                  · next e h6 => exact ⟨e, goSet_error h6, rfl⟩
                  · split
                    · next e h7 => exact ⟨e, goCopyWithin_error h7, rfl⟩
                    · exact ⟨_, by rfl, rfl⟩

theorem siblingChildren_cases {K : Type} (degree : Int) (hd : 0 ≤ degree) (cIsLeaf : Bool)
    (cChildren : List (BTreeNode K)) :
    siblingChildren degree cIsLeaf cChildren = .error .sliceBoundsOutOfRange ∨
      ∃ r, siblingChildren degree cIsLeaf cChildren = .ok r := by
  unfold siblingChildren
  cases cIsLeaf with
  | true => right; exact ⟨_, rfl⟩
  | false =>
    simp only [Bool.false_eq_true, if_false, goMake, hd, if_true, bind, Except.bind, goSliceFrom]
    by_cases hc : degree ≤ (cChildren.length : Int)
    · right; simp [hc, pure, Except.pure]
    · left; simp [hc]

/-- The root split of `Insert` panics: after `append` the new root's key slice
has length 1, and `parent.keys[childIndex+2:]` asks for `[2:]`. -/
theorem splitChild_newRoot {K : Type} [Inhabited K] (degree : Int) (version : Nat)
    (keys : List K) (children : List (BTreeNode K)) (isLeaf : Bool) (next : BTreeNode K)
    (hfull : (keys.length : Int) = 2 * degree - 1) :
    splitChild degree (.mk 0 [] [.mk version keys children isLeaf next] false .nil) 0
      = .error .sliceBoundsOutOfRange := by
  have hd : 1 ≤ degree := by omega
  have hm : (0 : Int) ≤ degree - 1 := by omega
  have hs : (0 : Int) ≤ degree ∧ degree ≤ (keys.length : Int) := by omega
  have ht : (0 : Int) ≤ degree - 1 ∧ degree - 1 ≤ (keys.length : Int) := by omega
  unfold splitChild
  simp only [goIndex, le_refl, if_true, Int.toNat_zero, List.getElem?_cons_zero, bind,
    Except.bind, goMake, hm, goSliceFrom, hs, and_self, goSliceTo, ht]
  rcases siblingChildren_cases degree (by omega) isLeaf children with h | ⟨r, h⟩
  · rw [h]
  · rw [h]
    simp [goCopyWithin, goSliceFrom, goSet, bind, Except.bind, pure, Except.pure, goCopy]

/-! ## `Insert` on the trees the program can build -/

/-- `Insert` panics whenever the root holds `2*degree-1` keys. -/
theorem Insert_full_root {K : Type} [Inhabited K] (t : ConcurrentBTree K) (key : K)
    (version : Nat) (keys : List K) (children : List (BTreeNode K)) (isLeaf : Bool)
    (next : BTreeNode K) (hroot : t.root = .mk version keys children isLeaf next)
    (hfull : (keys.length : Int) = 2 * t.degree - 1) :
    t.Insert key = .error .sliceBoundsOutOfRange := by
  unfold ConcurrentBTree.Insert
  rw [hroot]
  simp only [hfull, if_true, bind, Except.bind]
  rw [splitChild_newRoot t.degree version keys children isLeaf next hfull]

/-- `Insert` into a leaf root that is not full stores the key in the root. -/
theorem Insert_leaf_root {K : Type} [Inhabited K] (t : ConcurrentBTree K) (key : K)
    (version : Nat) (keys : List K) (children : List (BTreeNode K)) (next : BTreeNode K)
    (hroot : t.root = .mk version keys children true next)
    (hfree : (keys.length : Int) ≠ 2 * t.degree - 1) :
    t.Insert key = .ok ({ t with root := BTreeNode.mk (bumpVersion version) (leafInsert t.compare keys key) children true next }, none) := by
  unfold ConcurrentBTree.Insert
  rw [hroot]
  simp only [hfree, if_false, bind, Except.bind, BTreeNode.height, insertNonFull_leaf, pure,
    Except.pure]

theorem height_le_heightList {K : Type} :
    ∀ (children : List (BTreeNode K)) (c : BTreeNode K), c ∈ children →
      c.height ≤ heightList children
  | [], c, h => by simp at h
  | d :: ds, c, h => by
    simp only [heightList]
    rcases List.mem_cons.1 h with rfl | h
    · exact le_max_left _ _
    · exact le_trans (height_le_heightList ds c h) (le_max_right _ _)

/-- With a step budget above the height of the node, `insertNonFull` ends in
a result or in a panic of the Go program. -/
theorem insertNonFull_budget {K : Type} [Inhabited K] (degree : Int) (compare : K → K → Int)
    (key : K) : ∀ (fuel : Nat) (node : BTreeNode K), node.height < fuel →
      ∀ e, insertNonFull degree compare key fuel node = .error e → e.isPanic = true
  | 0, _, h => by omega
  | fuel + 1, .nil, _ => by
    intro e he
    simp only [insertNonFull] at he
    cases he; rfl
  | fuel + 1, .mk version keys children isLeaf next, h => by
    intro e he
    cases isLeaf with
    | true => rw [insertNonFull_leaf] at he; exact absurd he (by simp)
    | false =>
      simp only [insertNonFull, Bool.false_eq_true, if_false, bind, Except.bind] at he
      split at he
      · next e1 h1 => cases he; exact goIndex_error h1
      · next child h1 =>
        have hmem := goIndex_mem h1
        have hh : child.height < fuel := by
          have := height_le_heightList children child hmem
          simp only [BTreeNode.height] at h
          omega
        split at he
        · cases he; rfl
        · next cv cKeys cc cl cn =>
          split at he
          · obtain ⟨f, hf, hs⟩ := splitChild_panics degree
              (.mk version keys children false next)
              (scanDown compare keys key keys.length + 1)
            rw [hs] at he
            cases he; exact hf
          · split at he
            · next e1 h2 =>
              cases he
              exact insertNonFull_budget degree compare key fuel _ hh _ h2
            · exact absurd he (by simp [pure, Except.pure])

/-- The step budget that `Insert` gives to `insertNonFull` is never used up. -/
theorem Insert_budget {K : Type} [Inhabited K] (t : ConcurrentBTree K) (key : K) :
    ∀ e, t.Insert key = .error e → e.isPanic = true := by
  intro e he
  unfold ConcurrentBTree.Insert at he
  split at he
  · cases he; rfl
  · next version keys children isLeaf next hroot =>
    split at he
    · next hfull =>
      have hI := Insert_full_root t key version keys children isLeaf next hroot hfull
      unfold ConcurrentBTree.Insert at hI
      rw [hroot] at hI
      simp only [hfull, if_true] at hI
      rw [hI] at he
      cases he; rfl
    · simp only [bind, Except.bind] at he
      split at he
      · next e1 h1 =>
        cases he
        exact insertNonFull_budget t.degree t.compare key _ _ (by omega) _ h1
      · exact absurd he (by simp [pure, Except.pure])

/-- `NewConcurrentBTree` returns exactly when the capacity `2*degree-1`, as
an `int`, is one that `make` accepts, and then it returns the empty leaf with
the clamped degree. -/
theorem NewConcurrentBTree_cases {K : Type} (maxCap degree : Int) (compare : K → K → Int) :
    (0 ≤ wrapInt64 (2 * (if degree < 2 then 2 else degree) - 1) ∧
        wrapInt64 (2 * (if degree < 2 then 2 else degree) - 1) ≤ maxCap ∧
        NewConcurrentBTree maxCap degree compare
          = .ok { root := .mk 0 [] [] true .nil, degree := if degree < 2 then 2 else degree,
                  compare := compare }) ∨
      (¬ (0 ≤ wrapInt64 (2 * (if degree < 2 then 2 else degree) - 1) ∧
          wrapInt64 (2 * (if degree < 2 then 2 else degree) - 1) ≤ maxCap) ∧
        NewConcurrentBTree maxCap degree compare = .error .makeCapOutOfRange) := by
  by_cases h : 0 ≤ wrapInt64 (2 * (if degree < 2 then 2 else degree) - 1) ∧
      wrapInt64 (2 * (if degree < 2 then 2 else degree) - 1) ≤ maxCap
  · exact Or.inl ⟨h.1, h.2, by simp only [NewConcurrentBTree, goMakeCap, h, and_self, if_true]; rfl⟩
  · exact Or.inr ⟨h, by simp only [NewConcurrentBTree, goMakeCap, h, if_false]; rfl⟩

theorem NewConcurrentBTree_ok {K : Type} {maxCap degree : Int} {compare : K → K → Int}
    {t0 : ConcurrentBTree K} (hnew : NewConcurrentBTree maxCap degree compare = .ok t0) :
    t0 = { root := .mk 0 [] [] true .nil, degree := if degree < 2 then 2 else degree,
           compare := compare } := by
  rcases NewConcurrentBTree_cases maxCap degree compare with ⟨_, _, h⟩ | ⟨_, h⟩
  · rw [h] at hnew
    cases hnew
    rfl
  · rw [h] at hnew
    cases hnew

/-- The degree of a tree that `NewConcurrentBTree` returned is at least 2 and
its capacity `2*degree-1` is one that `make` accepts, so that `Snapshot` of a
tree with this degree returns. -/
theorem NewConcurrentBTree_degree_valid {K : Type} {maxCap degree : Int}
    {compare : K → K → Int} {t0 : ConcurrentBTree K}
    (hnew : NewConcurrentBTree maxCap degree compare = .ok t0) :
    2 ≤ t0.degree ∧ 0 ≤ wrapInt64 (2 * t0.degree - 1) ∧
      wrapInt64 (2 * t0.degree - 1) ≤ maxCap := by
  rcases NewConcurrentBTree_cases maxCap degree compare with ⟨h1, h2, h⟩ | ⟨_, h⟩
  · rw [h] at hnew
    cases hnew
    refine ⟨?_, h1, h2⟩
    show 2 ≤ (if degree < 2 then 2 else degree)
    split <;> omega
  · rw [h] at hnew
    cases hnew

theorem NewConcurrentBTree_leafRoot {K : Type} {maxCap degree : Int} {compare : K → K → Int}
    {t0 : ConcurrentBTree K} (hnew : NewConcurrentBTree maxCap degree compare = .ok t0) :
    LeafRoot t0 [] := by
  rw [NewConcurrentBTree_ok hnew]
  exact ⟨0, rfl⟩

theorem NewConcurrentBTree_degree {K : Type} {maxCap degree : Int} {compare : K → K → Int}
    {t0 : ConcurrentBTree K} (hnew : NewConcurrentBTree maxCap degree compare = .ok t0) :
    t0.degree = if degree < 2 then 2 else degree := by
  rw [NewConcurrentBTree_ok hnew]

theorem NewConcurrentBTree_compare {K : Type} {maxCap degree : Int} {compare : K → K → Int}
    {t0 : ConcurrentBTree K} (hnew : NewConcurrentBTree maxCap degree compare = .ok t0) :
    t0.compare = compare := by
  rw [NewConcurrentBTree_ok hnew]

/-- A completed run of `insertAll` from a single-leaf tree ends in a
single-leaf tree whose keys are the old keys and the inserted keys. -/
theorem insertAll_ok_inv {K : Type} [Inhabited K] (ks : List K) :
    ∀ (t t1 : ConcurrentBTree K) (keys : List K), LeafRoot t keys → t.insertAll ks = .ok t1 →
      ∃ keys1, LeafRoot t1 keys1 ∧ keys1.Perm (keys ++ ks) ∧ t1.degree = t.degree ∧
        t1.compare = t.compare := by
  induction ks with
  | nil =>
    intro t t1 keys hl h
    simp only [insertAll, Except.ok.injEq] at h
    subst h
    exact ⟨keys, hl, by simp, rfl, rfl⟩
  | cons k ks ih =>
    intro t t1 keys hl h
    obtain ⟨version, hroot⟩ := hl
    by_cases hfull : (keys.length : Int) = 2 * t.degree - 1
    · simp [insertAll, Insert_full_root t k version keys [] true .nil hroot hfull, bind,
        Except.bind] at h
    · simp only [insertAll, Insert_leaf_root t k version keys [] .nil hroot hfull, bind,
        Except.bind] at h
      obtain ⟨keys1, hl1, hp, hd, hc⟩ := ih _ t1 (leafInsert t.compare keys k) ⟨_, rfl⟩ h
      refine ⟨keys1, hl1, hp.trans ?_, hd, hc⟩
      refine ((leafInsert_perm t.compare keys k).append_right ks).trans ?_
      simpa using (@List.perm_middle _ k keys ks).symm

/-- Once the keys no longer fit into one node of `2*degree-1` keys, a run
of `insertAll` from a single-leaf tree panics. -/
theorem insertAll_overflow {K : Type} [Inhabited K] (ks : List K) :
    ∀ (t : ConcurrentBTree K) (keys : List K), LeafRoot t keys →
      (keys.length : Int) ≤ 2 * t.degree - 1 →
      2 * t.degree ≤ (keys.length : Int) + (ks.length : Int) →
      t.insertAll ks = .error .sliceBoundsOutOfRange := by
  induction ks with
  | nil =>
    intro t keys _ h1 h2
    simp only [List.length_nil, Nat.cast_zero, add_zero] at h2
    omega
  | cons k ks ih =>
    intro t keys hl h1 h2
    obtain ⟨version, hroot⟩ := hl
    by_cases hfull : (keys.length : Int) = 2 * t.degree - 1
    · simp [insertAll, Insert_full_root t k version keys [] true .nil hroot hfull, bind,
        Except.bind]
    · simp only [insertAll, Insert_leaf_root t k version keys [] .nil hroot hfull, bind,
        Except.bind]
      have hlen : (leafInsert t.compare keys k).length = keys.length + 1 := by
        simpa using (leafInsert_perm t.compare keys k).length_eq
      apply ih _ (leafInsert t.compare keys k) ⟨_, rfl⟩
      · rw [hlen]; push_cast; show _ ≤ 2 * t.degree - 1; omega
      · rw [hlen]; push_cast; show 2 * t.degree ≤ _
        simp only [List.length_cons, Nat.cast_add, Nat.cast_one] at h2
        omega

/-- While the keys fit into one node, a run of `insertAll` from a single-leaf
tree completes. -/
theorem insertAll_fits {K : Type} [Inhabited K] (ks : List K) :
    ∀ (t : ConcurrentBTree K) (keys : List K), LeafRoot t keys →
      (keys.length : Int) + (ks.length : Int) ≤ 2 * t.degree - 1 →
      ∃ t1, t.insertAll ks = .ok t1 := by
  induction ks with
  | nil => intro t keys _ _; exact ⟨t, rfl⟩
  | cons k ks ih =>
    intro t keys hl h1
    obtain ⟨version, hroot⟩ := hl
    simp only [List.length_cons, Nat.cast_add, Nat.cast_one] at h1
    have hfull : (keys.length : Int) ≠ 2 * t.degree - 1 := by omega
    simp only [insertAll, Insert_leaf_root t k version keys [] .nil hroot hfull, bind,
      Except.bind]
    have hlen : (leafInsert t.compare keys k).length = keys.length + 1 := by
      simpa using (leafInsert_perm t.compare keys k).length_eq
    apply ih _ (leafInsert t.compare keys k) ⟨_, rfl⟩
    rw [hlen]; push_cast; show _ ≤ 2 * t.degree - 1; omega

/-! ## Comparison functions -/

theorem TotalOrderCmp.ge_iff {K : Type} {compare : K → K → Int} (h : TotalOrderCmp compare)
    (a b : K) : 0 ≤ compare a b ↔ compare b a ≤ 0 := by
  have := h.antisymm a b
  have := h.antisymm b a
  constructor <;> intro _ <;> omega

theorem TotalOrderCmp.eq_symm {K : Type} {compare : K → K → Int} (h : TotalOrderCmp compare)
    (a b : K) : compare a b = 0 ↔ compare b a = 0 := by
  have := h.antisymm a b
  have := h.antisymm b a
  constructor <;> intro _ <;> omega

theorem TotalOrderCmp.lt_of_lt_of_le {K : Type} {compare : K → K → Int}
    (h : TotalOrderCmp compare) {a b c : K} (hab : compare a b < 0) (hbc : compare b c ≤ 0) :
    compare a c < 0 := by
  by_contra hac
  have h1 : compare c a ≤ 0 := (h.ge_iff a c).1 (by omega)
  have h2 := h.trans b c a hbc h1
  have h3 := (h.antisymm a b).1 hab
  omega

theorem TotalOrderCmp.lt_of_le_of_lt {K : Type} {compare : K → K → Int}
    (h : TotalOrderCmp compare) {a b c : K} (hab : compare a b ≤ 0) (hbc : compare b c < 0) :
    compare a c < 0 := by
  by_contra hac
  have h1 : compare c a ≤ 0 := (h.ge_iff a c).1 (by omega)
  have h2 := h.trans c a b h1 hab
  have h3 := (h.antisymm b c).1 hbc
  omega

theorem TotalOrderCmp.lt_trans {K : Type} {compare : K → K → Int}
    (h : TotalOrderCmp compare) {a b c : K} (hab : compare a b < 0) (hbc : compare b c < 0) :
    compare a c < 0 :=
  h.lt_of_lt_of_le hab (by omega)

theorem StrictlySorted.pairwise {K : Type} {compare : K → K → Int} (h : TotalOrderCmp compare) :
    ∀ {keys : List K}, StrictlySorted compare keys →
      keys.Pairwise (fun a b => compare a b < 0)
  | [], _ => List.Pairwise.nil
  | [_], _ => List.pairwise_singleton _ _
  | a :: b :: rest, hs => by
    have ih := StrictlySorted.pairwise h hs.2
    refine List.Pairwise.cons ?_ ih
    intro x hx
    rcases List.mem_cons.1 hx with rfl | hx
    · exact hs.1
    · exact h.lt_trans hs.1 ((List.pairwise_cons.1 ih).1 x hx)

theorem pairwise_getElem? {α : Type} {R : α → α → Prop} :
    ∀ {l : List α}, l.Pairwise R → ∀ {i j : Nat} {a b : α}, i < j → l[i]? = some a →
      l[j]? = some b → R a b
  | [], _, _, _, _, _, _, hi, _ => by simp at hi
  | x :: xs, hp, i, j, a, b, hij, hi, hj => by
    obtain ⟨hx, hxs⟩ := List.pairwise_cons.1 hp
    cases j with
    | zero => omega
    | succ j =>
      simp only [List.getElem?_cons_succ] at hj
      cases i with
      | zero =>
        simp only [List.getElem?_cons_zero, Option.some.injEq] at hi
        subst hi
        exact hx b (List.getElem?_mem hj)
      | succ i =>
        simp only [List.getElem?_cons_succ] at hi
        exact pairwise_getElem? hxs (by omega) hi hj

theorem intCompare_total : TotalOrderCmp intCompare where
  refl a := by simp [intCompare]
  antisymm a b := by
    unfold intCompare
    split_ifs <;> omega
  trans a b c := by
    unfold intCompare
    split_ifs <;> omega

/-! ## `Search` on search trees -/

theorem scanUp_le {K : Type} (compare : K → K → Int) (key : K) (keys : List K) :
    scanUp compare key keys ≤ keys.length := by
  induction keys with
  | nil => simp [scanUp]
  | cons k ks ih =>
    unfold scanUp
    split
    · simp only [List.length_cons]; omega
    · omega

/-- Every key before the position found by the upward scan is below `key`. -/
theorem scanUp_before {K : Type} (compare : K → K → Int) (key : K) :
    ∀ (keys : List K) (j : Nat) (a : K), j < scanUp compare key keys → keys[j]? = some a →
      compare a key < 0
  | [], j, a, hj, _ => by simp [scanUp] at hj
  | k :: ks, j, a, hj, ha => by
    unfold scanUp at hj
    split at hj
    · next hk =>
      cases j with
      | zero =>
        simp only [List.getElem?_cons_zero, Option.some.injEq] at ha
        subst ha; exact hk
      | succ j =>
        simp only [List.getElem?_cons_succ] at ha
        exact scanUp_before compare key ks j a (by omega) ha
    · omega

/-- The key at the position found by the upward scan is not below `key`. -/
theorem scanUp_at {K : Type} (compare : K → K → Int) (key : K) :
    ∀ (keys : List K) (a : K), keys[scanUp compare key keys]? = some a → 0 ≤ compare a key
  | [], a, ha => by simp at ha
  | k :: ks, a, ha => by
    unfold scanUp at ha
    split at ha
    · simp only [List.getElem?_cons_succ] at ha
      exact scanUp_at compare key ks a ha
    · next hk =>
      simp only [List.getElem?_cons_zero, Option.some.injEq] at ha
      subst ha; omega

/-- In a strictly sorted node every key after the position found by the
upward scan is above `key`. -/
theorem scanUp_after {K : Type} {compare : K → K → Int} (h : TotalOrderCmp compare) (key : K)
    {keys : List K} (hs : StrictlySorted compare keys) (j : Nat) (a : K)
    (hj : scanUp compare key keys < j) (ha : keys[j]? = some a) : 0 < compare a key := by
  have hlen : j < keys.length := by
    by_contra hc
    rw [List.getElem?_eq_none (by omega)] at ha
    exact absurd ha (by simp)
  have hi : scanUp compare key keys < keys.length := by omega
  have hy : keys[scanUp compare key keys]? = some keys[scanUp compare key keys] :=
    List.getElem?_eq_getElem hi
  have h1 := scanUp_at compare key keys _ hy
  have h2 := pairwise_getElem? (StrictlySorted.pairwise h hs) hj hy ha
  have h3 : compare key keys[scanUp compare key keys] ≤ 0 := (h.ge_iff _ _).1 h1
  exact (h.antisymm _ _).1 (h.lt_of_le_of_lt h3 h2)

/-- When the test of `Search` fails at a strictly sorted node, no key of the
node equals the searched key. -/
theorem foundAt_false_ne {K : Type} {compare : K → K → Int} (h : TotalOrderCmp compare)
    (key : K) {keys : List K} (hs : StrictlySorted compare keys)
    (hf : foundAt compare key keys (scanUp compare key keys) = false) :
    ∀ x ∈ keys, compare x key ≠ 0 := by
  intro x hx
  obtain ⟨j, hj⟩ := List.mem_iff_getElem?.1 hx
  rcases Nat.lt_trichotomy j (scanUp compare key keys) with hlt | heq | hgt
  · have := scanUp_before compare key keys j x hlt hj; omega
  · subst heq
    unfold foundAt at hf
    rw [hj] at hf
    simpa using hf
  · have := scanUp_after h key hs j x hgt hj; omega

theorem foundAt_true_mem {K : Type} (compare : K → K → Int) (key : K) (keys : List K) (i : Nat)
    (hf : foundAt compare key keys i = true) : ∃ x ∈ keys, compare x key = 0 := by
  unfold foundAt at hf
  split at hf
  · next x hx => exact ⟨x, List.getElem?_mem hx, by simpa using hf⟩
  · exact absurd hf (by simp)

theorem searchChild_eq {K : Type} (compare : K → K → Int) (key : K) :
    ∀ (children : List (BTreeNode K)) (i : Nat),
      searchChild compare key children i =
        match children[i]? with
        | some c => searchNode compare key c
        | none => .error .indexOutOfRange
  | [], i => by simp [searchChild]
  | c :: cs, 0 => by simp [searchChild]
  | c :: cs, i + 1 => by
    simp only [searchChild, List.getElem?_cons_succ]
    exact searchChild_eq compare key cs i

theorem mem_subtreeKeysList {K : Type} (x : K) :
    ∀ (children : List (BTreeNode K)),
      x ∈ subtreeKeysList children ↔
        ∃ (j : Nat) (c : BTreeNode K), children[j]? = some c ∧ x ∈ c.subtreeKeys
  | [] => by simp [subtreeKeysList]
  | c :: cs => by
    simp only [subtreeKeysList, List.mem_append, mem_subtreeKeysList x cs]
    constructor
    · rintro (h | ⟨j, d, hj, hd⟩)
      · exact ⟨0, c, by simp, h⟩
      · exact ⟨j + 1, d, by simpa using hj, hd⟩
    · rintro ⟨j, d, hj, hd⟩
      cases j with
      | zero =>
        simp only [List.getElem?_cons_zero, Option.some.injEq] at hj
        subst hj; exact Or.inl hd
      | succ j => exact Or.inr ⟨j, d, by simpa using hj, hd⟩

theorem searchNode_spec {K : Type} {compare : K → K → Int} (h : TotalOrderCmp compare)
    (key : K) (node : BTreeNode K) (hwf : SearchTree compare node) :
    ∃ b, searchNode compare key node = .ok (b, none) ∧
      (b = true ↔ ∃ x ∈ node.subtreeKeys, compare x key = 0) := by
  induction hwf with
  | leaf version keys children next hs =>
    unfold searchNode
    cases hf : foundAt compare key keys (scanUp compare key keys) with
    | true =>
      obtain ⟨x, hx, hxe⟩ := foundAt_true_mem compare key keys _ hf
      exact ⟨true, by simp [hf], by simpa [BTreeNode.subtreeKeys] using ⟨x, hx, hxe⟩⟩
    | false =>
      refine ⟨false, by simp [hf], ?_⟩
      have := foundAt_false_ne h key hs hf
      simp only [BTreeNode.subtreeKeys, if_true, List.append_nil, Bool.false_eq_true, false_iff,
        not_exists, not_and]
      exact this
  | internal version keys children next hs hlen hch hb ih =>
    unfold searchNode
    cases hf : foundAt compare key keys (scanUp compare key keys) with
    | true =>
      obtain ⟨x, hx, hxe⟩ := foundAt_true_mem compare key keys _ hf
      refine ⟨true, by simp [hf], ?_⟩
      simp only [BTreeNode.subtreeKeys, true_iff]
      exact ⟨x, List.mem_append_left _ hx, hxe⟩
    | false =>
      have hne := foundAt_false_ne h key hs hf
      have hi : scanUp compare key keys < children.length := by
        have := scanUp_le compare key keys; omega
      have hc : children[scanUp compare key keys]? = some children[scanUp compare key keys] :=
        List.getElem?_eq_getElem hi
      obtain ⟨b, hb1, hb2⟩ := ih _ (List.getElem?_mem hc)
      refine ⟨b, ?_, ?_⟩
      · simp only [hf, Bool.false_eq_true, if_false, searchChild_eq, hc, hb1]
      · rw [hb2]
        simp only [BTreeNode.subtreeKeys, Bool.false_eq_true, if_false, List.mem_append,
          mem_subtreeKeysList]
        constructor
        · rintro ⟨x, hx, hxe⟩
          exact ⟨x, Or.inr ⟨_, _, hc, hx⟩, hxe⟩
        · rintro ⟨x, hx | ⟨j, c, hj, hx⟩, hxe⟩
          · exact absurd hxe (hne x hx)
          · rcases Nat.lt_trichotomy j (scanUp compare key keys) with hlt | heq | hgt
            · -- a child to the left: its keys are below keys[j], which is below key
              have hjk : j < keys.length := by
                have := scanUp_le compare key keys; omega
              have h1 := (hb j c hj x hx).1 _ (List.getElem?_eq_getElem hjk)
              have h2 := scanUp_before compare key keys j _ hlt (List.getElem?_eq_getElem hjk)
              have := h.lt_trans h1 h2
              omega
            · subst heq
              rw [hc] at hj
              cases hj
              exact ⟨x, hx, hxe⟩
            · -- a child to the right: its keys are above keys[j-1], which is not below key
              obtain ⟨j1, rfl⟩ : ∃ j1, j = j1 + 1 := ⟨j - 1, by omega⟩
              have hjl : j1 + 1 < children.length := by
                by_contra hcon
                rw [List.getElem?_eq_none (by omega)] at hj
                exact absurd hj (by simp)
              have hjk : j1 < keys.length := by omega
              have h1 := (hb (j1 + 1) c hj x hx).2 j1 _ rfl (List.getElem?_eq_getElem hjk)
              have h2 : 0 ≤ compare keys[j1] key := by
                rcases Nat.lt_or_ge (scanUp compare key keys) j1 with hlt2 | hge2
                · have := scanUp_after h key hs j1 _ hlt2 (List.getElem?_eq_getElem hjk); omega
                · have he : scanUp compare key keys = j1 := by omega
                  exact scanUp_at compare key keys _ (he ▸ List.getElem?_eq_getElem hjk)
              have h3 : compare key keys[j1] ≤ 0 := (h.ge_iff _ _).1 h2
              have h4 := h.lt_of_le_of_lt h3 h1
              have := (h.antisymm _ _).1 h4
              omega

theorem twoLevelTree_searchTree : SearchTree intCompare twoLevelTree.root := by
  refine SearchTree.internal _ _ _ _ trivial rfl ?_ ?_
  · intro c hc
    simp only [List.mem_cons, List.mem_singleton, List.not_mem_nil, or_false] at hc
    rcases hc with rfl | rfl <;> exact SearchTree.leaf _ _ _ _ trivial
  · intro i c hc k hk
    match i, hc with
    | 0, hc =>
      simp only [List.getElem?_cons_zero, Option.some.injEq] at hc
      subst hc
      simp only [BTreeNode.subtreeKeys, if_true, List.append_nil, List.mem_singleton] at hk
      subst hk
      refine ⟨?_, ?_⟩
      · intro a ha
        simp only [List.getElem?_cons_zero, Option.some.injEq] at ha
        subst ha; decide
      · intro j a hj; omega
    | 1, hc =>
      simp only [List.getElem?_cons_succ, List.getElem?_cons_zero, Option.some.injEq] at hc
      subst hc
      simp only [BTreeNode.subtreeKeys, if_true, List.append_nil, List.mem_singleton] at hk
      subst hk
      refine ⟨?_, ?_⟩
      · intro a ha
        simp at ha
      · intro j a hj ha
        have : j = 0 := by omega
        subst this
        simp only [List.getElem?_cons_zero, Option.some.injEq] at ha
        subst ha; decide
    | i + 2, hc => simp at hc

/-! ## `cloneNode` -/

mutual
theorem cloneNode_sameShape {K : Type} [Inhabited K] :
    ∀ node : BTreeNode K, SameShape node (cloneNode node)
  | .nil => by simp [cloneNode, SameShape]
  | .mk version keys children isLeaf next => by
    simp only [cloneNode, SameShape, goCopy_replicate, true_and]
    intro hl
    simp only [hl, Bool.false_eq_true, if_false]
    exact cloneChildren_sameShape children
theorem cloneChildren_sameShape {K : Type} [Inhabited K] :
    ∀ children : List (BTreeNode K), SameShapeList children (cloneChildren children)
  | [] => by simp [cloneChildren, SameShapeList]
  | c :: cs => by
    simp only [cloneChildren, SameShapeList]
    exact ⟨cloneNode_sameShape c, cloneChildren_sameShape cs⟩
end

mutual
theorem searchNode_cloneNode {K : Type} [Inhabited K] (compare : K → K → Int) (key : K) :
    ∀ node : BTreeNode K, searchNode compare key (cloneNode node) = searchNode compare key node
  | .nil => by simp [cloneNode]
  | .mk version keys children isLeaf next => by
    simp only [cloneNode, searchNode, goCopy_replicate]
    cases isLeaf with
    | true => rfl
    | false =>
      simp only [Bool.false_eq_true, if_false]
      rw [searchChild_cloneChildren compare key children]
theorem searchChild_cloneChildren {K : Type} [Inhabited K] (compare : K → K → Int) (key : K) :
    ∀ (children : List (BTreeNode K)) (i : Nat),
      searchChild compare key (cloneChildren children) i = searchChild compare key children i
  | [], i => by simp [cloneChildren]
  | c :: cs, 0 => by
    simp only [cloneChildren, searchChild]
    exact searchNode_cloneNode compare key c
  | c :: cs, i + 1 => by
    simp only [cloneChildren, searchChild]
    exact searchChild_cloneChildren compare key cs i
end

/-- A snapshot that is returned has a nil error, the clone of the root, the
tree's comparison function and the tree's degree, clamped to 2 from below by
the call of `NewConcurrentBTree` in `Snapshot`. -/
theorem Snapshot_ok {K : Type} [Inhabited K] {t : ConcurrentBTree K} {maxCap : Int}
    {r : ConcurrentBTree K × GoError} (h : t.Snapshot maxCap = .ok r) :
    r = ({ root := cloneNode t.root, degree := max t.degree 2, compare := t.compare }, none) := by
  unfold ConcurrentBTree.Snapshot at h
  cases hn : NewConcurrentBTree maxCap t.degree t.compare with
  | error e => rw [hn] at h; cases h
  | ok t0 =>
    rw [hn] at h
    have h0 := NewConcurrentBTree_ok hn
    subst h0
    cases h
    have hd : (if t.degree < 2 then 2 else t.degree) = max t.degree 2 := by
      split <;> omega
    rw [hd]

/-- `Snapshot` returns when the capacity `2*degree-1` of the new root's key
slice is one that `make` accepts. -/
theorem Snapshot_returns {K : Type} [Inhabited K] (t : ConcurrentBTree K) (maxCap : Int)
    (hdeg : 2 ≤ t.degree)
    (hcap : 0 ≤ wrapInt64 (2 * t.degree - 1) ∧ wrapInt64 (2 * t.degree - 1) ≤ maxCap) :
    t.Snapshot maxCap
      = .ok ({ root := cloneNode t.root, degree := t.degree, compare := t.compare }, none) := by
  have hd : (if t.degree < 2 then 2 else t.degree) = t.degree := by
    split <;> omega
  rcases NewConcurrentBTree_cases maxCap t.degree t.compare with ⟨_, _, h⟩ | ⟨h, _⟩
  · unfold ConcurrentBTree.Snapshot
    rw [h, hd]
    rfl
  · rw [hd] at h
    exact absurd hcap h

/-- On every tree, `Search` on a returned snapshot gives what `Search` on the
tree gives, a panic included. -/
theorem Snapshot_Search {K : Type} [Inhabited K] {t : ConcurrentBTree K} {maxCap : Int}
    {r : ConcurrentBTree K × GoError} (h : t.Snapshot maxCap = .ok r) (k : K) :
    r.1.Search k = t.Search k := by
  rw [Snapshot_ok h]
  exact searchNode_cloneNode t.compare k t.root

/-! ## Sorted leaves -/

/-- The keys that the downward scan of `insertNonFull` has passed are above
`key`. -/
theorem scanDown_above {K : Type} (compare : K → K → Int) (keys : List K) (key : K) :
    ∀ (n j : Nat) (a : K), scanDown compare keys key n + 1 ≤ (j : Int) → j < n →
      keys[j]? = some a → 0 < compare a key
  | 0, j, a, _, hj, _ => by omega
  | n + 1, j, a, h1, hj, ha => by
    unfold scanDown at h1
    split at h1
    · next k hk =>
      split at h1
      · next hgt =>
        rcases Nat.lt_or_ge j n with hlt | hge
        · exact scanDown_above compare keys key n j a h1 hlt ha
        · have : j = n := by omega
          subst this
          rw [hk] at ha
          cases ha
          omega
      · omega
    · omega

/-- The key at which the downward scan of `insertNonFull` stops is not above
`key`. -/
theorem scanDown_stop {K : Type} (compare : K → K → Int) (keys : List K) (key : K) :
    ∀ (n : Nat), n ≤ keys.length → ∀ (a : K), 0 ≤ scanDown compare keys key n →
      keys[(scanDown compare keys key n).toNat]? = some a → compare a key ≤ 0
  | 0, _, a, h0, _ => by simp [scanDown] at h0
  | n + 1, hn, a, h0, ha => by
    have hk : keys[n]? = some keys[n] := List.getElem?_eq_getElem (by omega)
    have e : scanDown compare keys key (n + 1)
        = if compare keys[n] key > 0 then scanDown compare keys key n else (n : Int) := by
      simp only [scanDown, hk]
    rw [e] at h0 ha
    split at h0
    · next hgt =>
      rw [if_pos hgt] at ha
      exact scanDown_stop compare keys key n (by omega) a h0 ha
    · next hle =>
      rw [if_neg hle] at ha
      simp only [Int.toNat_ofNat] at ha
      rw [hk] at ha
      cases ha
      omega

theorem mem_take_iff_getElem? {α : Type} (l : List α) (p : Nat) (a : α) :
    a ∈ l.take p ↔ ∃ j, j < p ∧ l[j]? = some a := by
  rw [List.mem_iff_getElem?]
  constructor
  · rintro ⟨j, hj⟩
    rw [List.getElem?_take] at hj
    split at hj
    · next hlt => exact ⟨j, hlt, hj⟩
    · exact absurd hj (by simp)
  · rintro ⟨j, hlt, hj⟩
    exact ⟨j, by rw [List.getElem?_take, if_pos hlt]; exact hj⟩

theorem mem_drop_iff_getElem? {α : Type} (l : List α) (p : Nat) (a : α) :
    a ∈ l.drop p ↔ ∃ j, p ≤ j ∧ l[j]? = some a := by
  rw [List.mem_iff_getElem?]
  constructor
  · rintro ⟨j, hj⟩
    rw [List.getElem?_drop] at hj
    exact ⟨p + j, by omega, hj⟩
  · rintro ⟨j, hle, hj⟩
    refine ⟨j - p, ?_⟩
    rw [List.getElem?_drop]
    have : p + (j - p) = j := by omega
    rw [this]; exact hj

/-- The keys after the slot chosen by the leaf case of `insertNonFull` are
above `key`. -/
theorem leafSlot_after {K : Type} (compare : K → K → Int) (keys : List K) (key : K) :
    ∀ b ∈ keys.drop (leafSlot compare keys key), 0 < compare b key := by
  intro b hb
  obtain ⟨j, hj, hb⟩ := (mem_drop_iff_getElem? _ _ _).1 hb
  have hlt : j < keys.length := by
    by_contra hc
    rw [List.getElem?_eq_none (by omega)] at hb
    exact absurd hb (by simp)
  have hs := leafSlot_cast compare keys key
  exact scanDown_above compare keys key keys.length j b (by omega) hlt hb

/-- In a sorted leaf the keys before the slot chosen by the leaf case of
`insertNonFull` are not above `key`. -/
theorem leafSlot_before {K : Type} {compare : K → K → Int} (h : TotalOrderCmp compare)
    {keys : List K} (hs : SortedLE compare keys) (key : K) :
    ∀ a ∈ keys.take (leafSlot compare keys key), compare a key ≤ 0 := by
  intro a ha
  obtain ⟨j, hj, ha⟩ := (mem_take_iff_getElem? _ _ _).1 ha
  have hc := leafSlot_cast compare keys key
  have hle := leafSlot_le compare keys key
  have hp : leafSlot compare keys key - 1 < keys.length := by omega
  have h0 : 0 ≤ scanDown compare keys key keys.length := by omega
  have hidx : (scanDown compare keys key keys.length).toNat = leafSlot compare keys key - 1 := by
    omega
  have hlast := scanDown_stop compare keys key keys.length (le_refl _)
    keys[leafSlot compare keys key - 1] h0 (by rw [hidx]; exact List.getElem?_eq_getElem hp)
  rcases Nat.lt_or_ge j (leafSlot compare keys key - 1) with hlt | hge
  · have := pairwise_getElem? hs hlt ha (List.getElem?_eq_getElem hp)
    exact h.trans _ _ _ this hlast
  · have hj2 : j = leafSlot compare keys key - 1 := by omega
    subst hj2
    rw [List.getElem?_eq_getElem hp] at ha
    cases ha
    exact hlast

/-- The leaf case of `insertNonFull` keeps a sorted leaf sorted. -/
theorem leafInsert_sorted {K : Type} {compare : K → K → Int} (h : TotalOrderCmp compare)
    {keys : List K} (hs : SortedLE compare keys) (key : K) :
    SortedLE compare (leafInsert compare keys key) := by
  have hsplit : SortedLE compare
      (keys.take (leafSlot compare keys key) ++ keys.drop (leafSlot compare keys key)) := by
    rw [List.take_append_drop]; exact hs
  obtain ⟨h1, h2, h3⟩ := List.pairwise_append.1 hsplit
  unfold leafInsert SortedLE
  refine List.pairwise_append.2 ⟨h1, List.pairwise_cons.2 ⟨?_, h2⟩, ?_⟩
  · intro b hb
    have := (h.antisymm key b).2 (leafSlot_after compare keys key b hb)
    omega
  · intro a ha b hb
    rcases List.mem_cons.1 hb with rfl | hb
    · exact leafSlot_before h hs _ a ha
    · exact h3 a ha b hb

/-- In a sorted node that holds a key equal to `key`, the test of `Search`
succeeds at the position found by the upward scan. -/
theorem foundAt_of_mem {K : Type} {compare : K → K → Int} (h : TotalOrderCmp compare)
    {keys : List K} (hs : SortedLE compare keys) (key x : K) (hx : x ∈ keys)
    (hxe : compare x key = 0) : foundAt compare key keys (scanUp compare key keys) = true := by
  obtain ⟨j, hj⟩ := List.mem_iff_getElem?.1 hx
  have hjl : j < keys.length := by
    by_contra hc
    rw [List.getElem?_eq_none (by omega)] at hj
    exact absurd hj (by simp)
  have hij : scanUp compare key keys ≤ j := by
    by_contra hc
    have := scanUp_before compare key keys j x (by omega) hj
    omega
  obtain ⟨y, hy⟩ : ∃ y, keys[scanUp compare key keys]? = some y :=
    ⟨_, List.getElem?_eq_getElem (by omega)⟩
  have h0 := scanUp_at compare key keys y hy
  have hle : compare y key ≤ 0 := by
    rcases Nat.lt_or_ge (scanUp compare key keys) j with hlt | hge
    · exact h.trans _ _ _ (pairwise_getElem? hs hlt hy hj) (by omega)
    · have hji : j = scanUp compare key keys := by omega
      rw [hji, hy] at hj
      cases hj
      omega
  unfold foundAt
  rw [hy]
  simp only [decide_eq_true_eq]
  omega

/-- A completed run of `insertAll` from a sorted single-leaf tree ends in a
sorted single-leaf tree. -/
theorem insertAll_sorted {K : Type} [Inhabited K] (ks : List K) :
    ∀ (t t1 : ConcurrentBTree K) (keys : List K), TotalOrderCmp t.compare → LeafRoot t keys →
      SortedLE t.compare keys → t.insertAll ks = .ok t1 →
      ∃ keys1, LeafRoot t1 keys1 ∧ SortedLE t1.compare keys1 := by
  induction ks with
  | nil =>
    intro t t1 keys _ hl hs h
    simp only [insertAll, Except.ok.injEq] at h
    subst h
    exact ⟨keys, hl, hs⟩
  | cons k ks ih =>
    intro t t1 keys hc hl hs h
    obtain ⟨version, hroot⟩ := hl
    by_cases hfull : (keys.length : Int) = 2 * t.degree - 1
    · simp [insertAll, Insert_full_root t k version keys [] true .nil hroot hfull, bind,
        Except.bind] at h
    · simp only [insertAll, Insert_leaf_root t k version keys [] .nil hroot hfull, bind,
        Except.bind] at h
      refine ih _ t1 (leafInsert t.compare keys k) ?_ ?_ ?_ h
      · exact hc
      · exact ⟨_, rfl⟩
      · exact leafInsert_sorted hc hs k

/-- The round trip while the root has room: in a tree built by a completed
run of `Insert` calls on a new tree, with fewer than `2t-1` keys (`t` the
clamped degree), `Insert(k)` returns a nil error and the `Search(k)` that
follows returns true. -/
theorem Insert_then_Search_with_room {K : Type} [Inhabited K] (degree : Int)
    (compare : K → K → Int) (hcmp : TotalOrderCmp compare) (ks : List K)
    (t : ConcurrentBTree K) (k : K) (maxCap : Int) (t0 : ConcurrentBTree K)
    (hnew : NewConcurrentBTree maxCap degree compare = .ok t0)
    (hbuilt : t0.insertAll ks = .ok t)
    (hroom : (ks.length : Int) < 2 * max degree 2 - 1) :
    ∃ t1, t.Insert k = .ok (t1, none) ∧ t1.Search k = .ok (true, none) := by
  have h0 := NewConcurrentBTree_ok hnew
  subst h0
  have hl0 := NewConcurrentBTree_leafRoot hnew
  obtain ⟨keys1, ⟨version, hroot⟩, hperm, hdeg, hc⟩ := insertAll_ok_inv ks _ t [] hl0 hbuilt
  obtain ⟨keys2, ⟨version2, hroot2⟩, hsorted⟩ :=
    insertAll_sorted ks _ t [] hcmp hl0 List.Pairwise.nil hbuilt
  have hk : keys2 = keys1 := by
    rw [hroot] at hroot2
    injection hroot2 with _ hkeys
    exact hkeys.symm
  subst hk
  have hc2 : t.compare = compare := hc.trans (NewConcurrentBTree_compare hnew)
  have hd2 : t.degree = max degree 2 := by
    rw [hdeg, NewConcurrentBTree_degree hnew]
    split <;> omega
  have hlen : keys2.length = ks.length := by simpa using hperm.length_eq
  have hfree : (keys2.length : Int) ≠ 2 * t.degree - 1 := by
    rw [hlen, hd2]; omega
  refine ⟨_, Insert_leaf_root t k version keys2 [] .nil hroot hfree, ?_⟩
  unfold ConcurrentBTree.Search
  simp only [searchNode]
  rw [hc2] at hsorted ⊢
  have hmem : k ∈ leafInsert compare keys2 k := (leafInsert_perm compare keys2 k).mem_iff.2
    (List.mem_cons_self _ _)
  rw [foundAt_of_mem hcmp (leafInsert_sorted hcmp hsorted k) k k hmem (hcmp.refl k)]
  rfl

/-! ## Claims about `Insert`, `Search`, `RangeQuery`, `Snapshot` and `NewConcurrentBTree` -/

/-- C1 fails on the code: for every degree and every comparison function, a
run of `Insert` calls on the tree that `NewConcurrentBTree` returned panics
(slice bounds out of range, in the root split) as soon as the sequence has
`2t` keys, `t` the clamped degree. -/
theorem Insert_sequence_panics {K : Type} [Inhabited K] (maxCap degree : Int)
    (compare : K → K → Int) (t0 : ConcurrentBTree K) (ks : List K)
    (hnew : NewConcurrentBTree maxCap degree compare = .ok t0)
    (hlen : 2 * max degree 2 ≤ (ks.length : Int)) :
    t0.insertAll ks = .error .sliceBoundsOutOfRange := by
  apply insertAll_overflow ks _ [] (NewConcurrentBTree_leafRoot hnew)
  · rw [NewConcurrentBTree_degree hnew]
    split <;> simp only [List.length_nil, Nat.cast_zero] <;> omega
  · rw [NewConcurrentBTree_degree hnew]
    simp only [List.length_nil, Nat.cast_zero, zero_add]
    split <;> omega

theorem Insert_sequence_panics_witness :
    NewConcurrentBTree maxCap64 2 intCompare = .ok (newIntTree 2) ∧
      2 * max (2 : Int) 2 ≤ (([1, 2, 3, 4] : List Int).length : Int) ∧
      (newIntTree 2).insertAll [1, 2, 3, 4] = .error .sliceBoundsOutOfRange :=
  ⟨rfl, by decide,
    Insert_sequence_panics maxCap64 2 intCompare (newIntTree 2) [1, 2, 3, 4] rfl (by decide)⟩

/-- C2 fails on the code: in the tree of degree 2 obtained by inserting 1, 2, 3
the root is full, and `Insert(4)` panics instead of succeeding, so no `Search`
follows it. -/
theorem Insert_into_full_root_panics :
    ∃ t : ConcurrentBTree Int,
      NewConcurrentBTree maxCap64 2 intCompare = .ok (newIntTree 2) ∧
        (newIntTree 2).insertAll [1, 2, 3] = .ok t ∧
        t.Insert 4 = .error .sliceBoundsOutOfRange :=
  ⟨{ root := .mk 3 [1, 2, 3] [] true .nil, degree := 2, compare := intCompare }, rfl, rfl, rfl⟩

/-- C3: in a tree obtained from `NewConcurrentBTree` by a completed sequence of
`Insert` calls, `Search(k)` returns false with a nil error for every key `k`
that the comparison function equates with none of the inserted keys. -/
theorem Search_never_inserted {K : Type} [Inhabited K] (maxCap degree : Int)
    (compare : K → K → Int) (t0 : ConcurrentBTree K) (ks : List K) (t : ConcurrentBTree K) (k : K)
    (hnew : NewConcurrentBTree maxCap degree compare = .ok t0)
    (hbuilt : t0.insertAll ks = .ok t)
    (hfresh : ∀ x ∈ ks, compare x k ≠ 0) :
    t.Search k = .ok (false, none) := by
  obtain ⟨keys1, ⟨version, hroot⟩, hperm, _, hcmp⟩ :=
    insertAll_ok_inv ks _ t [] (NewConcurrentBTree_leafRoot hnew) hbuilt
  have hcmp2 : t.compare = compare := hcmp.trans (NewConcurrentBTree_compare hnew)
  unfold ConcurrentBTree.Search
  rw [hroot, hcmp2]
  unfold searchNode
  have hnot : foundAt compare k keys1 (scanUp compare k keys1) = false := by
    unfold foundAt
    split
    · next x hx =>
      have hmem : x ∈ ks := by
        have := hperm.subset (List.getElem?_mem hx)
        simpa using this
      simpa using hfresh x hmem
    · rfl
  simp [hnot]

theorem Search_never_inserted_witness :
    NewConcurrentBTree maxCap64 2 intCompare = .ok (newIntTree 2) ∧
      (newIntTree 2).insertAll [1, 3, 5]
        = .ok { root := .mk 3 [1, 3, 5] [] true .nil, degree := 2, compare := intCompare } ∧
      (∀ x ∈ ([1, 3, 5] : List Int), intCompare x 4 ≠ 0) ∧
      ConcurrentBTree.Search
        { root := .mk 3 [1, 3, 5] [] true .nil, degree := 2, compare := intCompare } 4
        = .ok (false, none) :=
  ⟨rfl, rfl, by decide,
    Search_never_inserted maxCap64 2 intCompare (newIntTree 2) [1, 3, 5] _ 4 rfl rfl
      (by decide)⟩

/-- C4 fails on the code: with degree 2 or 3 the keys 1, 3, 5, 7, 9, 11 cannot
all be inserted, the `Insert` that finds the root full panics; with degree 4
they fit into the root leaf and `RangeQuery(4, 9)` returns 5, 7, 9. -/
theorem RangeQuery_example :
    NewConcurrentBTree maxCap64 2 intCompare = .ok (newIntTree 2) ∧
      (newIntTree 2).insertAll [1, 3, 5, 7, 9, 11] = .error .sliceBoundsOutOfRange ∧
      NewConcurrentBTree maxCap64 3 intCompare = .ok (newIntTree 3) ∧
      (newIntTree 3).insertAll [1, 3, 5, 7, 9, 11] = .error .sliceBoundsOutOfRange ∧
      NewConcurrentBTree maxCap64 4 intCompare = .ok (newIntTree 4) ∧
      ∃ t : ConcurrentBTree Int,
        (newIntTree 4).insertAll [1, 3, 5, 7, 9, 11] = .ok t ∧
          t.RangeQuery 4 9 = .ok ([5, 7, 9], none) :=
  ⟨rfl, rfl, rfl, rfl, rfl,
    { root := .mk 6 [1, 3, 5, 7, 9, 11] [] true .nil, degree := 4, compare := intCompare },
    rfl, rfl⟩

/-- C5 fails on the code: for the tree of degree 2 holding 1, 2, 3 the snapshot
does not hold 4, but `Insert(4)` on the live tree panics, so the live tree
never holds 4. -/
theorem Snapshot_then_Insert_panics :
    ∃ t s : ConcurrentBTree Int,
      NewConcurrentBTree maxCap64 2 intCompare = .ok (newIntTree 2) ∧
        (newIntTree 2).insertAll [1, 2, 3] = .ok t ∧
        t.Snapshot maxCap64 = .ok (s, none) ∧
        s.Search 4 = .ok (false, none) ∧
        t.Insert 4 = .error .sliceBoundsOutOfRange :=
  ⟨{ root := .mk 3 [1, 2, 3] [] true .nil, degree := 2, compare := intCompare },
    { root := .mk 0 [1, 2, 3] [] true .nil, degree := 2, compare := intCompare },
    rfl, rfl, rfl, rfl, rfl⟩

/-- C6 fails on the code: for every degree `t >= 2`, inserting the `2t`
ascending keys 1, ..., 2t into a new tree panics at the root split; no
two-level tree is produced. -/
theorem ascending_inserts_panic (maxCap : Int) (t : Nat) (t0 : ConcurrentBTree Int)
    (ht : 2 ≤ t) (hnew : NewConcurrentBTree maxCap (t : Int) intCompare = .ok t0) :
    t0.insertAll (ascendingKeys (2 * t)) = .error .sliceBoundsOutOfRange := by
  apply insertAll_overflow _ _ [] (NewConcurrentBTree_leafRoot hnew)
  · rw [NewConcurrentBTree_degree hnew]
    split <;> simp only [List.length_nil, Nat.cast_zero] <;> omega
  · rw [NewConcurrentBTree_degree hnew]
    have : ¬ ((t : Int) < 2) := by omega
    simp only [this, if_false, List.length_nil, ascendingKeys, List.length_map,
      List.length_range]
    push_cast
    omega

theorem ascending_inserts_panic_witness :
    2 ≤ 3 ∧ NewConcurrentBTree maxCap64 ((3 : Nat) : Int) intCompare = .ok (newIntTree 3) ∧
      (newIntTree 3).insertAll [1, 2, 3, 4, 5, 6] = .error .sliceBoundsOutOfRange :=
  ⟨by decide, rfl, ascending_inserts_panic maxCap64 3 (newIntTree 3) (by decide) rfl⟩

/-- C7: on a search tree (strictly sorted nodes, `n+1` children for `n` keys,
keys of the `i`-th child strictly between `keys[i-1]` and `keys[i]`) and with a
total-order comparison function, `Search(k)` returns without a panic, with a
nil error, and its result is true exactly when some node of the tree holds a
key that the comparison function equates with `k`. -/
theorem Search_iff_holds {K : Type} (t : ConcurrentBTree K) (k : K)
    (hcmp : TotalOrderCmp t.compare) (hwf : SearchTree t.compare t.root) :
    ∃ found, t.Search k = .ok (found, none) ∧
      (found = true ↔ ∃ x ∈ t.root.subtreeKeys, t.compare x k = 0) :=
  searchNode_spec hcmp k t.root hwf

theorem Search_iff_holds_witness :
    TotalOrderCmp twoLevelTree.compare ∧ SearchTree twoLevelTree.compare twoLevelTree.root ∧
      ∃ found, twoLevelTree.Search 3 = .ok (found, none) ∧
        (found = true ↔ ∃ x ∈ twoLevelTree.root.subtreeKeys, twoLevelTree.compare x 3 = 0) :=
  ⟨intCompare_total, twoLevelTree_searchTree,
    Search_iff_holds twoLevelTree 3 intCompare_total twoLevelTree_searchTree⟩

/-- On the hand-built two-level tree with root key 2 and leaves 1 and 3, which
satisfies the data-model invariants (sorted nodes, child-subtree ordering,
equal leaf depth, `next` chain through all leaves), `RangeQuery(1, 3)` returns
1, 3: the scan follows the leaf chain and does not visit the internal node.
The program never builds such a tree: no statement assigns `next`, and `Insert`
leaves a single leaf. -/
theorem RangeQuery_omits_internal_keys :
    SearchTree intCompare twoLevelTree.root ∧ Balanced twoLevelTree.root ∧
      LeafChain twoLevelTree.root.leaves ∧ 2 ∈ twoLevelTree.root.subtreeKeys ∧
      intCompare 2 1 ≥ 0 ∧ intCompare 2 3 ≤ 0 ∧
      twoLevelTree.RangeQuery 1 3 = .ok ([1, 3], none) := by
  refine ⟨twoLevelTree_searchTree, ?_, ?_, ?_, by decide, by decide, rfl⟩
  · intro d1 h1 d2 h2
    simp [twoLevelTree, BTreeNode.leafDepths, leafDepthsList] at h1 h2
    omega
  · simp [twoLevelTree, BTreeNode.leaves, leavesList, LeafChain, BTreeNode.nextOf]
  · simp [twoLevelTree, BTreeNode.subtreeKeys, subtreeKeysList]

/-- C9 fails on the code as stated: `NewConcurrentBTree` panics for a degree
whose capacity `2*degree-1` is not accepted by `make`: for the degree
`2^43 + 1` where `make` accepts at most `2^44` elements, and for the degree
`2^62 + 1`, where `2*degree-1` overflows to a negative `int`, whatever `make`
accepts. -/
theorem NewConcurrentBTree_huge_degree_panics :
    NewConcurrentBTree maxCap64 (2 ^ 43 + 1) intCompare = .error .makeCapOutOfRange ∧
      ∀ maxCap : Int,
        NewConcurrentBTree maxCap (2 ^ 62 + 1) intCompare = .error .makeCapOutOfRange := by
  refine ⟨rfl, fun maxCap => ?_⟩
  rcases NewConcurrentBTree_cases maxCap (2 ^ 62 + 1) intCompare with ⟨h, _, _⟩ | ⟨_, h⟩
  · exact absurd h (by decide)
  · exact h

/-- C9 as amended: for every `int` degree `d`, `NewConcurrentBTree(d, cmp)`
returns exactly when `2*max(d,2)-1` is at most the largest capacity that
`make` accepts, and panics in `make` otherwise; the tree it returns has degree
`d` when `d >= 2` and 2 when `d < 2`, the comparison function `cmp`, and a
root that is a leaf of version 0 with no keys, no children and a nil `next`. -/
theorem NewConcurrentBTree_spec {K : Type} (maxCap d : Int) (cmp : K → K → Int)
    (hmax : maxCap < 2 ^ 63) (hd : d < 2 ^ 63) :
    (2 * max d 2 - 1 ≤ maxCap →
        NewConcurrentBTree maxCap d cmp
          = .ok { root := .mk 0 [] [] true .nil, degree := max d 2, compare := cmp }) ∧
      (maxCap < 2 * max d 2 - 1 →
        NewConcurrentBTree maxCap d cmp = .error .makeCapOutOfRange) ∧
      2 ≤ max d 2 := by
  have hm : (if d < 2 then 2 else d) = max d 2 := by split <;> omega
  have hw : wrapInt64 (2 * max d 2 - 1) = 2 * max d 2 - 1 ∨ wrapInt64 (2 * max d 2 - 1) < 0 := by
    unfold wrapInt64
    omega
  have hw2 : 2 * max d 2 - 1 ≤ maxCap → wrapInt64 (2 * max d 2 - 1) = 2 * max d 2 - 1 := by
    intro h
    unfold wrapInt64
    omega
  refine ⟨fun hcap => ?_, fun hcap => ?_, by omega⟩
  · rcases NewConcurrentBTree_cases maxCap d cmp with ⟨_, _, h⟩ | ⟨h, _⟩
    · rw [h, hm]
    · rw [hm, hw2 hcap] at h
      exact absurd ⟨by omega, hcap⟩ h
  · rcases NewConcurrentBTree_cases maxCap d cmp with ⟨h1, h2, _⟩ | ⟨_, h⟩
    · rw [hm] at h1 h2
      rcases hw with hw | hw <;> omega
    · exact h

theorem NewConcurrentBTree_spec_witness :
    maxCap64 < 2 ^ 63 ∧ (1 : Int) < 2 ^ 63 ∧ 2 * max (1 : Int) 2 - 1 ≤ maxCap64 ∧
      NewConcurrentBTree maxCap64 1 intCompare = .ok (newIntTree 2) :=
  ⟨by decide, by decide, by decide,
    (NewConcurrentBTree_spec maxCap64 1 intCompare (by decide) (by decide)).1 (by decide)⟩

/-- C10: for every tree `T` of degree at least 2 whose capacity `2*degree-1`
is one that `make` accepts (as it is for every tree that `NewConcurrentBTree`
returned), `Snapshot(T)` returns a nil error and a tree with `T`'s degree and
comparison function whose nodes have the same shape, leaf flags and key
sequences as `T`'s, and for every key `k` `Search` on the snapshot gives what
`Search` on `T` gives. -/
theorem Snapshot_same_tree {K : Type} [Inhabited K] (t : ConcurrentBTree K) (maxCap : Int)
    (hdeg : 2 ≤ t.degree)
    (hcap : 0 ≤ wrapInt64 (2 * t.degree - 1) ∧ wrapInt64 (2 * t.degree - 1) ≤ maxCap) :
    ∃ s, t.Snapshot maxCap = .ok (s, none) ∧ s.degree = t.degree ∧
      s.compare = t.compare ∧ SameShape t.root s.root ∧
      ∀ k, s.Search k = t.Search k :=
  ⟨_, Snapshot_returns t maxCap hdeg hcap, rfl, rfl, cloneNode_sameShape t.root,
    Snapshot_Search (Snapshot_returns t maxCap hdeg hcap)⟩

theorem Snapshot_same_tree_witness :
    2 ≤ twoLevelTree.degree ∧
      (0 ≤ wrapInt64 (2 * twoLevelTree.degree - 1) ∧
        wrapInt64 (2 * twoLevelTree.degree - 1) ≤ maxCap64) ∧
      ∃ s, twoLevelTree.Snapshot maxCap64 = .ok (s, none) ∧ s.degree = twoLevelTree.degree ∧
        s.compare = twoLevelTree.compare ∧ SameShape twoLevelTree.root s.root ∧
        ∀ k, s.Search k = twoLevelTree.Search k :=
  ⟨by decide, by decide, Snapshot_same_tree twoLevelTree maxCap64 (by decide) (by decide)⟩

/-! ## Invariants of the trees the program can build -/

theorem StrictlySorted.of_pairwise {K : Type} {compare : K → K → Int} :
    ∀ {keys : List K}, keys.Pairwise (fun a b => compare a b < 0) → StrictlySorted compare keys
  | [], _ => trivial
  | [_], _ => trivial
  | a :: b :: rest, hp => by
    obtain ⟨h1, h2⟩ := List.pairwise_cons.1 hp
    exact ⟨h1 b (List.mem_cons_self _ _), StrictlySorted.of_pairwise h2⟩

/-- A tree built by a completed run of `Insert` calls on a new tree is a
single leaf with a nil `next` that holds the inserted keys, at most `2t-1` of
them. -/
theorem insertAll_new_shape {K : Type} [Inhabited K] (maxCap degree : Int)
    (compare : K → K → Int) (t0 : ConcurrentBTree K) (ks : List K) (t : ConcurrentBTree K)
    (hnew : NewConcurrentBTree maxCap degree compare = .ok t0)
    (hbuilt : t0.insertAll ks = .ok t) :
    ∃ version keys, t.root = .mk version keys [] true .nil ∧ keys.Perm ks ∧
      t.degree = max degree 2 ∧ t.compare = compare ∧
      (keys.length : Int) ≤ 2 * t.degree - 1 := by
  have hl0 := NewConcurrentBTree_leafRoot hnew
  obtain ⟨keys1, ⟨version, hroot⟩, hperm, hdeg, hc⟩ := insertAll_ok_inv ks _ t [] hl0 hbuilt
  have hd2 : t.degree = max degree 2 := by
    rw [hdeg, NewConcurrentBTree_degree hnew]
    split <;> omega
  have hd3 : t0.degree = max degree 2 := by
    rw [← hdeg]; exact hd2
  refine ⟨version, keys1, hroot, by simpa using hperm, hd2,
    hc.trans (NewConcurrentBTree_compare hnew), ?_⟩
  by_contra hlen
  have hlen2 : keys1.length = ks.length := by simpa using hperm.length_eq
  have hov := insertAll_overflow ks t0 [] hl0
    (by rw [hd3]; simp only [List.length_nil, Nat.cast_zero]; omega)
    (by rw [hd3]; simp only [List.length_nil, Nat.cast_zero, zero_add]; omega)
  rw [hov] at hbuilt
  exact absurd hbuilt (by simp)

/-- With a total-order comparison function the keys of the single leaf are in
ascending order. -/
theorem insertAll_new_sorted {K : Type} [Inhabited K] (maxCap degree : Int)
    (compare : K → K → Int) (hcmp : TotalOrderCmp compare) (t0 : ConcurrentBTree K)
    (ks : List K) (t : ConcurrentBTree K)
    (hnew : NewConcurrentBTree maxCap degree compare = .ok t0)
    (hbuilt : t0.insertAll ks = .ok t) :
    SortedLE compare t.root.keysOf := by
  obtain ⟨_, _, _, _, _, hc, _⟩ := insertAll_new_shape maxCap degree compare t0 ks t hnew hbuilt
  have h0 := NewConcurrentBTree_ok hnew
  subst h0
  obtain ⟨keys2, ⟨version2, hroot2⟩, hsorted⟩ :=
    insertAll_sorted ks _ t [] hcmp (NewConcurrentBTree_leafRoot hnew)
      List.Pairwise.nil hbuilt
  rw [hroot2]
  rw [hc] at hsorted
  exact hsorted

/-! ## Claims about the invariants, `splitChild` and version counters -/

/-- C11 fails on the code as stated: with the total-order comparison of
integers, two calls `Insert(1)` on a new tree of degree 2 complete and leave a
root that holds the key 1 twice, so its keys are not strictly ascending. -/
theorem duplicate_keys_not_strict :
    TotalOrderCmp intCompare ∧
      NewConcurrentBTree maxCap64 2 intCompare = .ok (newIntTree 2) ∧
      (newIntTree 2).insertAll [1, 1] = .ok duplicateKeyTree ∧
      duplicateKeyTree.root ∈ duplicateKeyTree.root.nodes ∧
      duplicateKeyTree.root.keysOf = [1, 1] ∧
      ¬ StrictlySorted intCompare duplicateKeyTree.root.keysOf := by
  refine ⟨intCompare_total, rfl, rfl, ?_, rfl, ?_⟩
  · simp [duplicateKeyTree, BTreeNode.nodes]
  · simp [duplicateKeyTree, BTreeNode.keysOf, StrictlySorted, intCompare]

/-- C11 as amended: in every tree built from `NewConcurrentBTree` by a
completed sequence of `Insert` calls, with a total-order comparison function,
every node's keys are ascending, `compare(keys[i], keys[j]) <= 0` for `i < j`;
they are strictly ascending when no two inserted keys compare equal. -/
theorem built_keys_ascending {K : Type} [Inhabited K] (maxCap degree : Int)
    (compare : K → K → Int) (hcmp : TotalOrderCmp compare) (t0 : ConcurrentBTree K)
    (ks : List K) (t : ConcurrentBTree K)
    (hnew : NewConcurrentBTree maxCap degree compare = .ok t0)
    (hbuilt : t0.insertAll ks = .ok t) :
    (∀ n ∈ t.root.nodes, SortedLE compare n.keysOf) ∧
      (ks.Pairwise (fun a b => compare a b ≠ 0) →
        ∀ n ∈ t.root.nodes, StrictlySorted compare n.keysOf) := by
  obtain ⟨version, keys, hroot, hperm, _, _, _⟩ :=
    insertAll_new_shape maxCap degree compare t0 ks t hnew hbuilt
  have hs := insertAll_new_sorted maxCap degree compare hcmp t0 ks t hnew hbuilt
  have hnodes : ∀ n ∈ t.root.nodes, n.keysOf = keys := by
    intro n hn
    rw [hroot] at hn
    simp only [BTreeNode.nodes, if_true, List.mem_singleton] at hn
    subst hn; rfl
  have hk : t.root.keysOf = keys := by rw [hroot]; rfl
  rw [hk] at hs
  refine ⟨fun n hn => by rw [hnodes n hn]; exact hs, fun hdist n hn => ?_⟩
  rw [hnodes n hn]
  have hd2 : keys.Pairwise (fun a b => compare a b ≠ 0) :=
    (hperm.pairwise_iff (fun {x y} h => fun h2 => h ((hcmp.eq_symm y x).1 h2))).2 hdist
  apply StrictlySorted.of_pairwise
  exact List.Pairwise.imp₂ (fun a b h1 h2 => lt_of_le_of_ne h1 h2) hs hd2

theorem built_keys_ascending_witness :
    TotalOrderCmp intCompare ∧
      NewConcurrentBTree maxCap64 2 intCompare = .ok (newIntTree 2) ∧
      (newIntTree 2).insertAll [3, 1, 2]
        = .ok { root := .mk 3 [1, 2, 3] [] true .nil, degree := 2, compare := intCompare } ∧
      (∀ n ∈ (BTreeNode.mk 3 [1, 2, 3] [] true .nil : BTreeNode Int).nodes,
        SortedLE intCompare n.keysOf) ∧
      (([3, 1, 2] : List Int).Pairwise (fun a b => intCompare a b ≠ 0) →
        ∀ n ∈ (BTreeNode.mk 3 [1, 2, 3] [] true .nil : BTreeNode Int).nodes,
          StrictlySorted intCompare n.keysOf) :=
  ⟨intCompare_total, rfl, rfl,
    built_keys_ascending maxCap64 2 intCompare intCompare_total (newIntTree 2) [3, 1, 2] _ rfl
      rfl⟩

theorem goCopy_length {α : Type} (dst src : List α) : (goCopy dst src).length = dst.length := by
  simp only [goCopy, List.length_append, List.length_take, List.length_drop]
  omega

theorem goCopyWithin_ok {α : Type} (s : List α) (a b : Int) (ha : 0 ≤ a ∧ a ≤ s.length)
    (hb : 0 ≤ b ∧ b ≤ s.length) :
    ∃ r, goCopyWithin s a b = .ok r ∧ r.length = s.length := by
  refine ⟨s.take a.toNat ++ goCopy (s.drop a.toNat) (s.drop b.toNat), ?_, ?_⟩
  · simp only [goCopyWithin, goSliceFrom, ha, hb, and_self, if_true, bind, Except.bind, pure,
      Except.pure]
  · simp only [List.length_append, List.length_take, goCopy_length, List.length_drop]
    omega

theorem siblingChildren_ok {K : Type} (degree : Int) (cIsLeaf : Bool)
    (cChildren : List (BTreeNode K))
    (h : cIsLeaf = false → 0 ≤ degree ∧ degree ≤ (cChildren.length : Int)) :
    ∃ r, siblingChildren degree cIsLeaf cChildren = .ok r := by
  unfold siblingChildren
  cases cIsLeaf with
  | true => exact ⟨_, rfl⟩
  | false =>
    obtain ⟨h1, h2⟩ := h rfl
    simp [goMake, h1, h2, bind, Except.bind, goSliceFrom, pure, Except.pure]

/-- C13 fails on the code: for every degree `t >= 2`, every parent with `n`
keys and `n+1` children and every index `i <= n` whose child holds `2t-1` keys
(and `2t` children when internal), `splitChild(parent, i)` panics: with index
out of range at `child.keys[t.degree-1]` when `i < n`, with slice bounds out of
range at `parent.keys[childIndex+2:]` when `i = n`. -/
theorem splitChild_full_child_panics {K : Type} [Inhabited K] (t : Int) (ht : 2 ≤ t)
    (pVersion : Nat) (pKeys : List K) (pChildren : List (BTreeNode K)) (pIsLeaf : Bool)
    (pNext : BTreeNode K) (i : Nat) (cVersion : Nat) (cKeys : List K)
    (cChildren : List (BTreeNode K)) (cIsLeaf : Bool) (cNext : BTreeNode K)
    (hn : pChildren.length = pKeys.length + 1) (hi : i ≤ pKeys.length)
    (hchild : pChildren[i]? = some (.mk cVersion cKeys cChildren cIsLeaf cNext))
    (hfull : (cKeys.length : Int) = 2 * t - 1)
    (hinternal : cIsLeaf = false → (cChildren.length : Int) = 2 * t) :
    splitChild t (.mk pVersion pKeys pChildren pIsLeaf pNext) (i : Int)
      = .error (if i < pKeys.length then .indexOutOfRange else .sliceBoundsOutOfRange) := by
  have hm : (0 : Int) ≤ t - 1 := by omega
  have hs : (0 : Int) ≤ t ∧ t ≤ (cKeys.length : Int) := by omega
  have hto : (0 : Int) ≤ t - 1 ∧ t - 1 ≤ (cKeys.length : Int) := by omega
  obtain ⟨nChildren, hsib⟩ := siblingChildren_ok t cIsLeaf cChildren
    (fun hl => by have := hinternal hl; omega)
  have hidx : goIndex pChildren (i : Int) = .ok (.mk cVersion cKeys cChildren cIsLeaf cNext) := by
    simp only [goIndex, Int.natCast_nonneg, if_true, Int.toNat_ofNat, hchild]
  have hlen1 : (pChildren.set i (BTreeNode.mk cVersion (List.take (t - 1).toNat cKeys) cChildren
      cIsLeaf cNext) ++ [BTreeNode.nil]).length = pKeys.length + 2 := by
    simp only [List.length_append, List.length_set, List.length_singleton, hn]
  obtain ⟨pc2, hpc2, hpc2len⟩ := goCopyWithin_ok
    (pChildren.set i (BTreeNode.mk cVersion (List.take (t - 1).toNat cKeys) cChildren
      cIsLeaf cNext) ++ [BTreeNode.nil]) ((i : Int) + 2) ((i : Int) + 1)
    (by rw [hlen1]; push_cast; omega) (by rw [hlen1]; push_cast; omega)
  have hset : ∀ v, ∃ pc3, goSet pc2 ((i : Int) + 1) v = .ok pc3 := by
    intro v
    have : (0 : Int) ≤ (i : Int) + 1 ∧ (i : Int) + 1 < (pc2.length : Int) := by
      rw [hpc2len, hlen1]; push_cast; omega
    exact ⟨pc2.set ((i : Int) + 1).toNat v, by simp only [goSet, this, and_self, if_true]⟩
  obtain ⟨pc3, hpc3⟩ := hset (.mk 0 (goCopy (List.replicate (t - 1).toNat default)
    (List.drop t.toNat cKeys)) nChildren cIsLeaf .nil)
  unfold splitChild
  simp only [hidx, bind, Except.bind, goMake, hm, if_true, goSliceFrom, hs, and_self, hsib,
    goSliceTo, hto, Int.toNat_ofNat, hpc2, hpc3]
  by_cases hlt : i < pKeys.length
  · obtain ⟨pk2, hpk2, _⟩ := goCopyWithin_ok (pKeys ++ [default]) ((i : Int) + 2) ((i : Int) + 1)
      (by simp only [List.length_append, List.length_singleton]; push_cast; omega)
      (by simp only [List.length_append, List.length_singleton]; push_cast; omega)
    simp only [hpk2, goIndex_take_self cKeys (t - 1) hm, hlt, if_true]
  · have hbad : ¬ ((0 : Int) ≤ (i : Int) + 2 ∧
        (i : Int) + 2 ≤ ((pKeys ++ [default]).length : Int)) := by
      simp only [List.length_append, List.length_singleton]; push_cast; omega
    simp only [goCopyWithin, goSliceFrom, hbad, if_false, bind, Except.bind, hlt]

theorem splitChild_full_child_panics_witness :
    (2 : Int) ≤ 2 ∧ parentOfFullLeaf.childrenOf.length = parentOfFullLeaf.keysOf.length + 1 ∧
      0 ≤ parentOfFullLeaf.keysOf.length ∧
      parentOfFullLeaf.childrenOf[0]? = some fullLeaf ∧
      ((fullLeaf.keysOf.length : Int) = 2 * 2 - 1) ∧
      splitChild 2 parentOfFullLeaf 0 = .error .indexOutOfRange :=
  ⟨by decide, rfl, by decide, rfl, by decide,
    splitChild_full_child_panics 2 (by decide) 0 [5] [fullLeaf, .mk 0 [7] [] true .nil] false
      .nil 0 0 [1, 2, 3] [] true (.mk 0 [7] [] true .nil) rfl (by decide) rfl (by decide)
      (by intro h; exact absurd h (by decide))⟩

/-- C14 fails on the code: `fullLeaf` is a full leaf of degree 2 whose `next`
is the leaf holding 7; `splitChild` on its parent panics at
`child.keys[t.degree-1]`, so no sibling is linked into the leaf chain. -/
theorem splitChild_leaf_chain_panics :
    fullLeaf.isLeafOf = true ∧ fullLeaf.nextOf = .mk 0 [7] [] true .nil ∧
      (fullLeaf.keysOf.length : Int) = 2 * 2 - 1 ∧
      goIndex parentOfFullLeaf.childrenOf 0 = .ok fullLeaf ∧
      splitChild 2 parentOfFullLeaf 0 = .error .indexOutOfRange :=
  ⟨rfl, rfl, by decide, rfl, rfl⟩

/-- On a hand-built parent whose child `fullInternal` is a full internal node
of degree 2, with 3 keys and 4 children, `splitChild` panics at
`child.keys[t.degree-1]`.  The program never makes this call: `Insert` applies
`splitChild` to a leaf root only. -/
theorem splitChild_internal_child_panics :
    fullInternal.isLeafOf = false ∧ (fullInternal.keysOf.length : Int) = 2 * 2 - 1 ∧
      (fullInternal.childrenOf.length : Int) = 2 * 2 ∧
      goIndex parentOfFullInternal.childrenOf 0 = .ok fullInternal ∧
      splitChild 2 parentOfFullInternal 0 = .error .indexOutOfRange :=
  ⟨rfl, by decide, by decide, rfl, rfl⟩

mutual
theorem cloneNode_versions {K : Type} [Inhabited K] :
    ∀ (node : BTreeNode K), ∀ n ∈ (cloneNode node).nodes, n.versionOf = 0 ∧ n.nextOf = .nil
  | .nil => by simp [cloneNode, BTreeNode.nodes]
  | .mk version keys children isLeaf next => by
    intro n hn
    simp only [cloneNode, BTreeNode.nodes, List.mem_cons] at hn
    rcases hn with rfl | hn
    · exact ⟨rfl, rfl⟩
    · cases isLeaf with
      | true => simp at hn
      | false =>
        simp only [Bool.false_eq_true, if_false] at hn
        exact cloneChildren_versions children n hn
theorem cloneChildren_versions {K : Type} [Inhabited K] :
    ∀ (children : List (BTreeNode K)), ∀ n ∈ nodesList (cloneChildren children),
      n.versionOf = 0 ∧ n.nextOf = .nil
  | [] => by simp [cloneChildren, nodesList]
  | c :: cs => by
    intro n hn
    simp only [cloneChildren, nodesList, List.mem_append] at hn
    rcases hn with hn | hn
    · exact cloneNode_versions c n hn
    · exact cloneChildren_versions cs n hn
end

/-- C16 fails on the code as stated: after one `Insert` into a new tree the
live root's version is 1 and the version of the snapshot's root is 0. -/
theorem Snapshot_version_differs :
    ∃ t s : ConcurrentBTree Int,
      NewConcurrentBTree maxCap64 2 intCompare = .ok (newIntTree 2) ∧
        (newIntTree 2).insertAll [1] = .ok t ∧
        t.Snapshot maxCap64 = .ok (s, none) ∧
        t.root.versionOf = 1 ∧ s.root.versionOf = 0 ∧
        s.root.versionOf ≠ t.root.versionOf :=
  ⟨{ root := .mk 1 [1] [] true .nil, degree := 2, compare := intCompare },
    { root := .mk 0 [1] [] true .nil, degree := 2, compare := intCompare },
    rfl, rfl, rfl, rfl, rfl, by decide⟩

/-- C16 as amended: for every tree `T`, each node of the tree that
`Snapshot(T)` returns carries the version counter 0, whatever the version of
the node it was cloned from. -/
theorem Snapshot_versions_zero {K : Type} [Inhabited K] (t : ConcurrentBTree K) (maxCap : Int)
    (r : ConcurrentBTree K × GoError) (h : t.Snapshot maxCap = .ok r) :
    ∀ n ∈ r.1.root.nodes, n.versionOf = 0 := by
  rw [Snapshot_ok h]
  exact fun n hn => (cloneNode_versions t.root n hn).1

theorem Snapshot_versions_zero_witness :
    duplicateKeyTree.Snapshot maxCap64
        = .ok ({ root := .mk 0 [1, 1] [] true .nil, degree := 2, compare := intCompare }, none) ∧
      (BTreeNode.mk 0 [1, 1] [] true .nil : BTreeNode Int)
        ∈ (BTreeNode.mk 0 [1, 1] [] true .nil : BTreeNode Int).nodes ∧
      duplicateKeyTree.root.versionOf = 2 ∧
      (BTreeNode.mk 0 [1, 1] [] true .nil : BTreeNode Int).versionOf = 0 :=
  ⟨rfl, List.mem_singleton.2 rfl, rfl,
    Snapshot_versions_zero duplicateKeyTree maxCap64 _ rfl _ (List.mem_singleton.2 rfl)⟩

/-! ## Invariants that every completed `Insert` keeps -/

theorem mem_nodesList {K : Type} (n : BTreeNode K) :
    ∀ (cs : List (BTreeNode K)), n ∈ nodesList cs ↔ ∃ c ∈ cs, n ∈ c.nodes
  | [] => by simp [nodesList]
  | c :: cs => by
    simp only [nodesList, List.mem_append, mem_nodesList n cs, List.mem_cons, exists_eq_or_imp]

theorem mem_nodesList_set {K : Type} (n : BTreeNode K) (cs : List (BTreeNode K)) (i : Nat)
    (c1 : BTreeNode K) (h : n ∈ nodesList (cs.set i c1)) :
    n ∈ c1.nodes ∨ n ∈ nodesList cs := by
  obtain ⟨c, hc, hn⟩ := (mem_nodesList n _).1 h
  rcases List.mem_or_eq_of_mem_set hc with hc | rfl
  · exact Or.inr ((mem_nodesList n cs).2 ⟨c, hc, hn⟩)
  · exact Or.inl hn

theorem mem_nodes_cases {K : Type} (n node : BTreeNode K) (h : n ∈ node.nodes) :
    n = node ∨ n ∈ node.nonRootNodes := by
  cases node with
  | nil => simp [BTreeNode.nodes] at h
  | mk version keys children isLeaf next =>
    simp only [BTreeNode.nodes, List.mem_cons] at h
    rcases h with h | h
    · exact Or.inl h
    · exact Or.inr h

theorem self_mem_nodes {K : Type} (version : Nat) (keys : List K)
    (children : List (BTreeNode K)) (isLeaf : Bool) (next : BTreeNode K) :
    BTreeNode.mk version keys children isLeaf next
      ∈ (BTreeNode.mk version keys children isLeaf next).nodes := by
  simp [BTreeNode.nodes]

theorem nonRootNodes_subset_nodes {K : Type} (n node : BTreeNode K)
    (h : n ∈ node.nonRootNodes) : n ∈ node.nodes := by
  cases node with
  | nil => simp [BTreeNode.nonRootNodes] at h
  | mk version keys children isLeaf next =>
    simp only [BTreeNode.nodes, List.mem_cons]
    exact Or.inr h

/-- A completed `insertNonFull` on a node that is not full keeps every
property of nodes that is kept when a key is stored in a leaf that is not full
and when a child of an internal node is replaced: it holds of the node after
the call if it held before, and of the nodes below it if it held of them. -/
theorem insertNonFull_keeps {K : Type} [Inhabited K] (degree : Int) (compare : K → K → Int)
    (key : K) (P : BTreeNode K → Prop)
    (hleaf : ∀ (v : Nat) (keys : List K) (children : List (BTreeNode K)) (next : BTreeNode K),
      (keys.length : Int) ≠ 2 * degree - 1 → P (.mk v keys children true next) →
        P (.mk (bumpVersion v) (leafInsert compare keys key) children true next))
    (hint : ∀ (v : Nat) (keys : List K) (children : List (BTreeNode K)) (next : BTreeNode K)
      (i : Nat) (c1 : BTreeNode K), P (.mk v keys children false next) →
        P (.mk v keys (children.set i c1) false next)) :
    ∀ (fuel : Nat) (node node1 : BTreeNode K) (err : GoError),
      insertNonFull degree compare key fuel node = .ok (node1, err) →
      (node.keysOf.length : Int) ≠ 2 * degree - 1 →
      (P node → P node1) ∧
        ((∀ n ∈ node.nonRootNodes, P n) → ∀ n ∈ node1.nonRootNodes, P n)
  | 0, _, _, _, h, _ => by simp [insertNonFull] at h
  | fuel + 1, .nil, _, _, h, _ => by simp [insertNonFull] at h
  | fuel + 1, .mk version keys children isLeaf next, node1, err, h, hfree => by
    cases isLeaf with
    | true =>
      rw [insertNonFull_leaf] at h
      cases h
      refine ⟨hleaf version keys children next hfree, ?_⟩
      intro _ n hn
      simp [BTreeNode.nonRootNodes] at hn
    | false =>
      simp only [insertNonFull, Bool.false_eq_true, if_false, bind, Except.bind] at h
      split at h
      · cases h
      · next child h1 =>
        have hmem := goIndex_mem h1
        split at h
        · cases h
        · next cv cKeys cc cl cn =>
          split at h
          · obtain ⟨f, _, hs⟩ := splitChild_panics degree
              (.mk version keys children false next)
              (scanDown compare keys key keys.length + 1)
            rw [hs] at h
            cases h
          · next hcfree =>
            split at h
            · cases h
            · next r h2 =>
              obtain ⟨child1, err1⟩ := r
              simp only [pure, Except.pure, Except.ok.injEq, Prod.mk.injEq] at h
              obtain ⟨h, _⟩ := h
              subst h
              have ih := insertNonFull_keeps degree compare key P hleaf hint fuel _ child1 err1 h2
                hcfree
              refine ⟨hint version keys children next _ child1, ?_⟩
              intro hall n hn
              simp only [BTreeNode.nonRootNodes, Bool.false_eq_true, if_false] at hall hn
              have hsub : ∀ m ∈ (BTreeNode.mk cv cKeys cc cl cn).nodes, P m := fun m hm =>
                hall m ((mem_nodesList m children).2 ⟨_, hmem, hm⟩)
              rcases mem_nodesList_set n children _ child1 hn with hn | hn
              · rcases mem_nodes_cases n child1 hn with rfl | hn
                · exact ih.1 (hsub _ (self_mem_nodes cv cKeys cc cl cn))
                · exact ih.2 (fun m hm => hsub m (nonRootNodes_subset_nodes m _ hm)) n hn
              · exact hall n hn

/-- A completed `Insert` calls `insertNonFull` on a root that is not full and
installs the node it leaves; the degree and comparison function stay. -/
theorem Insert_ok_inv {K : Type} [Inhabited K] (t t1 : ConcurrentBTree K) (key : K)
    (err : GoError) (h : t.Insert key = .ok (t1, err)) :
    (t.root.keysOf.length : Int) ≠ 2 * t.degree - 1 ∧ t1.degree = t.degree ∧
      t1.compare = t.compare ∧
      ∃ fuel, insertNonFull t.degree t.compare key fuel t.root = .ok (t1.root, err) := by
  unfold ConcurrentBTree.Insert at h
  split at h
  · cases h
  · next version keys children isLeaf next hroot =>
    split at h
    · next hfull =>
      have hI := Insert_full_root t key version keys children isLeaf next hroot hfull
      unfold ConcurrentBTree.Insert at hI
      rw [hroot] at hI
      simp only [hfull, if_true] at hI
      rw [hI] at h
      cases h
    · next hfree =>
      simp only [bind, Except.bind] at h
      split at h
      · cases h
      · next r h2 =>
        obtain ⟨root1, err1⟩ := r
        simp only [pure, Except.pure, Except.ok.injEq, Prod.mk.injEq] at h
        obtain ⟨h, he⟩ := h
        subst h
        subst he
        refine ⟨?_, rfl, rfl, _, h2⟩
        rw [hroot]
        exact hfree

theorem insertAll_keeps {K : Type} [Inhabited K] (Inv : ConcurrentBTree K → Prop)
    (hstep : ∀ (t t1 : ConcurrentBTree K) (key : K) (err : GoError),
      t.Insert key = .ok (t1, err) → Inv t → Inv t1) :
    ∀ (ks : List K) (t t1 : ConcurrentBTree K), t.insertAll ks = .ok t1 → Inv t → Inv t1
  | [], t, t1, h, hi => by
    simp only [insertAll, Except.ok.injEq] at h
    subst h
    exact hi
  | k :: ks, t, t1, h, hi => by
    simp only [insertAll, bind, Except.bind] at h
    split at h
    · cases h
    · next r h1 =>
      obtain ⟨t2, err⟩ := r
      exact insertAll_keeps Inv hstep ks t2 t1 h (hstep t t2 k err h1 hi)

theorem leafInsert_length {K : Type} (compare : K → K → Int) (keys : List K) (key : K) :
    (leafInsert compare keys key).length = keys.length + 1 := by
  simpa using (leafInsert_perm compare keys key).length_eq

theorem length_cloneChildren {K : Type} [Inhabited K] :
    ∀ (children : List (BTreeNode K)), (cloneChildren children).length = children.length
  | [] => rfl
  | c :: cs => by simp [cloneChildren, length_cloneChildren cs]

mutual
theorem cloneNode_childCount {K : Type} [Inhabited K] :
    ∀ (node : BTreeNode K), ChildCount node → ChildCount (cloneNode node)
  | .nil => by simp [cloneNode, ChildCount, BTreeNode.nodes]
  | .mk version keys children isLeaf next => by
    intro h n hn
    simp only [cloneNode, BTreeNode.nodes, List.mem_cons] at hn
    rcases hn with rfl | hn
    · intro hl
      have hl2 : isLeaf = false := hl
      subst hl2
      have h0 := h _ (self_mem_nodes version keys children false next) rfl
      simp only [BTreeNode.childrenOf, BTreeNode.keysOf, goCopy_replicate, Bool.false_eq_true,
        if_false, length_cloneChildren] at h0 ⊢
      exact h0
    · cases isLeaf with
      | true => simp at hn
      | false =>
        simp only [Bool.false_eq_true, if_false] at hn
        refine cloneChildren_childCount children ?_ n hn
        intro m hm
        exact h m (by simp only [BTreeNode.nodes, Bool.false_eq_true, if_false, List.mem_cons]
                      exact Or.inr hm)
theorem cloneChildren_childCount {K : Type} [Inhabited K] :
    ∀ (children : List (BTreeNode K)),
      (∀ n ∈ nodesList children,
        n.isLeafOf = false → n.childrenOf.length = n.keysOf.length + 1) →
      ∀ n ∈ nodesList (cloneChildren children),
        n.isLeafOf = false → n.childrenOf.length = n.keysOf.length + 1
  | [] => by simp [cloneChildren, nodesList]
  | c :: cs => by
    intro h n hn
    simp only [cloneChildren, nodesList, List.mem_append] at hn
    rcases hn with hn | hn
    · exact cloneNode_childCount c
        (fun m hm => h m (by simp only [nodesList, List.mem_append]; exact Or.inl hm)) n hn
    · exact cloneChildren_childCount cs
        (fun m hm => h m (by simp only [nodesList, List.mem_append]; exact Or.inr hm)) n hn
end

theorem Insert_keeps_DegreeBounds {K : Type} [Inhabited K] (t t1 : ConcurrentBTree K) (key : K)
    (err : GoError) (h : t.Insert key = .ok (t1, err)) (hb : DegreeBounds t) :
    DegreeBounds t1 := by
  obtain ⟨hfree, hdeg, _, fuel, hins⟩ := Insert_ok_inv t t1 key err h
  have hup := insertNonFull_keeps t.degree t.compare key
    (fun n => (n.keysOf.length : Int) ≤ 2 * t.degree - 1)
    (by
      intro v keys children next hne hle
      simp only [BTreeNode.keysOf, leafInsert_length] at hle ⊢
      push_cast
      omega)
    (by intro v keys children next i c1 hle; exact hle)
    fuel t.root t1.root err hins hfree
  have hboth := insertNonFull_keeps t.degree t.compare key
    (fun n => t.degree - 1 ≤ (n.keysOf.length : Int) ∧ (n.keysOf.length : Int) ≤ 2 * t.degree - 1)
    (by
      intro v keys children next hne hle
      simp only [BTreeNode.keysOf, leafInsert_length] at hle ⊢
      push_cast
      omega)
    (by intro v keys children next i c1 hle; exact hle)
    fuel t.root t1.root err hins hfree
  unfold DegreeBounds
  rw [hdeg]
  exact ⟨⟨by omega, hup.1 hb.1.2⟩, hboth.2 hb.2⟩

/-- C12: the tree that `NewConcurrentBTree` returns satisfies the degree
bounds, and every completed `Insert`, on whatever tree satisfies them, leaves
a tree that satisfies them.  Hence in every tree of degree `t` built from
`NewConcurrentBTree` by a completed sequence of `Insert` calls the root holds
between 0 and `2t-1` keys and every node other than the root holds between
`t-1` and `2t-1` keys. -/
theorem built_degree_bounds {K : Type} [Inhabited K] :
    (∀ (maxCap degree : Int) (compare : K → K → Int) (t0 : ConcurrentBTree K),
        NewConcurrentBTree maxCap degree compare = .ok t0 → DegreeBounds t0) ∧
      (∀ (t t1 : ConcurrentBTree K) (key : K) (err : GoError),
        t.Insert key = .ok (t1, err) → DegreeBounds t → DegreeBounds t1) ∧
      (∀ (maxCap degree : Int) (compare : K → K → Int) (t0 : ConcurrentBTree K) (ks : List K)
          (t : ConcurrentBTree K),
        NewConcurrentBTree maxCap degree compare = .ok t0 → t0.insertAll ks = .ok t →
          (0 ≤ (t.root.keysOf.length : Int) ∧
              (t.root.keysOf.length : Int) ≤ 2 * t.degree - 1) ∧
            ∀ n ∈ t.root.nonRootNodes,
              t.degree - 1 ≤ (n.keysOf.length : Int) ∧
                (n.keysOf.length : Int) ≤ 2 * t.degree - 1) := by
  have hnew : ∀ (maxCap degree : Int) (compare : K → K → Int) (t0 : ConcurrentBTree K),
      NewConcurrentBTree maxCap degree compare = .ok t0 → DegreeBounds t0 := by
    intro maxCap degree compare t0 h
    rw [NewConcurrentBTree_ok h]
    refine ⟨⟨by simp [BTreeNode.keysOf], ?_⟩, by simp [BTreeNode.nonRootNodes]⟩
    simp only [BTreeNode.keysOf, List.length_nil, Nat.cast_zero]
    split <;> omega
  refine ⟨hnew, Insert_keeps_DegreeBounds, ?_⟩
  intro maxCap degree compare t0 ks t h0 hb
  exact insertAll_keeps DegreeBounds Insert_keeps_DegreeBounds ks t0 t hb
    (hnew maxCap degree compare t0 h0)

theorem built_degree_bounds_witness :
    twoLevelTree.Insert 0 = .ok (twoLevelTreeWithZero, none) ∧
      DegreeBounds twoLevelTree ∧
      twoLevelTreeWithZero.root.nonRootNodes
        = [.mk 1 [0, 1] [] true (.mk 0 [3] [] true .nil), .mk 0 [3] [] true .nil] ∧
      DegreeBounds twoLevelTreeWithZero := by
  have hb : DegreeBounds twoLevelTree := by
    refine ⟨by decide, ?_⟩
    intro n hn
    simp only [twoLevelTree, BTreeNode.nonRootNodes, nodesList, BTreeNode.nodes,
      Bool.false_eq_true, if_false, if_true, List.append_nil, List.singleton_append,
      List.mem_cons, List.mem_singleton, List.not_mem_nil, or_false] at hn
    rcases hn with rfl | rfl <;> decide
  exact ⟨rfl, hb, rfl, built_degree_bounds.2.1 twoLevelTree twoLevelTreeWithZero 0 none rfl hb⟩

theorem scanLeafKeys_spec {K : Type} (compare : K → K → Int) (start end_ : K) :
    ∀ (keys acc : List K), ∃ got : List K,
      scanLeafKeys compare start end_ keys acc
          = (acc ++ got, keys.any (fun key => decide (compare key end_ > 0))) ∧
        got.Sublist keys ∧
        ∀ k ∈ got, compare k start ≥ 0 ∧ compare k end_ ≤ 0 := by
  intro keys
  induction keys with
  | nil => intro acc; exact ⟨[], by simp [scanLeafKeys], List.Sublist.refl _, by simp⟩
  | cons key rest ih =>
    intro acc
    by_cases hin : compare key start ≥ 0 ∧ compare key end_ ≤ 0
    · have hle : ¬ compare key end_ > 0 := by omega
      obtain ⟨got, h1, h2, h3⟩ := ih (acc ++ [key])
      refine ⟨key :: got, ?_, h2.cons₂ key, ?_⟩
      · simp [scanLeafKeys, hin, hle, h1]
      · intro k hk
        rcases List.mem_cons.1 hk with rfl | hk
        · exact hin
        · exact h3 k hk
    · by_cases hgt : compare key end_ > 0
      · exact ⟨[], by simp [scanLeafKeys, hin, hgt], List.nil_sublist _, by simp⟩
      · obtain ⟨got, h1, h2, h3⟩ := ih acc
        exact ⟨got, by simp [scanLeafKeys, hin, hgt, h1], h2.cons key, h3⟩

theorem rangeLoop_spec {K : Type} (compare : K → K → Int) (start end_ : K) :
    ∀ (node : BTreeNode K) (acc : List K), ∃ got : List K,
      rangeLoop compare start end_ node acc = acc ++ got ∧
        got.Sublist (scannedKeys compare end_ node) ∧
        ∀ k ∈ got, compare k start ≥ 0 ∧ compare k end_ ≤ 0
  | .nil, acc => ⟨[], by simp [rangeLoop], List.nil_sublist _, by simp⟩
  | .mk _ keys _ _ next, acc => by
    obtain ⟨got, h1, h2, h3⟩ := scanLeafKeys_spec compare start end_ keys acc
    cases hany : keys.any (fun key => decide (compare key end_ > 0)) with
    | true =>
      rw [hany] at h1
      exact ⟨got, by simp [rangeLoop, h1], by simpa [scannedKeys, hany] using h2, h3⟩
    | false =>
      rw [hany] at h1
      obtain ⟨got2, g1, g2, g3⟩ := rangeLoop_spec compare start end_ next (acc ++ got)
      refine ⟨got ++ got2, by simp [rangeLoop, h1, g1], ?_, ?_⟩
      · simpa [scannedKeys, hany] using h2.append g2
      · intro k hk
        rcases List.mem_append.1 hk with hk | hk
        · exact h3 k hk
        · exact g3 k hk

/-- C27: for every tree, well-formed or not, on which `RangeQuery(start, end)`
completes with a result, the error is nil, every key of the result satisfies
`start <= key <= end` under the comparator, and when the keys of the scanned
leaves, taken along the `next` chain, are in ascending order then so is the
result. -/
theorem RangeQuery_within_range {K : Type} (t : ConcurrentBTree K) (start end_ : K)
    (r : List K × GoError) (h : t.RangeQuery start end_ = .ok r) :
    r.2 = none ∧
      (∀ k ∈ r.1, t.compare k start ≥ 0 ∧ t.compare k end_ ≤ 0) ∧
      ∀ leaf, t.findLeaf start = .ok leaf →
        SortedLE t.compare (scannedKeys t.compare end_ leaf) → SortedLE t.compare r.1 := by
  unfold ConcurrentBTree.RangeQuery at h
  cases hl : t.findLeaf start with
  | error e => rw [hl] at h; cases h
  | ok leaf =>
    rw [hl] at h
    obtain ⟨got, h1, h2, h3⟩ := rangeLoop_spec t.compare start end_ leaf []
    have hr : r = (got, none) := by
      have h4 : (Except.ok (rangeLoop t.compare start end_ leaf [], none) :
          Except Fault (List K × GoError)) = .ok r := h
      rw [h1] at h4
      cases h4
      rfl
    subst hr
    refine ⟨rfl, h3, ?_⟩
    intro leaf2 hl2 hs
    cases hl2
    exact List.Pairwise.sublist h2 hs

theorem RangeQuery_within_range_witness :
    twoLevelTree.RangeQuery 1 3 = .ok ([1, 3], none) ∧
      ((([1, 3], none) : List Int × GoError).2 = none ∧
        (∀ k ∈ (([1, 3], none) : List Int × GoError).1,
          twoLevelTree.compare k 1 ≥ 0 ∧ twoLevelTree.compare k 3 ≤ 0) ∧
        ∀ leaf, twoLevelTree.findLeaf 1 = .ok leaf →
          SortedLE twoLevelTree.compare (scannedKeys twoLevelTree.compare 3 leaf) →
            SortedLE twoLevelTree.compare (([1, 3], none) : List Int × GoError).1) :=
  ⟨rfl, RangeQuery_within_range twoLevelTree 1 3 ([1, 3], none) rfl⟩

end BTree

namespace StackOps

open BTree (Fault GoError goIndex goSliceTo)

/-! ## `Push`, `Pop`, `Peek` -/

theorem Pop_nonempty (xs : List Int) (v : Int) :
    Stack.Pop { elements := xs ++ [v] } = .ok ((v, none), { elements := xs }) := by
  have he : Stack.IsEmpty { elements := xs ++ [v] } = false := by
    simp [Stack.IsEmpty]
  have hi : ((xs ++ [v]).length : Int) - 1 = (xs.length : Int) := by
    simp only [List.length_append, List.length_singleton]; push_cast; omega
  have h1 : goIndex (xs ++ [v]) (xs.length : Int) = .ok v := by
    simp [goIndex]
  have h2 : goSliceTo (xs ++ [v]) (xs.length : Int) = .ok xs := by
    simp [goSliceTo]
  simp only [Stack.Pop, he, Bool.false_eq_true, if_false, hi, h1, h2, bind, Except.bind, pure,
    Except.pure]

theorem Peek_nonempty (xs : List Int) (v : Int) :
    Stack.Peek { elements := xs ++ [v] } = .ok (v, none) := by
  have he : Stack.IsEmpty { elements := xs ++ [v] } = false := by
    simp [Stack.IsEmpty]
  have hi : ((xs ++ [v]).length : Int) - 1 = (xs.length : Int) := by
    simp only [List.length_append, List.length_singleton]; push_cast; omega
  have h1 : goIndex (xs ++ [v]) (xs.length : Int) = .ok v := by
    simp [goIndex]
  simp only [Stack.Peek, he, Bool.false_eq_true, if_false, hi, h1, bind, Except.bind, pure,
    Except.pure]

theorem Pop_Push_eq (s : Stack) (v : Int) : (s.Push v).Pop = .ok ((v, none), s) :=
  Pop_nonempty s.elements v

theorem popN_pushAll (vs : List Int) :
    ∀ s : Stack, popN vs.length (pushAll s vs) = .ok (vs.reverse.map (fun v => (v, none)), s) := by
  induction vs using List.reverseRecOn with
  | nil => intro s; rfl
  | append_singleton vs v ih =>
    intro s
    have hp : ∀ (ws : List Int) (s0 : Stack), pushAll s0 (ws ++ [v]) = (pushAll s0 ws).Push v := by
      intro ws
      induction ws with
      | nil => intro s0; rfl
      | cons w ws ihw => intro s0; exact ihw (s0.Push w)
    rw [hp, List.length_append, List.length_singleton]
    simp only [popN, Pop_Push_eq, bind, Except.bind, ih s, pure, Except.pure,
      List.reverse_append, List.reverse_singleton, List.singleton_append, List.map_cons]

/-- C19: for every stack `s` and every integer `v`, `Pop` after `Push(v)`
returns `v` with a nil error and leaves the stack as `s` was before the push;
and `n` pops after pushing `v1, ..., vn` return `vn, ..., v1`, each with a nil
error, and leave the stack as it was. -/
theorem Push_Pop_lifo (s : Stack) :
    (∀ v : Int, (s.Push v).Pop = .ok ((v, none), s)) ∧
      ∀ vs : List Int,
        popN vs.length (pushAll s vs) = .ok (vs.reverse.map (fun v => (v, none)), s) :=
  ⟨Pop_Push_eq s, fun vs => popN_pushAll vs s⟩

/-- C20: `Pop` and `Peek` never panic; each returns a non-nil error exactly
when `IsEmpty` is true, and then the returned value is 0 and `Pop` leaves the
stack as it was (`Peek` never assigns to the stack); the zero-value stack is
empty. -/
theorem Pop_Peek_error_iff_empty (s : Stack) :
    (∃ v e s1, s.Pop = .ok ((v, e), s1) ∧ (e.isSome = true ↔ s.IsEmpty = true) ∧
        (e.isSome = true → v = 0 ∧ s1 = s)) ∧
      (∃ v e, s.Peek = .ok (v, e) ∧ (e.isSome = true ↔ s.IsEmpty = true) ∧
        (e.isSome = true → v = 0)) ∧
      Stack.IsEmpty { elements := [] } = true := by
  refine ⟨?_, ?_, rfl⟩
  · obtain ⟨elements⟩ := s
    rcases List.eq_nil_or_concat elements with rfl | ⟨xs, v, rfl⟩
    · exact ⟨0, some "stack is empty", _, rfl, by simp [Stack.IsEmpty], fun _ => ⟨rfl, rfl⟩⟩
    · rw [List.concat_eq_append]
      refine ⟨v, none, _, Pop_nonempty xs v, by simp [Stack.IsEmpty], fun h => ?_⟩
      simp at h
  · obtain ⟨elements⟩ := s
    rcases List.eq_nil_or_concat elements with rfl | ⟨xs, v, rfl⟩
    · exact ⟨0, some "stack is empty", rfl, by simp [Stack.IsEmpty], fun _ => rfl⟩
    · rw [List.concat_eq_append]
      refine ⟨v, none, Peek_nonempty xs v, by simp [Stack.IsEmpty], fun h => ?_⟩
      simp at h

end StackOps

namespace SliceOps

/-! ## Go maps -/

theorem mapFind_mapSet {V : Type} (k k1 : Int) (v : V) :
    ∀ m : GoMap V, mapFind k1 (mapSet k v m) = if k1 = k then some v else mapFind k1 m
  | [] => by
    simp only [mapSet, mapFind]
    by_cases h : k = k1
    · simp [h]
    · have : ¬ k1 = k := fun h2 => h h2.symm
      simp [h, this]
  | (k2, v2) :: m => by
    simp only [mapSet]
    by_cases h : k2 = k
    · subst h
      simp only [if_true, mapFind]
      by_cases h1 : k2 = k1
      · simp [h1]
      · have : ¬ k1 = k2 := fun h2 => h1 h2.symm
        simp [h1, this]
    · simp only [h, if_false, mapFind]
      by_cases h1 : k2 = k1
      · have : ¬ k1 = k := fun h2 => h (h1.trans h2)
        simp [h1, this]
      · simp only [h1, if_false]
        exact mapFind_mapSet k k1 v m

theorem mapGet_mapSet {V : Type} [Inhabited V] (k k1 : Int) (v : V) (m : GoMap V) :
    mapGet (mapSet k v m) k1 = if k1 = k then v else mapGet m k1 := by
  unfold mapGet
  rw [mapFind_mapSet]
  split <;> rfl

theorem mapFind_eq_none {V : Type} (k : Int) :
    ∀ m : GoMap V, mapFind k m = none ↔ k ∉ m.map Prod.fst
  | [] => by simp [mapFind]
  | (k2, v2) :: m => by
    simp only [mapFind, List.map_cons, List.mem_cons, not_or]
    by_cases h : k2 = k
    · simp [h]
    · have : ¬ k = k2 := fun h2 => h h2.symm
      simp only [h, if_false, this, not_false_eq_true, true_and]
      exact mapFind_eq_none k m

theorem mem_keys_mapSet {V : Type} (k k1 : Int) (v : V) (m : GoMap V) :
    k1 ∈ (mapSet k v m).map Prod.fst ↔ k1 = k ∨ k1 ∈ m.map Prod.fst := by
  have h1 := mapFind_eq_none k1 (mapSet k v m)
  have h2 := mapFind_eq_none k1 m
  rw [mapFind_mapSet] at h1
  by_cases h : k1 = k
  · simp only [h, if_true, true_or, iff_true]
    by_contra hc
    have := h1.2 (h ▸ hc)
    simp [h] at this
  · simp only [h, if_false, false_or] at h1 ⊢
    constructor
    · intro hm
      by_contra hc
      exact (h1.1 (h2.2 hc)) hm
    · intro hm
      by_contra hc
      exact (h2.1 (h1.2 hc)) hm

theorem nodup_keys_mapSet {V : Type} (k : Int) (v : V) :
    ∀ m : GoMap V, (m.map Prod.fst).Nodup → ((mapSet k v m).map Prod.fst).Nodup
  | [], _ => by simp [mapSet]
  | (k2, v2) :: m, h => by
    simp only [List.map_cons, List.nodup_cons] at h
    simp only [mapSet]
    by_cases hk : k2 = k
    · subst hk
      simp only [if_true, List.map_cons, List.nodup_cons]
      exact h
    · simp only [hk, if_false, List.map_cons, List.nodup_cons]
      refine ⟨?_, nodup_keys_mapSet k v m h.2⟩
      rw [mem_keys_mapSet]
      rintro (h1 | h1)
      · exact hk h1
      · exact h.1 h1

/-! ## The three passes of `CleanupSlice` -/

theorem countOccurrences_fold (xs : List Int) :
    ∀ m : GoMap Int, (m.map Prod.fst).Nodup →
      ((xs.foldl (fun counts num => mapSet num (mapGet counts num + 1) counts) m).map
          Prod.fst).Nodup ∧
        (∀ v, mapGet (xs.foldl (fun counts num => mapSet num (mapGet counts num + 1) counts) m) v
          = mapGet m v + (xs.count v : Int)) ∧
        ∀ v, v ∈ (xs.foldl (fun counts num => mapSet num (mapGet counts num + 1) counts) m).map
          Prod.fst ↔ v ∈ m.map Prod.fst ∨ v ∈ xs := by
  induction xs with
  | nil => intro m h; simp [h]
  | cons x xs ih =>
    intro m h
    obtain ⟨h1, h2, h3⟩ := ih (mapSet x (mapGet m x + 1) m) (nodup_keys_mapSet _ _ m h)
    refine ⟨h1, ?_, ?_⟩
    · intro v
      rw [List.foldl_cons, h2 v, mapGet_mapSet]
      by_cases hv : v = x
      · subst hv
        simp only [if_true, List.count_cons_self]
        push_cast; ring
      · have : ¬ x = v := fun h2 => hv h2.symm
        simp only [hv, if_false, List.count_cons_of_ne hv]
    · intro v
      rw [List.foldl_cons, h3 v, mem_keys_mapSet, List.mem_cons]
      tauto

theorem countOccurrences_get (numbers : List Int) (v : Int) :
    mapGet (countOccurrences numbers) v = (numbers.count v : Int) := by
  have := (countOccurrences_fold numbers [] List.nodup_nil).2.1 v
  simpa [mapGet, mapFind] using this

theorem countOccurrences_nodup (numbers : List Int) :
    ((countOccurrences numbers).map Prod.fst).Nodup :=
  (countOccurrences_fold numbers [] List.nodup_nil).1

theorem countOccurrences_find (numbers : List Int) (v : Int) :
    mapFind v (countOccurrences numbers)
      = if v ∈ numbers then some (numbers.count v : Int) else none := by
  have hk := (countOccurrences_fold numbers [] List.nodup_nil).2.2 v
  have hg := countOccurrences_get numbers v
  simp only [List.map_nil, List.not_mem_nil, false_or] at hk
  by_cases hv : v ∈ numbers
  · simp only [hv, if_true]
    cases hf : mapFind v (countOccurrences numbers) with
    | none => exact absurd (hk.2 hv) ((mapFind_eq_none v _).1 hf)
    | some c =>
      simp only [mapGet, hf, Option.getD_some] at hg
      rw [hg]
  · simp only [hv, if_false]
    exact (mapFind_eq_none v _).2 (fun h => hv (hk.1 h))

theorem collectExcessive_fold (N : Int) (v : Int) :
    ∀ (es ex : GoMap Int), (es.map Prod.fst).Nodup →
      mapFind v (es.foldl
          (fun excessive e => if e.2 > N then mapSet e.1 e.2 excessive else excessive) ex)
        = match mapFind v es with
          | some c => if c > N then some c else mapFind v ex
          | none => mapFind v ex
  | [], ex, _ => by simp [mapFind]
  | (k, c) :: es, ex, h => by
    simp only [List.map_cons, List.nodup_cons] at h
    rw [List.foldl_cons, collectExcessive_fold N v es _ h.2]
    by_cases hk : k = v
    · subst hk
      have hnone : mapFind k es = none := (mapFind_eq_none k es).2 h.1
      simp only [hnone, mapFind, if_true]
      by_cases hc : c > N
      · simp only [hc, if_true, mapFind_mapSet]
      · simp only [hc, if_false]
    · have hvk : ¬ v = k := fun h2 => hk h2.symm
      have hex : mapFind v (if c > N then mapSet k c ex else ex) = mapFind v ex := by
        split
        · rw [mapFind_mapSet, if_neg hvk]
        · rfl
      simp only [mapFind, hk, if_false, hex]

theorem collectExcessive_nodup (N : Int) :
    ∀ (es ex : GoMap Int), (ex.map Prod.fst).Nodup →
      ((es.foldl
          (fun excessive e => if e.2 > N then mapSet e.1 e.2 excessive else excessive) ex).map
        Prod.fst).Nodup
  | [], ex, h => h
  | (k, c) :: es, ex, h => by
    rw [List.foldl_cons]
    apply collectExcessive_nodup N es
    split
    · exact nodup_keys_mapSet _ _ _ h
    · exact h

theorem mem_firstOccurrences (v : Int) : ∀ l : List Int, v ∈ firstOccurrences l ↔ v ∈ l
  | [] => by simp [firstOccurrences]
  | x :: xs => by
    simp only [firstOccurrences, List.mem_cons, List.mem_filter, mem_firstOccurrences v xs,
      decide_eq_true_eq]
    by_cases h : v = x
    · simp [h]
    · simp [h]

theorem nodup_firstOccurrences : ∀ l : List Int, (firstOccurrences l).Nodup
  | [] => by simp [firstOccurrences]
  | x :: xs => by
    simp only [firstOccurrences, List.nodup_cons, List.mem_filter, decide_eq_true_eq]
    exact ⟨fun h => h.2 rfl, (nodup_firstOccurrences xs).filter _⟩

theorem firstOccurrences_sublist : ∀ l : List Int, (firstOccurrences l).Sublist l
  | [] => by simp [firstOccurrences]
  | x :: xs => by
    simp only [firstOccurrences]
    exact ((List.filter_sublist _).trans (firstOccurrences_sublist xs)).cons₂ x

theorem firstOccurrences_concat (x : Int) :
    ∀ l : List Int, firstOccurrences (l ++ [x])
      = if x ∈ l then firstOccurrences l else firstOccurrences l ++ [x]
  | [] => by simp [firstOccurrences]
  | a :: l => by
    have ih := firstOccurrences_concat x l
    show firstOccurrences (a :: (l ++ [x])) = _
    simp only [firstOccurrences, List.mem_cons]
    rw [ih]
    by_cases hxa : x = a
    · subst hxa
      by_cases hxl : x ∈ l
      · simp [hxl]
      · simp [hxl]
    · by_cases hxl : x ∈ l
      · simp [hxa, hxl]
      · simp [hxa, hxl]

theorem mapFind_eq_some_iff {V : Type} (k : Int) (v : V) :
    ∀ m : GoMap V, (m.map Prod.fst).Nodup → (mapFind k m = some v ↔ (k, v) ∈ m)
  | [], _ => by simp [mapFind]
  | (k2, v2) :: m, h => by
    simp only [List.map_cons, List.nodup_cons] at h
    simp only [mapFind, List.mem_cons, Prod.mk.injEq]
    by_cases hk : k2 = k
    · subst hk
      simp only [if_true, Option.some.injEq, true_and]
      constructor
      · intro hv; exact Or.inl hv.symm
      · rintro (hv | hm)
        · exact hv.symm
        · exact absurd (List.mem_map_of_mem Prod.fst hm) h.1
    · have hk2 : ¬ k = k2 := fun h2 => hk h2.symm
      simp only [hk, if_false, hk2, false_and, false_or]
      exact mapFind_eq_some_iff k v m h.2

/-- The map built by the second pass does not depend on the order in which
the `range` loop visits the entries of `counts`. -/
theorem collectExcessive_any_order (N : Int) (counts es : GoMap Int) (hperm : es.Perm counts)
    (hnodup : (counts.map Prod.fst).Nodup) (v : Int) :
    mapFind v (es.foldl
        (fun excessive e => if e.2 > N then mapSet e.1 e.2 excessive else excessive) [])
      = mapFind v (collectExcessive N counts) := by
  have hnodup2 : (es.map Prod.fst).Nodup := (hperm.map Prod.fst).nodup_iff.2 hnodup
  have hfind : mapFind v es = mapFind v counts := by
    cases h1 : mapFind v counts with
    | some c =>
      exact (mapFind_eq_some_iff v c es hnodup2).2
        (hperm.mem_iff.2 ((mapFind_eq_some_iff v c counts hnodup).1 h1))
    | none =>
      rw [mapFind_eq_none] at h1 ⊢
      intro hm
      exact h1 ((hperm.map Prod.fst).mem_iff.1 hm)
  unfold collectExcessive
  rw [collectExcessive_fold N v es [] hnodup2, collectExcessive_fold N v counts [] hnodup, hfind]

/-- The loop of the third pass keeps `result` equal to the first occurrences,
among the elements visited so far, of the values that pass the count test,
and `seen` true exactly on the values of `result`. -/
theorem buildResult_fold (P : Int → Bool) (rest : List Int) :
    ∀ (pre : List Int) (seen : GoMap Bool) (result : List Int),
      result = (firstOccurrences pre).filter P →
      (∀ v, mapGet seen v = true ↔ v ∈ result) →
      (rest.foldl
          (fun st num =>
            if !(mapGet st.1 num) && P num then (mapSet num true st.1, st.2 ++ [num]) else st)
          (seen, result)).2
        = (firstOccurrences (pre ++ rest)).filter P := by
  induction rest with
  | nil => intro pre seen result h1 _; simpa using h1
  | cons x rest ih =>
    intro pre seen result h1 h2
    rw [List.foldl_cons]
    have hpre : pre ++ x :: rest = (pre ++ [x]) ++ rest := by simp
    rw [hpre]
    have hfo := firstOccurrences_concat x pre
    by_cases hc : (!(mapGet seen x) && P x) = true
    · simp only [hc, if_true]
      simp only [Bool.and_eq_true, Bool.not_eq_true', ] at hc
      obtain ⟨hs, hP⟩ := hc
      have hxr : x ∉ result := fun hm => by
        have := (h2 x).2 hm
        rw [hs] at this
        exact absurd this (by simp)
      have hxp : x ∉ pre := fun hm => by
        apply hxr
        rw [h1, List.mem_filter]
        exact ⟨(mem_firstOccurrences x pre).2 hm, hP⟩
      apply ih (pre ++ [x])
      · rw [hfo, if_neg hxp, List.filter_append, ← h1]
        simp [hP]
      · intro v
        rw [mapGet_mapSet, List.mem_append, List.mem_singleton]
        by_cases hv : v = x
        · simp [hv]
        · simp only [hv, if_false, or_false]
          exact h2 v
    · simp only [hc, Bool.false_eq_true, if_false]
      apply ih (pre ++ [x]) seen result _ h2
      rw [hfo]
      by_cases hxp : x ∈ pre
      · rw [if_pos hxp]; exact h1
      · rw [if_neg hxp, List.filter_append, ← h1]
        have hP : P x = false := by
          cases hPx : P x with
          | false => rfl
          | true =>
            exfalso
            apply hc
            simp only [hPx, Bool.and_true, Bool.not_eq_true']
            cases hs : mapGet seen x with
            | false => rfl
            | true =>
              exfalso
              have hm := (h2 x).1 hs
              rw [h1, List.mem_filter] at hm
              exact hxp ((mem_firstOccurrences x pre).1 hm.1)
        simp [hP]

theorem buildResult_eq (N : Int) (numbers : List Int) :
    (buildResult N (countOccurrences numbers) numbers).2 = keptValues numbers N := by
  have h := buildResult_fold (fun v => decide (mapGet (countOccurrences numbers) v ≤ N)) numbers
    [] [] []
    (by simp [firstOccurrences]) (by intro v; simp [mapGet, mapFind])
  simp only [List.nil_append] at h
  unfold buildResult keptValues
  rw [h]
  congr 1
  funext v
  rw [countOccurrences_get]

/-! ## Claims about `CleanupSlice` -/

/-- C17: the slice returned by `CleanupSlice(numbers, N)` has no repeated
value and holds, in order of first occurrence in `numbers`, exactly the values
of `numbers` that occur at most `N` times; the returned map has as keys exactly
the values of `numbers` that occur more than `N` times, each mapped to its
number of occurrences. -/
theorem CleanupSlice_spec (numbers : List Int) (N : Int) :
    (CleanupSlice numbers N).1 = keptValues numbers N ∧
      (CleanupSlice numbers N).1.Nodup ∧
      (CleanupSlice numbers N).1.Sublist numbers ∧
      (∀ v, v ∈ (CleanupSlice numbers N).1 ↔ v ∈ numbers ∧ (numbers.count v : Int) ≤ N) ∧
      ((CleanupSlice numbers N).2.map Prod.fst).Nodup ∧
      ∀ v, mapFind v (CleanupSlice numbers N).2
        = if v ∈ numbers ∧ N < (numbers.count v : Int) then some (numbers.count v : Int)
          else none := by
  have h1 : (CleanupSlice numbers N).1 = keptValues numbers N := buildResult_eq N numbers
  refine ⟨h1, ?_, ?_, ?_, ?_, ?_⟩
  · rw [h1]; exact (nodup_firstOccurrences numbers).filter _
  · rw [h1]; exact (List.filter_sublist _).trans (firstOccurrences_sublist numbers)
  · intro v
    rw [h1]
    simp only [keptValues, List.mem_filter, mem_firstOccurrences, decide_eq_true_eq]
  · exact collectExcessive_nodup N _ [] List.nodup_nil
  · intro v
    show mapFind v (collectExcessive N (countOccurrences numbers)) = _
    unfold collectExcessive
    rw [collectExcessive_fold N v _ [] (countOccurrences_nodup numbers), countOccurrences_find]
    by_cases hv : v ∈ numbers
    · by_cases hc : N < (numbers.count v : Int)
      · simp [hv, hc, mapFind]
      · simp [hv, hc, mapFind]
    · simp [hv, mapFind]

/-- C18 fails on the code as stated: for `[1, 2, 3, 2, 4, 1, 5, 2, 6]` and
`N = 2` the returned slice is not `[1, 2, 3, 4, 5, 6]`: the value 2 occurs
three times and is left out. -/
theorem documented_example_differs :
    (CleanupSlice [1, 2, 3, 2, 4, 1, 5, 2, 6] 2).1 ≠ [1, 2, 3, 4, 5, 6] ∧
      (2 : Int) ∉ (CleanupSlice [1, 2, 3, 2, 4, 1, 5, 2, 6] 2).1 := by
  decide

/-- C18 as amended: `CleanupSlice([1, 2, 3, 2, 4, 1, 5, 2, 6], 2)` returns the
slice `[1, 3, 4, 5, 6]` together with the map `{2: 3}`. -/
theorem CleanupSlice_example :
    CleanupSlice [1, 2, 3, 2, 4, 1, 5, 2, 6] 2 = ([1, 3, 4, 5, 6], [(2, 3)]) := by
  decide

end SliceOps

namespace BinTree

open BTree (Fault)

theorem inOrderRecursive_acc : ∀ (n : Node) (acc : List Int),
    inOrderRecursive n acc = acc ++ inOrderRecursive n []
  | .nil, acc => by simp [inOrderRecursive]
  | .mk v l r, acc => by
    simp only [inOrderRecursive]
    rw [inOrderRecursive_acc r (inOrderRecursive l acc ++ [v]),
      inOrderRecursive_acc r (inOrderRecursive l [] ++ [v]), inOrderRecursive_acc l acc]
    simp

theorem inOrderRecursive_mk (v : Int) (l r : Node) :
    inOrderRecursive (.mk v l r) [] = inOrderRecursive l [] ++ v :: inOrderRecursive r [] := by
  simp only [inOrderRecursive]
  rw [inOrderRecursive_acc r]
  simp

theorem insertRecursive_spec (value : Int) : ∀ (n : Node), n.isNil = false →
    ∃ n1, insertRecursive n value = .ok n1 ∧ n1.isNil = false ∧
      (inOrderRecursive n1 []).Perm (value :: inOrderRecursive n []) ∧
      (Ordered n → Ordered n1) := by
  intro n
  induction n with
  | nil => intro h; cases h
  | mk v l r ihl ihr =>
    intro _
    by_cases hle : value ≤ v
    · cases hl : l.isNil with
      | true =>
        cases l with
        | mk _ _ _ => cases hl
        | nil =>
          refine ⟨.mk v (.mk value .nil .nil) r, by simp [insertRecursive, hle, Node.isNil], rfl,
            ?_, ?_⟩
          · rw [inOrderRecursive_mk, inOrderRecursive_mk value, inOrderRecursive_mk v]
            simp [inOrderRecursive]
          · intro h
            simp only [Ordered, inOrderRecursive_mk, inOrderRecursive] at h ⊢
            exact ⟨by simpa using hle, h.2.1, ⟨by simp, by simp, trivial, trivial⟩, h.2.2.2⟩
      | false =>
        obtain ⟨l1, h1, _, h3, h4⟩ := ihl hl
        refine ⟨.mk v l1 r, ?_, rfl, ?_, ?_⟩
        · simp only [insertRecursive, hle, if_true, hl, h1]
          rfl
        · rw [inOrderRecursive_mk, inOrderRecursive_mk v]
          exact (h3.append_right _).trans (by simp)
        · intro h
          simp only [Ordered] at h ⊢
          refine ⟨?_, h.2.1, h4 h.2.2.1, h.2.2.2⟩
          intro x hx
          rcases List.mem_cons.1 (h3.subset hx) with rfl | hx
          · exact hle
          · exact h.1 x hx
    · cases hr : r.isNil with
      | true =>
        cases r with
        | mk _ _ _ => cases hr
        | nil =>
          refine ⟨.mk v l (.mk value .nil .nil), by simp [insertRecursive, hle, Node.isNil], rfl,
            ?_, ?_⟩
          · rw [inOrderRecursive_mk, inOrderRecursive_mk v, inOrderRecursive_mk]
            simp only [inOrderRecursive, List.nil_append]
            exact ((List.Perm.swap value v []).append_left _).trans List.perm_middle
          · intro h
            simp only [Ordered, inOrderRecursive_mk, inOrderRecursive] at h ⊢
            exact ⟨h.1, by simpa using hle, h.2.2.1, ⟨by simp, by simp, trivial, trivial⟩⟩
      | false =>
        obtain ⟨r1, h1, _, h3, h4⟩ := ihr hr
        refine ⟨.mk v l r1, ?_, rfl, ?_, ?_⟩
        · simp only [insertRecursive, hle, if_false, hr, h1]
          rfl
        · rw [inOrderRecursive_mk, inOrderRecursive_mk v]
          have := (h3.cons v).trans (List.Perm.swap value v _)
          exact ((this.append_left _).trans List.perm_middle)
        · intro h
          simp only [Ordered] at h ⊢
          refine ⟨h.1, ?_, h.2.2.1, h4 h.2.2.2⟩
          intro x hx
          rcases List.mem_cons.1 (h3.subset hx) with rfl | hx
          · omega
          · exact h.2.1 x hx

theorem Insert_spec (t : BinaryTree) (value : Int) :
    ∃ t1, t.Insert value = .ok t1 ∧
      t1.InOrderTraversal.Perm (value :: t.InOrderTraversal) ∧
      (Ordered t.Root → Ordered t1.Root) := by
  cases hn : t.Root.isNil with
  | true =>
    refine ⟨{ Root := .mk value .nil .nil }, by simp [BinaryTree.Insert, hn], ?_, ?_⟩
    · cases hr : t.Root with
      | mk _ _ _ => rw [hr] at hn; cases hn
      | nil => simp [BinaryTree.InOrderTraversal, hr, inOrderRecursive]
    · intro _
      simp [Ordered, inOrderRecursive]
  | false =>
    obtain ⟨n1, h1, _, h3, h4⟩ := insertRecursive_spec value t.Root hn
    refine ⟨{ Root := n1 }, ?_, h3, h4⟩
    simp only [BinaryTree.Insert, hn, h1]
    rfl

theorem insertAll_spec : ∀ (vs : List Int) (t : BinaryTree),
    ∃ t1, t.insertAll vs = .ok t1 ∧
      t1.InOrderTraversal.Perm (vs ++ t.InOrderTraversal) ∧
      (Ordered t.Root → Ordered t1.Root)
  | [], t => ⟨t, rfl, List.Perm.refl _, id⟩
  | v :: vs, t => by
    obtain ⟨t1, h1, h2, h3⟩ := Insert_spec t v
    obtain ⟨t2, g1, g2, g3⟩ := insertAll_spec vs t1
    refine ⟨t2, ?_, ?_, fun h => g3 (h3 h)⟩
    · simp only [BinaryTree.insertAll, h1]
      exact g1
    · exact g2.trans ((h2.append_left vs).trans (by simp))

theorem Ordered_sorted : ∀ (n : Node), Ordered n →
    (inOrderRecursive n []).Pairwise (fun a b => a ≤ b)
  | .nil, _ => by simp [inOrderRecursive]
  | .mk v l r, h => by
    simp only [Ordered] at h
    rw [inOrderRecursive_mk, List.pairwise_append]
    refine ⟨Ordered_sorted l h.2.2.1, ?_, ?_⟩
    · rw [List.pairwise_cons]
      exact ⟨fun x hx => le_of_lt (h.2.1 x hx), Ordered_sorted r h.2.2.2⟩
    · intro a ha b hb
      rcases List.mem_cons.1 hb with rfl | hb
      · exact h.1 a ha
      · exact le_trans (h.1 a ha) (le_of_lt (h.2.1 b hb))

theorem findRecursive_iff (value : Int) : ∀ (n : Node), Ordered n →
    (findRecursive n value = true ↔ value ∈ inOrderRecursive n [])
  | .nil, _ => by simp [findRecursive, inOrderRecursive]
  | .mk v l r, h => by
    simp only [Ordered] at h
    rw [inOrderRecursive_mk]
    simp only [findRecursive, List.mem_append, List.mem_cons]
    by_cases heq : v = value
    · simp [heq]
    · by_cases hlt : value < v
      · simp only [heq, hlt, if_false, if_true]
        rw [findRecursive_iff value l h.2.2.1]
        constructor
        · exact fun hm => Or.inl hm
        · rintro (hm | hm | hm)
          · exact hm
          · exact absurd hm.symm heq
          · have := h.2.1 value hm
            omega
      · simp only [heq, hlt, if_false]
        rw [findRecursive_iff value r h.2.2.2]
        constructor
        · exact fun hm => Or.inr (Or.inr hm)
        · rintro (hm | hm | hm)
          · have := h.1 value hm
            omega
          · exact absurd hm.symm heq
          · exact hm

theorem insertAll_example :
    (BinaryTree.empty.insertAll [3, 1, 2, 1]).toOption.map
        (fun t => (t.InOrderTraversal, t.Find 2, t.Find 4))
      = some ([1, 1, 2, 3], true, false) := rfl

/-- C21: for every finite sequence of integers, inserting them one after the
other with `Insert` into an empty `BinaryTree` succeeds, and `InOrderTraversal`
of the resulting tree is a rearrangement of the inserted sequence (the same
values with the same multiplicities) in non-decreasing order. -/
theorem InOrderTraversal_sorted_inserted (vs : List Int) :
    ∃ t, BinaryTree.empty.insertAll vs = .ok t ∧
      t.InOrderTraversal.Perm vs ∧
      t.InOrderTraversal.Pairwise (fun a b => a ≤ b) := by
  obtain ⟨t, h1, h2, h3⟩ := insertAll_spec vs BinaryTree.empty
  refine ⟨t, h1, ?_, Ordered_sorted t.Root (h3 trivial)⟩
  simpa [BinaryTree.InOrderTraversal, BinaryTree.empty, inOrderRecursive] using h2

/-- C22: for every finite sequence of integers inserted with `Insert` into an
empty `BinaryTree` and every integer `v`, `Find(v)` on the resulting tree is
true exactly when `v` occurs in the sequence; `Find` on the empty tree is
false. -/
theorem Find_iff_inserted (vs : List Int) (v : Int) :
    (∃ t, BinaryTree.empty.insertAll vs = .ok t ∧ (t.Find v = true ↔ v ∈ vs)) ∧
      BinaryTree.empty.Find v = false := by
  obtain ⟨t, h1, h2, h3⟩ := insertAll_spec vs BinaryTree.empty
  refine ⟨⟨t, h1, ?_⟩, rfl⟩
  have h4 : t.InOrderTraversal.Perm vs := by
    simpa [BinaryTree.InOrderTraversal, BinaryTree.empty, inOrderRecursive] using h2
  exact (findRecursive_iff v t.Root (h3 trivial)).trans h4.mem_iff

end BinTree

namespace Fractorial

/-- C23: for every integer `n` with `0 <= n <= 20`, `Factorial(n)` returns the
mathematical `n!` (so `Factorial(0) = 1`), and every product the loop forms
lies in the signed 64-bit range. -/
theorem Factorial_exact (n : Int) (h0 : 0 ≤ n) (h20 : n ≤ 20) :
    Factorial n = some (n.toNat.factorial : Int) ∧
      ∀ p ∈ factorialProducts n (n.toNat + 1) 1 1, -2 ^ 63 ≤ p ∧ p ≤ 2 ^ 63 - 1 := by
  interval_cases n <;> exact ⟨by decide, by decide⟩

theorem Factorial_exact_witness :
    Factorial 20 = some 2432902008176640000 ∧
      (Factorial 20 = some (((20 : Int).toNat.factorial : Nat) : Int) ∧
        ∀ p ∈ factorialProducts 20 ((20 : Int).toNat + 1) 1 1, -2 ^ 63 ≤ p ∧ p ≤ 2 ^ 63 - 1) :=
  ⟨by decide, Factorial_exact 20 (by decide) (by decide)⟩

set_option maxRecDepth 8000 in
theorem Factorial_overflows_at_21 :
    Factorial 21 = some (-4249290049419214848) ∧
      ¬ ∀ p ∈ factorialProducts 21 22 1 1, -2 ^ 63 ≤ p ∧ p ≤ 2 ^ 63 - 1 := by
  decide

end Fractorial

namespace CustomSort

open BTree (GoError)

theorem isValidSortField_iff {H : Type} (pc : PersonCollection H) :
    pc.isValidSortField = true ↔ pc.SortField ∈ ["name", "age", "height"] := by
  unfold PersonCollection.isValidSortField validFields
  by_cases h1 : pc.SortField = "name"
  · simp [List.lookup, h1]
  · by_cases h2 : pc.SortField = "age"
    · simp [List.lookup, h2]
    · by_cases h3 : pc.SortField = "height"
      · simp [List.lookup, h3]
      · have e1 : (pc.SortField == "name") = false := by simpa using h1
        have e2 : (pc.SortField == "age") = false := by simpa using h2
        have e3 : (pc.SortField == "height") = false := by simpa using h3
        simp [List.lookup, e1, e2, e3, h1, h2, h3]

/-- C25: `Sort` returns an error exactly when `SortField` is not one of
"name", "age", "height", whatever `sort.Sort` does; and when it returns an
error the `People` slice is as it was before the call. -/
theorem Sort_error_iff_invalid_field {H : Type}
    (sortSort : PersonCollection H → PersonCollection H) (pc : PersonCollection H) :
    ((pc.Sort sortSort).2 ≠ none ↔ pc.SortField ∉ ["name", "age", "height"]) ∧
      ((pc.Sort sortSort).2 ≠ none → (pc.Sort sortSort).1.People = pc.People) := by
  have hv := isValidSortField_iff pc
  unfold PersonCollection.Sort
  cases hb : pc.isValidSortField with
  | true =>
    rw [hb] at hv
    simp [hv.1 rfl]
  | false =>
    rw [hb] at hv
    have : pc.SortField ∉ ["name", "age", "height"] := fun h => by simpa using hv.2 h
    simp [this]

theorem Sort_error_iff_invalid_field_witness :
    byWeight.Sort id = (byWeight, some "invalid sort field: weight") ∧
      (((byWeight.Sort id).2 ≠ none ↔ byWeight.SortField ∉ ["name", "age", "height"]) ∧
        ((byWeight.Sort id).2 ≠ none → (byWeight.Sort id).1.People = byWeight.People)) :=
  ⟨rfl, Sort_error_iff_invalid_field id byWeight⟩

end CustomSort

namespace Palindrome

open BTree (Fault goIndex)

theorem cleanRunes_eq (isLetter isNumber : Char → Bool) (toLower : Char → Char) :
    ∀ (s acc : List Char), cleanRunes isLetter isNumber toLower s acc
      = acc ++ (s.filter (fun c => isLetter c || isNumber c)).map toLower := by
  intro s
  induction s with
  | nil => intro acc; simp [cleanRunes]
  | cons c rest ih =>
    intro acc
    simp only [cleanRunes]
    rw [ih]
    cases h : (isLetter c || isNumber c) <;> simp [List.filter, h]

theorem goIndex_nat {α : Type} (s : List α) (i : Nat) (h : i < s.length) :
    goIndex s (i : Int) = .ok (s.get ⟨i, h⟩) := by
  simp [goIndex, List.getElem?_eq_getElem h]

theorem reverse_eq_iff_mirror (xs : List Char) :
    xs = xs.reverse ↔ ∀ i, i < xs.length → xs[i]? = xs[xs.length - 1 - i]? := by
  constructor
  · intro h i hi
    have h2 := @List.getElem?_reverse _ xs i hi
    rw [← h] at h2
    exact h2
  · intro h
    apply List.ext_getElem?
    intro i
    by_cases hi : i < xs.length
    · rw [List.getElem?_reverse hi]
      exact h i hi
    · have hle : xs.length ≤ i := Nat.le_of_not_lt hi
      rw [List.getElem?_eq_none hle, List.getElem?_eq_none (by simpa using hle)]

theorem mirror_of_prefix (xs : List Char) (k : Nat) (hk : (xs.length : Int) - 1 - k ≤ k)
    (hinv : ∀ i, i < k → xs[i]? = xs[xs.length - 1 - i]?) :
    ∀ i, i < xs.length → xs[i]? = xs[xs.length - 1 - i]? := by
  intro i hi
  by_cases hik : i < k
  · exact hinv i hik
  · by_cases hj : xs.length - 1 - i < k
    · have h2 := hinv (xs.length - 1 - i) hj
      have e : xs.length - 1 - (xs.length - 1 - i) = i := by omega
      rw [e] at h2
      exact h2.symm
    · have e : xs.length - 1 - i = i := by omega
      rw [e]

theorem comparePairs_spec (xs : List Char) : ∀ (fuel k : Nat),
    xs.length ≤ k + fuel →
    (∀ i, i < k → xs[i]? = xs[xs.length - 1 - i]?) →
    comparePairs xs (fuel + 1) (k : Int) ((xs.length : Int) - 1 - k)
      = .ok (decide (∀ i, i < xs.length → xs[i]? = xs[xs.length - 1 - i]?)) := by
  intro fuel
  induction fuel with
  | zero =>
    intro k hk hinv
    have hlt : ¬ ((k : Int) < (xs.length : Int) - 1 - k) := by omega
    have hall := mirror_of_prefix xs k (by omega) hinv
    simp only [comparePairs, hlt, if_false, decide_eq_true hall]
    rfl
  | succ fuel ih =>
    intro k hk hinv
    by_cases hlt : (k : Int) < (xs.length : Int) - 1 - k
    · have hk1 : k < xs.length := by omega
      have hk2 : xs.length - 1 - k < xs.length := by omega
      have er : (xs.length : Int) - 1 - k = ((xs.length - 1 - k : Nat) : Int) := by omega
      have hstep : comparePairs xs (fuel + 1 + 1) (k : Int) ((xs.length : Int) - 1 - k)
          = if xs.get ⟨k, hk1⟩ ≠ xs.get ⟨xs.length - 1 - k, hk2⟩ then .ok false
            else comparePairs xs (fuel + 1) ((k : Int) + 1) ((xs.length : Int) - 1 - k - 1) := by
        rw [comparePairs, if_pos hlt, er, goIndex_nat xs k hk1, goIndex_nat xs _ hk2]
        rfl
      rw [hstep]
      by_cases hne : xs.get ⟨k, hk1⟩ ≠ xs.get ⟨xs.length - 1 - k, hk2⟩
      · rw [if_pos hne]
        have hnot : ¬ ∀ i, i < xs.length → xs[i]? = xs[xs.length - 1 - i]? := by
          intro hall
          have h2 := hall k hk1
          rw [List.getElem?_eq_getElem hk1, List.getElem?_eq_getElem hk2] at h2
          exact hne (Option.some.inj h2)
        rw [decide_eq_false hnot]
      · rw [if_neg hne]
        have heq : xs.get ⟨k, hk1⟩ = xs.get ⟨xs.length - 1 - k, hk2⟩ := not_not.1 hne
        have e2 : (xs.length : Int) - 1 - k - 1 = (xs.length : Int) - 1 - ((k + 1 : Nat) : Int) := by
          push_cast; ring
        have e3 : (k : Int) + 1 = ((k + 1 : Nat) : Int) := by push_cast; ring
        rw [e2, e3]
        apply ih (k + 1) (by omega)
        intro i hi
        by_cases hik : i < k
        · exact hinv i hik
        · have e : i = k := by omega
          subst e
          rw [List.getElem?_eq_getElem hk1, List.getElem?_eq_getElem hk2]
          exact congrArg some heq
    · have hall := mirror_of_prefix xs k (by omega) hinv
      simp only [comparePairs, hlt, if_false, decide_eq_true hall]
      rfl

theorem IsPalindrome_eq_decide (isLetter isNumber : Char → Bool) (toLower : Char → Char)
    (s : String) :
    IsPalindrome isLetter isNumber toLower s
      = .ok (decide (lettersAndDigits isLetter isNumber toLower s
          = (lettersAndDigits isLetter isNumber toLower s).reverse)) := by
  unfold IsPalindrome lettersAndDigits
  simp only [cleanRunes_eq, List.nil_append]
  generalize (s.data.filter (fun c => isLetter c || isNumber c)).map toLower = xs
  have h := comparePairs_spec xs xs.length 0 (by omega) (by intro i hi; omega)
  simp only [Nat.cast_zero, sub_zero] at h
  rw [h]
  congr 1
  exact decide_eq_decide.2 (reverse_eq_iff_mirror xs).symm

/-- C24: for every string `s`, `IsPalindrome(s)` returns, and returns true
exactly when the letters and digits of `s`, lower-cased and with every other
character dropped, read the same in both directions; the empty string and
"A man, a plan, a canal, Panama!" give true. -/
theorem IsPalindrome_iff_cleaned_reverse :
    (∀ (isLetter isNumber : Char → Bool) (toLower : Char → Char) (s : String),
      IsPalindrome isLetter isNumber toLower s
        = .ok (decide (lettersAndDigits isLetter isNumber toLower s
            = (lettersAndDigits isLetter isNumber toLower s).reverse))) ∧
      IsPalindrome asciiLetter asciiDigit asciiLower "" = .ok true ∧
      IsPalindrome asciiLetter asciiDigit asciiLower "A man, a plan, a canal, Panama!"
        = .ok true :=
  ⟨IsPalindrome_eq_decide, rfl, rfl⟩

theorem IsPalindrome_rejects_example :
    IsPalindrome asciiLetter asciiDigit asciiLower "Go, gopher" = .ok false := rfl

end Palindrome

namespace StringProcessor

open BTree (GoError)

/-- C26: on the input `{{a:b}:c} {b:c}`, whose two patterns `(a, b)` and
`(b, c)` have non-blank keys and values, `ProcessString` returns
`c {b:c}` with a nil error: the second replacement hits the text that the
first one formed at the front, and the second pattern stays where it was
matched.  Replacing each pattern where it was matched gives `{b:c} c`, which
is not what is returned.  The example of the problem statement is processed
as documented. -/
theorem ProcessString_replaces_other_occurrence :
    ProcessString Char.isWhitespace nestedInput
        = ("c \x7bb:c\x7d", [{ Key := "a", Value := "b" }, { Key := "b", Value := "c" }], none) ∧
      String.mk (replacedInPlace Char.isWhitespace nestedInput.data 0) = "\x7bb:c\x7d c" ∧
      (ProcessString Char.isWhitespace nestedInput).1
        ≠ String.mk (replacedInPlace Char.isWhitespace nestedInput.data 0) ∧
      ProcessString Char.isWhitespace helloInput
        = ("Hello John, your ID is 123",
            [{ Key := "name", Value := "John" }, { Key := "id", Value := "123" }], none) := by
  decide

end StringProcessor
